import Mathlib

/-!
# Signal recording, pending actions and the systhreads master lock

A shallow embedding of `runtime/signals.c` and `otherlibs/systhreads4/st_posix.h`.

* Machine words (`uintnat`) are natural numbers below `2 ^ BITS_PER_WORD`; C `int`s are
  integers.
* The mutable globals read or written by the embedded functions are the fields of `World`.
* Functions of the runtime that are not part of the embedded sources (the callback primitive,
  the collector's interrupt handling, memprof, finalisers, ...) are the fields of `Env`: they
  are arbitrary state transformers, and every theorem states which frame conditions it needs.
* Every call to such an external function is appended to a trace kept next to the world, so
  that "is invoked", "exactly once" and "before" are statements about this trace.
-/

namespace Caml

/-- An OCaml value: one machine word. -/
abbrev value := Int

/-- Build constants and macros that come from headers outside the embedded sources
(`<signal.h>`, `caml/config.h`, `caml/signals.h`, `caml/mlvalues.h`). -/
structure Platform where
  /-- `NSIG` of `<signal.h>`. -/
  NSIG : Nat
  /-- `BITS_PER_WORD`, the width of `uintnat`. -/
  BITS_PER_WORD : Nat
  /-- `NSIG_WORDS`, the size of `caml_pending_signals`. -/
  NSIG_WORDS : Nat
  /-- Whether `POSIX_SIGNALS` is defined. -/
  POSIX_SIGNALS : Bool
  /-- The table `posix_signals`, whose entries are the platform's `SIGABRT`, `SIGALRM`, ... -/
  posix_signals : List Int
  /-- `Val_unit`. -/
  Val_unit : value
  /-- `Val_int`. -/
  Val_int : Int → value
  /-- `Is_exception_result`. -/
  Is_exception_result : value → Bool
  /-- `Extract_exception`. -/
  Extract_exception : value → value
  /-- `ENOMEM` of `<errno.h>`. -/
  ENOMEM : Int := 12

/-- The pending-signal array has room for every valid signal number `1 .. NSIG - 1`, a word
has at least one bit, and `Val_unit` is not an exception result. -/
def Platform.wf (p : Platform) : Prop :=
  0 < p.BITS_PER_WORD ∧ p.NSIG ≤ p.NSIG_WORDS * p.BITS_PER_WORD + 1 ∧
    p.Is_exception_result p.Val_unit = false

instance (p : Platform) : Decidable p.wf := by
  unfold Platform.wf; infer_instance

/-- A thread signal mask (`sigset_t`): the set of blocked signal numbers. -/
abbrev sigset_t := Int → Bool

/-- The disposition of a signal in the operating system (`sa_handler`): `SIG_DFL`, `SIG_IGN`,
the function `handle_signal` of `signals.c`, or some other C function. -/
inductive sighandler where
  | SIG_DFL
  | SIG_IGN
  | handle_signal
  | other (fn : Nat)
  deriving DecidableEq, Repr

/-- The mutable state the embedded functions read or write. -/
structure World (σ : Type) where
  /-- `caml_pending_signals[NSIG_WORDS]`. -/
  caml_pending_signals : List Nat
  /-- The signal mask of the calling thread, as `pthread_sigmask` reads and writes it. -/
  sigmask : sigset_t
  /-- `Caml_state->action_pending`. -/
  action_pending : Int
  /-- `errno`. -/
  errno : Int
  /-- The fields of the block `caml_signal_handlers`. -/
  caml_signal_handlers : List value
  /-- Everything else (heap, domain state, other threads). -/
  rest : σ
  /-- `Caml_state->in_minor_collection`. -/
  in_minor_collection : Int := 0
  /-- The signal dispositions of the process, as `sigaction` reads and writes them. -/
  sigactions : Int → sighandler := fun _ => sighandler.SIG_DFL

/-- The calls to functions outside the embedded sources, in the order they are made. -/
inductive Event where
  | interrupt_all_signal_safe
  | callback_exn (signal_number : Int) (handler : value) (signum : value)
  | handle_gc_interrupt
  | memprof_run_callbacks_exn
  | final_do_calls_exn
  | process_external_interrupt
  | enter_blocking_section_hook
  | leave_blocking_section_hook
  deriving DecidableEq, Repr

/-- One call to an external function: which one, the world it was entered with and the world
it returned. -/
structure Call (σ : Type) where
  ev : Event
  pre : World σ
  post : World σ

/-- A world together with the trace of external calls made so far. -/
structure St (σ : Type) where
  w : World σ
  trace : List (Call σ)

/-- The signal number of a signal-handler call, `none` for any other external call. -/
def Event.executed_signal : Event → Option Int
  | Event.callback_exn signal_number _ _ => some signal_number
  | _ => none

/-- The external calls that may run OCaml code (the delayable actions). -/
def Event.delayable : Event → Bool
  | Event.callback_exn _ _ _ => true
  | Event.memprof_run_callbacks_exn => true
  | Event.final_do_calls_exn => true
  | Event.process_external_interrupt => true
  | _ => false

/-- The runtime functions called by the embedded code but defined elsewhere. -/
structure Env (σ : Type) where
  /-- `caml_interrupt_all_signal_safe()`. -/
  caml_interrupt_all_signal_safe : World σ → World σ
  /-- `caml_callback_exn(closure, arg)`. -/
  caml_callback_exn : value → value → World σ → World σ × value
  /-- `Caml_check_gc_interrupt(Caml_state)`. -/
  Caml_check_gc_interrupt : World σ → Bool
  /-- `caml_handle_gc_interrupt()`. -/
  caml_handle_gc_interrupt : World σ → World σ
  /-- `caml_memprof_run_callbacks_exn()`. -/
  caml_memprof_run_callbacks_exn : World σ → World σ × value
  /-- `caml_final_do_calls_exn()`. -/
  caml_final_do_calls_exn : World σ → World σ × value
  /-- `caml_process_external_interrupt()`. -/
  caml_process_external_interrupt : World σ → World σ
  /-- `caml_named_value(name)`, dereferenced; `none` is `NULL`. -/
  caml_named_value : String → Option value
  /-- The function `caml_enter_blocking_section_hook` points to. -/
  caml_enter_blocking_section_hook : World σ → World σ
  /-- The function `caml_leave_blocking_section_hook` points to. -/
  caml_leave_blocking_section_hook : World σ → World σ
  /-- Whether `sigaction(signo, ...)` (or `signal(signo, ...)`) fails for `signo`. -/
  sigaction_fails : Int → Bool

/-! ## The pending-signal bit vector -/

/-- `atomic_load_relaxed(&caml_pending_signals[i])`. -/
def atomic_load (words : List Nat) (i : Nat) : Nat :=
  words.getD i 0

/-- `atomic_fetch_or(&caml_pending_signals[i], v)`, the stored array. -/
def atomic_fetch_or (words : List Nat) (i : Nat) (v : Nat) : List Nat :=
  words.set i (atomic_load words i ||| v)

/-- `atomic_store` of a word, as done by a successful compare-and-swap. -/
def atomic_store (words : List Nat) (i : Nat) (v : Nat) : List Nat :=
  words.set i v

/-- Bit `b` of word `w` of the pending-signal array. -/
def pending_bit (words : List Nat) (w b : Nat) : Bool :=
  (atomic_load words w).testBit b

/-- `sigismember(&set, signo)`. -/
def sigismember (set : sigset_t) (signo : Int) : Bool :=
  set signo

/-- `caml_record_signal`. -/
def caml_record_signal {σ : Type} (p : Platform) (env : Env σ) (signal_number : Int)
    (s : St σ) : St σ :=
  if signal_number ≤ 0 ∨ signal_number ≥ p.NSIG then s
  else
    let i : Nat := (signal_number - 1).toNat
    let words := atomic_fetch_or s.w.caml_pending_signals (i / p.BITS_PER_WORD)
      (1 <<< (i % p.BITS_PER_WORD))
    let w1 : World σ := { s.w with caml_pending_signals := words }
    let w2 := env.caml_interrupt_all_signal_safe w1
    { w := w2, trace := s.trace ++ [⟨Event.interrupt_all_signal_safe, w1, w2⟩] }

/-- The signal number of bit `j` of word `i`: `i * BITS_PER_WORD + j + 1`. -/
def signo_of (p : Platform) (i j : Nat) : Int :=
  ((i * p.BITS_PER_WORD + j + 1 : Nat) : Int)

/-- The inner loop of `check_pending_unblocked_signals`, over the bit positions `js`. -/
def check_pending_unblocked_bits (p : Platform) (set : sigset_t) (curr i : Nat) :
    List Nat → Bool
  | [] => false
  | j :: js =>
    let mask : Nat := 1 <<< j
    let signo : Int := signo_of p i j
    if (curr &&& mask) ≠ 0 ∧ ¬ sigismember set signo = true then true
    else check_pending_unblocked_bits p set curr i js

/-- The outer loop of `check_pending_unblocked_signals`, over the word indices `is`. -/
def check_pending_unblocked_words (p : Platform) (set : sigset_t) (words : List Nat) :
    List Nat → Bool
  | [] => false
  | i :: is =>
    let curr := atomic_load words i
    if curr = 0 then check_pending_unblocked_words p set words is
    else if check_pending_unblocked_bits p set curr i (List.range p.BITS_PER_WORD) then true
    else check_pending_unblocked_words p set words is

/-- `check_pending_unblocked_signals`. -/
def check_pending_unblocked_signals {σ : Type} (p : Platform) (w : World σ) : Bool :=
  let set := w.sigmask
  check_pending_unblocked_words p set w.caml_pending_signals (List.range p.NSIG_WORDS)

/-- `caml_check_pending_signals`. -/
def caml_check_pending_signals {σ : Type} (p : Platform) (w : World σ) : Bool :=
  let pending := (List.range p.NSIG_WORDS).foldl
    (fun pending i => if atomic_load w.caml_pending_signals i ≠ 0 then true else pending) false
  if p.POSIX_SIGNALS then
    if pending then check_pending_unblocked_signals p w else pending
  else pending

/-! ## Signal-number conversion and handler execution -/

/-- The loop of `caml_rev_convert_signal_number`, at index `i` of the table. -/
def rev_convert_loop (signo : Int) : List Int → Nat → Int
  | [], _ => signo
  | x :: xs, i => if signo = x then -(i : Int) - 1 else rev_convert_loop signo xs (i + 1)

/-- `caml_rev_convert_signal_number`. -/
def caml_rev_convert_signal_number (p : Platform) (signo : Int) : Int :=
  rev_convert_loop signo p.posix_signals 0

/-- `Field(caml_signal_handlers, i)`. -/
def signal_handler_field {σ : Type} (w : World σ) (i : Int) : value :=
  w.caml_signal_handlers.getD i.toNat 0

/-- `caml_execute_signal_exn`. -/
def caml_execute_signal_exn {σ : Type} (p : Platform) (env : Env σ) (signal_number : Int)
    (s : St σ) : St σ × value :=
  let sigs := s.w.sigmask
  let w1 : World σ :=
    if p.POSIX_SIGNALS then
      { s.w with sigmask := fun x => sigs x || decide (x = signal_number) }
    else s.w
  let handler := signal_handler_field w1 signal_number
  let signum := p.Val_int (caml_rev_convert_signal_number p signal_number)
  let r := env.caml_callback_exn handler signum w1
  let w2 : World σ := if p.POSIX_SIGNALS then { r.1 with sigmask := sigs } else r.1
  ({ w := w2,
     trace := s.trace ++ [⟨Event.callback_exn signal_number handler signum, w1, r.1⟩] },
    r.2)

/-! ## Draining the pending signals -/

/-- `~mask` on a `uintnat`. -/
def uintnat_not (p : Platform) (mask : Nat) : Nat :=
  2 ^ p.BITS_PER_WORD - 1 - mask

/-- How the compare-and-swap loop of `caml_process_pending_signals_exn` is left. -/
inductive CasExit where
  | cleared (stored : Nat)
  | next_word
  | next_bit (curr : Nat)
  deriving DecidableEq, Repr

/-- The loop `while (!atomic_compare_exchange_strong(&w, &curr, curr & ~mask)) ...` run against
the memory word `mem`. When the first exchange fails `curr` is refreshed from `mem`; no other
thread being modelled, the retried exchange then compares `mem` with itself and succeeds. -/
def cas_clear_loop (p : Platform) (mem curr mask : Nat) : CasExit :=
  if mem = curr then CasExit.cleared (curr &&& uintnat_not p mask)
  else if mem = 0 then CasExit.next_word
  else if mem &&& mask = 0 then CasExit.next_bit mem
  else CasExit.cleared (mem &&& uintnat_not p mask)

/-- The store made by a successful `atomic_compare_exchange_strong` on
`caml_pending_signals[i]`. -/
def cas_store {σ : Type} (s : St σ) (i stored : Nat) : St σ :=
  { s with w := { s.w with
      caml_pending_signals := atomic_store s.w.caml_pending_signals i stored } }

/-- The loop over the bit positions `js` of word `i` in `caml_process_pending_signals_exn`.
The result is `some exn` when the function returns `exn` from inside the loop, and `none`
when control reaches `next_word`. -/
def process_pending_bits {σ : Type} (p : Platform) (env : Env σ) (set : sigset_t) (i : Nat) :
    List Nat → Nat → St σ → St σ × Option value
  | [], _, s => (s, none)
  | j :: js, curr, s =>
    let mask : Nat := 1 <<< j
    if curr &&& mask = 0 then process_pending_bits p env set i js curr s
    else
      let signo : Int := signo_of p i j
      if p.POSIX_SIGNALS && sigismember set signo then
        process_pending_bits p env set i js curr s
      else
        match cas_clear_loop p (atomic_load s.w.caml_pending_signals i) curr mask with
        | CasExit.next_word => (s, none)
        | CasExit.next_bit curr1 => process_pending_bits p env set i js curr1 s
        | CasExit.cleared stored =>
          let s1 := cas_store s i stored
          let r := caml_execute_signal_exn p env signo s1
          if p.Is_exception_result r.2 then (r.1, some r.2)
          else
            let curr2 := atomic_load r.1.w.caml_pending_signals i
            if curr2 = 0 then (r.1, none)
            else process_pending_bits p env set i js curr2 r.1

/-- The loop over the word indices `is` in `caml_process_pending_signals_exn`. -/
def process_pending_words {σ : Type} (p : Platform) (env : Env σ) (set : sigset_t) :
    List Nat → St σ → St σ × value
  | [], s => (s, p.Val_unit)
  | i :: is, s =>
    let curr := atomic_load s.w.caml_pending_signals i
    if curr = 0 then process_pending_words p env set is s
    else
      match process_pending_bits p env set i (List.range p.BITS_PER_WORD) curr s with
      | (s1, some exn) => (s1, exn)
      | (s1, none) => process_pending_words p env set is s1

/-- `caml_process_pending_signals_exn`. -/
def caml_process_pending_signals_exn {σ : Type} (p : Platform) (env : Env σ) (s : St σ) :
    St σ × value :=
  if ¬ caml_check_pending_signals p s.w = true then (s, p.Val_unit)
  else
    let set := s.w.sigmask
    process_pending_words p env set (List.range p.NSIG_WORDS) s

/-! ## Pending asynchronous actions -/

/-- The exceptions raised by the embedded functions themselves (`caml_invalid_argument`,
`caml_sys_error`, `caml_raise_sys_error`, `caml_raise_out_of_memory`). -/
inductive Exception where
  | Invalid_argument (msg : String)
  | Sys_error (msg : String)
  | Out_of_memory
  deriving DecidableEq, Repr

/-- How a runtime function is left: it returns to its caller, or it does not (the process dies
in `caml_fatal_uncaught_exception_with_message` or `caml_fatal_error`, an asynchronous
exception is raised past the caller by `caml_raise_async`, or the function raises an exception
of its own). -/
inductive Outcome (σ : Type) (α : Type) where
  | returned (a : α) (s : St σ)
  | fatal_uncaught_exception (exn : value) (msg : String) (s : St σ)
  | raise_async (exn : value) (s : St σ)
  | fatal_error (msg : String) (s : St σ)
  | raise_exception (e : Exception) (s : St σ)

/-- The state in which a runtime function is left. -/
def Outcome.state {σ α : Type} : Outcome σ α → St σ
  | Outcome.returned _ s => s
  | Outcome.fatal_uncaught_exception _ _ s => s
  | Outcome.raise_async _ s => s
  | Outcome.fatal_error _ s => s
  | Outcome.raise_exception _ s => s

/-- `check_async_exn`. -/
def check_async_exn {σ : Type} (p : Platform) (env : Env σ) (res : value) (msg : String)
    (s : St σ) : Outcome σ Unit :=
  if ¬ p.Is_exception_result res = true then Outcome.returned () s
  else
    let exn := p.Extract_exception res
    match env.caml_named_value "Sys.Break" with
    | some break_exn =>
      if exn = break_exn then Outcome.returned () s
      else Outcome.fatal_uncaught_exception exn msg s
    | none => Outcome.fatal_uncaught_exception exn msg s

/-- `caml_set_action_pending`. -/
def caml_set_action_pending {σ : Type} (w : World σ) : World σ :=
  { w with action_pending := 1 }

/-- The code at the label `exception:` of `caml_do_pending_actions_exn`. -/
def do_pending_actions_exception {σ : Type} (exn : value) (s : St σ) : Outcome σ value :=
  Outcome.returned exn { s with w := caml_set_action_pending s.w }

/-- `caml_do_pending_actions_exn`, from the call of finalisers on. -/
def do_pending_actions_final {σ : Type} (p : Platform) (env : Env σ) (s : St σ) :
    Outcome σ value :=
  let r := env.caml_final_do_calls_exn s.w
  let s1 : St σ := { w := r.1, trace := s.trace ++ [⟨Event.final_do_calls_exn, s.w, r.1⟩] }
  let exn := r.2
  match check_async_exn p env exn "finaliser" s1 with
  | Outcome.returned _ s2 =>
    if p.Is_exception_result exn then do_pending_actions_exception exn s2
    else
      let w3 := env.caml_process_external_interrupt s2.w
      Outcome.returned p.Val_unit
        { w := w3, trace := s2.trace ++ [⟨Event.process_external_interrupt, s2.w, w3⟩] }
  | Outcome.fatal_uncaught_exception e m s2 => Outcome.fatal_uncaught_exception e m s2
  | Outcome.raise_async e s2 => Outcome.raise_async e s2
  | Outcome.fatal_error m s2 => Outcome.fatal_error m s2
  | Outcome.raise_exception e s2 => Outcome.raise_exception e s2

/-- `caml_do_pending_actions_exn`, from the call of memprof callbacks on. -/
def do_pending_actions_memprof {σ : Type} (p : Platform) (env : Env σ) (s : St σ) :
    Outcome σ value :=
  let r := env.caml_memprof_run_callbacks_exn s.w
  let s1 : St σ :=
    { w := r.1, trace := s.trace ++ [⟨Event.memprof_run_callbacks_exn, s.w, r.1⟩] }
  let exn := r.2
  match check_async_exn p env exn "memprof callback" s1 with
  | Outcome.returned _ s2 =>
    if p.Is_exception_result exn then do_pending_actions_exception exn s2
    else do_pending_actions_final p env s2
  | Outcome.fatal_uncaught_exception e m s2 => Outcome.fatal_uncaught_exception e m s2
  | Outcome.raise_async e s2 => Outcome.raise_async e s2
  | Outcome.fatal_error m s2 => Outcome.fatal_error m s2
  | Outcome.raise_exception e s2 => Outcome.raise_exception e s2

/-- The first two statements of `caml_do_pending_actions_exn`:
`caml_handle_gc_interrupt(); Caml_state->action_pending = 0;`. -/
def do_pending_actions_begin {σ : Type} (env : Env σ) (s : St σ) : St σ :=
  let w1 := env.caml_handle_gc_interrupt s.w
  { w := { w1 with action_pending := 0 },
    trace := s.trace ++ [⟨Event.handle_gc_interrupt, s.w, w1⟩] }

/-- `caml_do_pending_actions_exn`. -/
def caml_do_pending_actions_exn {σ : Type} (p : Platform) (env : Env σ) (s : St σ) :
    Outcome σ value :=
  let s2 := do_pending_actions_begin env s
  let r := caml_process_pending_signals_exn p env s2
  let exn := r.2
  match check_async_exn p env exn "signal handler" r.1 with
  | Outcome.returned _ s3 =>
    if p.Is_exception_result exn then do_pending_actions_exception exn s3
    else do_pending_actions_memprof p env s3
  | Outcome.fatal_uncaught_exception e m s3 => Outcome.fatal_uncaught_exception e m s3
  | Outcome.raise_async e s3 => Outcome.raise_async e s3
  | Outcome.fatal_error m s3 => Outcome.fatal_error m s3
  | Outcome.raise_exception e s3 => Outcome.raise_exception e s3

/-! ## Explicit drains -/

/-- Sequencing of runtime functions: `f` runs if `o` returned, otherwise the way `o` was left
is passed on. -/
def Outcome.bind {σ α β : Type} (o : Outcome σ α) (f : α → St σ → Outcome σ β) :
    Outcome σ β :=
  match o with
  | Outcome.returned a s => f a s
  | Outcome.fatal_uncaught_exception e m s => Outcome.fatal_uncaught_exception e m s
  | Outcome.raise_async e s => Outcome.raise_async e s
  | Outcome.fatal_error m s => Outcome.fatal_error m s
  | Outcome.raise_exception e s => Outcome.raise_exception e s

/-- The value a runtime function returned, `none` when it did not return. -/
def Outcome.value? {σ α : Type} : Outcome σ α → Option α
  | Outcome.returned a _ => some a
  | _ => none

/-- The exception and message of `caml_fatal_uncaught_exception_with_message`, `none` when
the function was left in another way. -/
def Outcome.fatal? {σ α : Type} : Outcome σ α → Option (value × String)
  | Outcome.fatal_uncaught_exception e m _ => some (e, m)
  | _ => none

/-- The exception passed to `caml_raise_async`, `none` when the function was left in another
way. -/
def Outcome.async? {σ α : Type} : Outcome σ α → Option value
  | Outcome.raise_async e _ => some e
  | _ => none

/-- The exception raised by the function itself, `none` when it was left in another way. -/
def Outcome.exception? {σ α : Type} : Outcome σ α → Option Exception
  | Outcome.raise_exception e _ => some e
  | _ => none

/-- `exn == *caml_named_value("Sys.Break")`, the pointer not being `NULL`. -/
def is_sys_break {σ : Type} (env : Env σ) (exn : value) : Prop :=
  env.caml_named_value "Sys.Break" = some exn

instance {σ : Type} (env : Env σ) (exn : value) : Decidable (is_sys_break env exn) := by
  unfold is_sys_break; infer_instance

/-- `caml_raise_async_if_exception`. -/
def caml_raise_async_if_exception {σ : Type} (p : Platform) (env : Env σ) (res : value)
    (location : String) (s : St σ) : Outcome σ value :=
  if p.Is_exception_result res then
    (check_async_exn p env res location s).bind fun _ s1 =>
      Outcome.raise_async (p.Extract_exception res) s1
  else Outcome.returned res s

/-- `check_pending_actions`. -/
def check_pending_actions {σ : Type} (env : Env σ) (w : World σ) : Bool :=
  env.Caml_check_gc_interrupt w || decide (w.action_pending ≠ 0)

/-- `caml_check_pending_actions`. -/
def caml_check_pending_actions {σ : Type} (env : Env σ) (w : World σ) : Bool :=
  check_pending_actions env w

/-- `caml_process_pending_actions_with_root_exn`. -/
def caml_process_pending_actions_with_root_exn {σ : Type} (p : Platform) (env : Env σ)
    (root : value) (s : St σ) : Outcome σ value :=
  if caml_check_pending_actions env s.w then
    (caml_do_pending_actions_exn p env s).bind fun exn s1 =>
      if p.Is_exception_result exn then Outcome.returned exn s1
      else Outcome.returned root s1
  else Outcome.returned root s

/-- `caml_process_pending_actions_with_root`. -/
def caml_process_pending_actions_with_root {σ : Type} (p : Platform) (env : Env σ)
    (root : value) (s : St σ) : Outcome σ value :=
  (caml_process_pending_actions_with_root_exn p env root s).bind fun res s1 =>
    caml_raise_async_if_exception p env res "" s1

/-- `caml_process_pending_actions_exn`. -/
def caml_process_pending_actions_exn {σ : Type} (p : Platform) (env : Env σ) (s : St σ) :
    Outcome σ value :=
  caml_process_pending_actions_with_root_exn p env p.Val_unit s

/-- `caml_process_pending_actions`. -/
def caml_process_pending_actions {σ : Type} (p : Platform) (env : Env σ) (s : St σ) :
    Outcome σ Unit :=
  (caml_process_pending_actions_with_root p env p.Val_unit s).bind fun _ s1 =>
    Outcome.returned () s1

/-! ## Blocking sections -/

/-- `caml_enter_blocking_section_no_pending`: the call of the enter hook. -/
def caml_enter_blocking_section_no_pending {σ : Type} (env : Env σ) (s : St σ) : St σ :=
  let w1 := env.caml_enter_blocking_section_hook s.w
  { w := w1, trace := s.trace ++ [⟨Event.enter_blocking_section_hook, s.w, w1⟩] }

/-- The condition of the loop of `caml_enter_blocking_section`. -/
def enter_blocking_section_condition {σ : Type} (p : Platform) (env : Env σ) (w : World σ) :
    Bool :=
  env.Caml_check_gc_interrupt w ||
    (decide (w.action_pending ≠ 0) && caml_check_pending_signals p w)

/-- The call `caml_handle_gc_interrupt()` in the loop of `caml_enter_blocking_section`. -/
def handle_gc_interrupt_call {σ : Type} (env : Env σ) (s : St σ) : St σ :=
  let w1 := env.caml_handle_gc_interrupt s.w
  { w := w1, trace := s.trace ++ [⟨Event.handle_gc_interrupt, s.w, w1⟩] }

/-- The body of the loop of `caml_enter_blocking_section`. -/
def enter_blocking_section_body {σ : Type} (p : Platform) (env : Env σ) (s : St σ) :
    Outcome σ value :=
  let r := caml_process_pending_signals_exn p env (handle_gc_interrupt_call env s)
  caml_raise_async_if_exception p env r.2 "" r.1

/-- The loop of `caml_enter_blocking_section`, run for at most `fuel` iterations; `none` when
the condition still holds after them. -/
def enter_blocking_section_loop {σ : Type} (p : Platform) (env : Env σ) :
    Nat → St σ → Option (Outcome σ Unit)
  | 0, s =>
    if enter_blocking_section_condition p env s.w then none
    else some (Outcome.returned () s)
  | fuel + 1, s =>
    if enter_blocking_section_condition p env s.w then
      match enter_blocking_section_body p env s with
      | Outcome.returned _ s1 => enter_blocking_section_loop p env fuel s1
      | Outcome.fatal_uncaught_exception e m s1 =>
        some (Outcome.fatal_uncaught_exception e m s1)
      | Outcome.raise_async e s1 => some (Outcome.raise_async e s1)
      | Outcome.fatal_error m s1 => some (Outcome.fatal_error m s1)
      | Outcome.raise_exception e s1 => some (Outcome.raise_exception e s1)
    else some (Outcome.returned () s)

/-- `caml_enter_blocking_section`, its loop being run for at most `fuel` iterations. -/
def caml_enter_blocking_section {σ : Type} (p : Platform) (env : Env σ) (fuel : Nat)
    (s : St σ) : Option (Outcome σ Unit) :=
  if s.w.in_minor_collection ≠ 0 then
    some (Outcome.fatal_error "caml_enter_blocking_section from inside minor GC" s)
  else
    (enter_blocking_section_loop p env fuel s).map fun o =>
      o.bind fun _ s1 => Outcome.returned () (caml_enter_blocking_section_no_pending env s1)

/-- `caml_leave_blocking_section`. `Caml_check_caml_state()` has no effect, the thread owning
the domain state again once the hook has returned. -/
def caml_leave_blocking_section {σ : Type} (p : Platform) (env : Env σ) (s : St σ) : St σ :=
  let saved_errno := s.w.errno
  let w1 := env.caml_leave_blocking_section_hook s.w
  let w2 := if caml_check_pending_signals p w1 then caml_set_action_pending w1 else w1
  { w := { w2 with errno := saved_errno },
    trace := s.trace ++ [⟨Event.leave_blocking_section_hook, s.w, w1⟩] }

/-! ## Installation of signal handlers -/

/-- `caml_convert_signal_number`. The size expression `sizeof(posix_signals) / sizeof(int)` is
a `size_t`: its negation and the comparison are computed modulo `2 ^ BITS_PER_WORD`, `signo`
being converted to `size_t` first. -/
def caml_convert_signal_number (p : Platform) (signo : Int) : Int :=
  let size : Nat := p.posix_signals.length
  let neg_size : Nat := (2 ^ p.BITS_PER_WORD - size) % 2 ^ p.BITS_PER_WORD
  let signo_u : Nat := (signo % (2 ^ p.BITS_PER_WORD : Nat)).toNat
  if signo < 0 ∧ signo_u ≥ neg_size then p.posix_signals.getD (-signo - 1).toNat 0
  else signo

/-- An OCaml value of type `Sys.signal_behavior`: `Val_int(0)`, `Val_int(1)`, or a block of
tag 0 whose field 0 is the handler closure. -/
inductive signal_behavior where
  | Signal_default
  | Signal_ignore
  | Signal_handle (f : value)
  deriving DecidableEq, Repr

/-- `caml_set_signal_action`: the new world and the returned code. -/
def caml_set_signal_action {σ : Type} (env : Env σ) (signo : Int) (action : Int)
    (w : World σ) : World σ × Int :=
  let act : sighandler :=
    if action = 0 then sighandler.SIG_DFL
    else if action = 1 then sighandler.SIG_IGN
    else sighandler.handle_signal
  if env.sigaction_fails signo then (w, -1)
  else
    let oldact := w.sigactions signo
    let w1 : World σ :=
      { w with sigactions := fun x => if x = signo then act else w.sigactions x }
    if oldact = sighandler.handle_signal then (w1, 2)
    else if oldact = sighandler.SIG_IGN then (w1, 1)
    else (w1, 0)

/-- The statement `if (Is_block(action)) ...` of `caml_install_signal_handler`: the handler
table is allocated if it is still `0` (here: empty), and slot `sig` receives the closure. -/
def store_signal_handler {σ : Type} (p : Platform) (sig : Int) (action : signal_behavior)
    (w : World σ) : World σ :=
  match action with
  | signal_behavior.Signal_handle f =>
    let table :=
      if w.caml_signal_handlers = [] then List.replicate p.NSIG p.Val_unit
      else w.caml_signal_handlers
    { w with caml_signal_handlers := table.set sig.toNat f }
  | _ => w

/-- `caml_install_signal_handler`, on the OCaml-level signal number `signal_number`
(`Int_val` of the argument). The mutex `signal_install_mutex` is not modelled.
`caml_sys_error(NO_ARG)` raises `Sys_error` with the text of `strerror(errno)`, which is
rendered by the empty message. -/
def caml_install_signal_handler {σ : Type} (p : Platform) (env : Env σ)
    (signal_number : Int) (action : signal_behavior) (s : St σ) :
    Outcome σ signal_behavior :=
  let sig := caml_convert_signal_number p signal_number
  if sig ≤ 0 ∨ sig ≥ p.NSIG then
    Outcome.raise_exception (Exception.Invalid_argument "Sys.signal: unavailable signal") s
  else
    let act : Int :=
      match action with
      | signal_behavior.Signal_default => 0
      | signal_behavior.Signal_ignore => 1
      | signal_behavior.Signal_handle _ => 2
    let r := caml_set_signal_action env sig act s.w
    let res : Option signal_behavior :=
      if r.2 = 0 then some signal_behavior.Signal_default
      else if r.2 = 1 then some signal_behavior.Signal_ignore
      else if r.2 = 2 then
        some (signal_behavior.Signal_handle (signal_handler_field r.1 sig))
      else none
    match res with
    | none => Outcome.raise_exception (Exception.Sys_error "") { s with w := r.1 }
    | some res =>
      let s1 : St σ := { s with w := store_signal_handler p sig action r.1 }
      let d := caml_process_pending_signals_exn p env s1
      (caml_raise_async_if_exception p env d.2 "" d.1).bind fun _ s2 =>
        Outcome.returned res s2

/-! ## `Thread.sigmask` (`st_posix.h`) -/

/-- The `how` argument of `pthread_sigmask`. -/
inductive sigmask_how where
  | SIG_SETMASK
  | SIG_BLOCK
  | SIG_UNBLOCK
  deriving DecidableEq, Repr

/-- The table `sigmask_cmd`. -/
def sigmask_cmd : List sigmask_how :=
  [sigmask_how.SIG_SETMASK, sigmask_how.SIG_BLOCK, sigmask_how.SIG_UNBLOCK]

/-- `sigaddset(set, sig)`: it fails, leaving the set as it is, for a number that is not a
signal number. -/
def sigaddset (p : Platform) (set : sigset_t) (sig : Int) : sigset_t :=
  if 1 ≤ sig ∧ sig < p.NSIG then fun x => set x || decide (x = sig) else set

/-- `st_decode_sigset`, on the OCaml list of signal numbers `vset`. -/
def st_decode_sigset (p : Platform) (vset : List Int) : sigset_t :=
  vset.foldl (fun set n => sigaddset p set (caml_convert_signal_number p n)) (fun _ => false)

/-- `st_encode_sigset`: the OCaml list built by the loop `for (i = 1; i < NSIG; i++)`, each
member being consed in front of the list built so far. -/
def st_encode_sigset (p : Platform) (set : sigset_t) : List value :=
  (List.range (p.NSIG - 1)).foldl
    (fun res k =>
      if sigismember set ((k + 1 : Nat) : Int) then
        p.Val_int (caml_rev_convert_signal_number p ((k + 1 : Nat) : Int)) :: res
      else res)
    []

/-- `pthread_sigmask(how, &set, &oldset)`: the new world, the old mask and the return code.
That `SIGKILL` and `SIGSTOP` cannot be blocked is not modelled. -/
def pthread_sigmask {σ : Type} (how : sigmask_how) (set : sigset_t) (w : World σ) :
    World σ × sigset_t × Int :=
  let oldset := w.sigmask
  let newset : sigset_t :=
    match how with
    | sigmask_how.SIG_SETMASK => set
    | sigmask_how.SIG_BLOCK => fun x => oldset x || set x
    | sigmask_how.SIG_UNBLOCK => fun x => oldset x && !set x
  ({ w with sigmask := newset }, oldset, 0)

/-- `st_check_error`. The message of `Sys_error` is `msg`, followed in the source by `": "` and
`strerror(retcode)`. -/
def st_check_error {σ : Type} (p : Platform) (retcode : Int) (msg : String) (s : St σ) :
    Outcome σ Unit :=
  if retcode = 0 then Outcome.returned () s
  else if retcode = p.ENOMEM then Outcome.raise_exception Exception.Out_of_memory s
  else Outcome.raise_exception (Exception.Sys_error msg) s

/-- `caml_thread_sigmask`, on the constructor index `cmd` and the OCaml list `sigs`; the loop
of `caml_enter_blocking_section` is run for at most `fuel` iterations. -/
def caml_thread_sigmask {σ : Type} (p : Platform) (env : Env σ) (fuel : Nat) (cmd : Nat)
    (sigs : List Int) (s : St σ) : Option (Outcome σ (List value)) :=
  let how := sigmask_cmd.getD cmd sigmask_how.SIG_SETMASK
  let set := st_decode_sigset p sigs
  (caml_enter_blocking_section p env fuel s).map fun o =>
    o.bind fun _ s1 =>
      let r := pthread_sigmask how set s1.w
      let s2 := caml_leave_blocking_section p env { s1 with w := r.1 }
      (st_check_error p r.2.2 "Thread.sigmask" s2).bind fun _ s3 =>
        (caml_process_pending_actions p env s3).bind fun _ s4 =>
          Outcome.returned (st_encode_sigset p r.2.1) s4

/-! ## Integer arithmetic with overflow detection (`misc.h`) -/

/-- `__builtin_add_overflow(a, b, res)` on `uintnat` operands of `w` bits, as GCC and Clang
document it: the operation is performed in infinite precision, the result is stored truncated
to `w` bits, and the return value tells whether the stored value differs from the exact
one. -/
def builtin_add_overflow (w a b : Nat) : Nat × Bool :=
  ((a + b) % 2 ^ w, (a + b) % 2 ^ w != a + b)

/-- `__builtin_sub_overflow(a, b, res)` on `uintnat` operands of `w` bits. -/
def builtin_sub_overflow (w a b : Nat) : Nat × Bool :=
  let exact : Int := (a : Int) - (b : Int)
  ((exact % ((2 ^ w : Nat) : Int)).toNat, exact % ((2 ^ w : Nat) : Int) != exact)

/-- `caml_uadd_overflow(a, b, res)` on a `uintnat` of `w` bits: the value stored in `*res` and
the value returned. `has_builtin` is the condition
`__GNUC__ >= 5 || Caml_has_builtin(__builtin_add_overflow)`. -/
def caml_uadd_overflow (w : Nat) (has_builtin : Bool) (a b : Nat) : Nat × Int :=
  if has_builtin then
    let r := builtin_add_overflow w a b
    (r.1, if r.2 then 1 else 0)
  else
    let c := (a + b) % 2 ^ w
    (c, if c < a then 1 else 0)

/-- `caml_usub_overflow(a, b, res)` on a `uintnat` of `w` bits: the value stored in `*res` and
the value returned. `has_builtin` is the condition
`__GNUC__ >= 5 || Caml_has_builtin(__builtin_sub_overflow)`. -/
def caml_usub_overflow (w : Nat) (has_builtin : Bool) (a b : Nat) : Nat × Int :=
  if has_builtin then
    let r := builtin_sub_overflow w a b
    (r.1, if r.2 then 1 else 0)
  else
    let c := (((a : Int) - (b : Int)) % ((2 ^ w : Nat) : Int)).toNat
    (c, if a < b then 1 else 0)

/-! ## Allocation of strings (`runtime4/alloc.c`)

A block is the list of the bytes of its fields, the header excluded. `mlsize_t` is `uintnat`:
its arithmetic is modulo `2 ^ BITS_PER_WORD`. -/

/-- The constants and allocation functions used by `caml_alloc_string` and defined outside the
embedded sources (`caml/config.h`, `memory.c`, `minor_gc.c`). -/
structure Allocator where
  /-- `sizeof (value)`. -/
  sizeof_value : Nat
  /-- `Max_young_wosize`. -/
  Max_young_wosize : Nat
  /-- The bytes of the block that `Alloc_small (result, wosize, String_tag)` leaves in
  `result`. -/
  Alloc_small : Nat → List Nat
  /-- The bytes of the block returned by `caml_alloc_shr (wosize, String_tag)`; `none` when
  it raises `Out_of_memory`. -/
  caml_alloc_shr : Nat → Option (List Nat)
  /-- The bytes of the block returned by `caml_check_urgent_gc (result)`. -/
  caml_check_urgent_gc : List Nat → List Nat

/-- How `caml_alloc_string` is left. -/
inductive alloc_outcome where
  /-- The function returns the block with these bytes. -/
  | returned (block : List Nat)
  /-- `caml_alloc_shr` raised `Out_of_memory`. -/
  | raise_out_of_memory
  /-- A store fell outside the block that was allocated: the behaviour is undefined. -/
  | store_outside_block
  deriving DecidableEq, Repr

/-- `Bsize_wsize (wosize)`, an `mlsize_t`. -/
def Bsize_wsize (p : Platform) (a : Allocator) (wosize : Nat) : Nat :=
  wosize * a.sizeof_value % 2 ^ p.BITS_PER_WORD

/-- `Field (result, i) = v`: the `sizeof (value)` bytes of field `i` receive the bytes of `v`,
least significant first; `none` when the field is not inside the block. -/
def store_field (a : Allocator) (block : List Nat) (i : Nat) (v : Nat) : Option (List Nat) :=
  if (i + 1) * a.sizeof_value ≤ block.length then
    some (block.take (i * a.sizeof_value)
      ++ (List.range a.sizeof_value).map (fun k => v / 256 ^ k % 256)
      ++ block.drop ((i + 1) * a.sizeof_value))
  else none

/-- `Byte (result, i) = v`: an `unsigned char` is stored; `none` when the byte is not inside
the block. -/
def store_byte (block : List Nat) (i : Nat) (v : Nat) : Option (List Nat) :=
  if i < block.length then some (block.set i (v % 256)) else none

/-- The allocation made by `caml_alloc_string`: `Alloc_small` for a small block, otherwise
`caml_alloc_shr` followed by `caml_check_urgent_gc`. -/
def alloc_string_block (a : Allocator) (wosize : Nat) : Option (List Nat) :=
  if wosize ≤ a.Max_young_wosize then some (a.Alloc_small wosize)
  else (a.caml_alloc_shr wosize).map a.caml_check_urgent_gc

/-- `caml_alloc_string (len)`. -/
def caml_alloc_string (p : Platform) (a : Allocator) (len : Nat) : alloc_outcome :=
  let wosize := (len + a.sizeof_value) % 2 ^ p.BITS_PER_WORD / a.sizeof_value
  match alloc_string_block a wosize with
  | none => alloc_outcome.raise_out_of_memory
  | some result =>
    match store_field a result ((wosize + 2 ^ p.BITS_PER_WORD - 1) % 2 ^ p.BITS_PER_WORD) 0 with
    | none => alloc_outcome.store_outside_block
    | some result1 =>
      let offset_index :=
        (Bsize_wsize p a wosize + 2 ^ p.BITS_PER_WORD - 1) % 2 ^ p.BITS_PER_WORD
      match store_byte result1 offset_index
          ((offset_index + 2 ^ p.BITS_PER_WORD - len) % 2 ^ p.BITS_PER_WORD) with
      | none => alloc_outcome.store_outside_block
      | some result2 => alloc_outcome.returned result2

/-! ## The GC tweaks as a run-time parameter string (`runtime/gc_ctrl.c`)

C strings are lists of characters, the terminating NUL excluded. The variable `len` of
`format_gc_tweaks` is a `size_t` and the result of `snprintf` an `int`; both are natural
numbers here, the theorem on the function bounding them for the table of the source. -/

/-- `struct gc_tweak`; the field `ptr` holds the current value of the variable that the entry
points to. -/
structure gc_tweak where
  name : String
  ptr : Nat
  initial_value : Nat
  deriving DecidableEq, Repr

/-- The names of the table `gc_tweaks`, in the order of the table. -/
def gc_tweak_names : List String :=
  ["custom_work_max_multiplier", "prelinking_in_use", "compaction", "compact_unmap",
   "pool_min_chunk_size", "main_stack_size", "thread_stack_size", "fiber_stack_size",
   "percent_sweep_per_mark", "gc_pacing_policy", "gc_overhead_adjustment",
   "nohugepage_stacks"]

/-- The table `gc_tweaks` when the variable of entry `i` holds `val i` and the field
`initial_value` of entry `i` holds `initial i`. -/
def gc_tweaks (val initial : Nat → Nat) : List gc_tweak :=
  gc_tweak_names.enum.map fun x => { name := x.2, ptr := val x.1, initial_value := initial x.1 }

/-- The loop `do { val /= 10; ++ len; } while (val);` of `format_gc_tweaks`: the value of
`len` after it. -/
def count_digits (val len : Nat) : Nat :=
  if val / 10 ≠ 0 then count_digits (val / 10) (len + 1) else len + 1
termination_by val
decreasing_by omega

/-- The first loop of `format_gc_tweaks`, over the entries of the table: the value of `len`
after it. -/
def format_gc_tweaks_len : List gc_tweak → Nat → Nat
  | [], len => len
  | t :: ts, len =>
    if t.ptr ≠ t.initial_value then
      format_gc_tweaks_len ts (count_digits t.ptr (len + (2 + (t.name.length + 1))))
    else format_gc_tweaks_len ts len

/-- The characters printed for a `uintnat` by the conversion `F_Z`, that is
`"%" ARCH_INTNAT_PRINTF_FORMAT "u"`: the decimal digits, most significant first. -/
def format_uintnat (val : Nat) : List Char :=
  if val < 10 then [Nat.digitChar val]
  else format_uintnat (val / 10) ++ [Nat.digitChar (val % 10)]
termination_by val
decreasing_by omega

/-- `snprintf(p, size, ",X%s=" F_Z, name, val)`: the characters stored at `p`, at most
`size - 1` of them, and the value returned, the number of characters of the whole item. -/
def snprintf_tweak (size : Nat) (name : String) (val : Nat) : List Char × Nat :=
  let item := [',', 'X'] ++ name.data ++ ['='] ++ format_uintnat val
  (item.take (size - 1), item.length)

/-- The second loop of `format_gc_tweaks`: `buf` holds the characters between `buf` and `p`,
`len` is the room left; `none` is the exit through `fail_truncate`. -/
def format_gc_tweaks_fill : List gc_tweak → List Char → Nat → Option (List Char)
  | [], buf, _ => some buf
  | t :: ts, buf, len =>
    if t.ptr ≠ t.initial_value then
      let r := snprintf_tweak len t.name t.ptr
      if r.2 ≥ len then none
      else format_gc_tweaks_fill ts (buf ++ r.1) (len - r.2)
    else format_gc_tweaks_fill ts buf len

/-- `format_gc_tweaks` on the table `tweaks`; `none` is the result `NULL`. `malloc_ok size`
tells whether `malloc(size)` returns a buffer. -/
def format_gc_tweaks (malloc_ok : Nat → Bool) (tweaks : List gc_tweak) :
    Option (List Char) :=
  let len := format_gc_tweaks_len tweaks 0
  if len = 0 then none
  else if malloc_ok (len + 1) then format_gc_tweaks_fill tweaks [] (len + 1)
  else none

/-! ## The master lock (`st_posix.h`, with the futex-based `custom_condvar`)

The fields `busy` and `waiters` are only written between `pthread_mutex_lock(&m->lock)` and
the next `pthread_mutex_unlock(&m->lock)`; no thread blocks inside such a section
(`custom_condvar_wait` unlocks before it enters the futex). A section is therefore one atomic
step of the thread that runs it, and the mutex is free between steps. -/

/-- `custom_condvar`. -/
structure custom_condvar where
  /-- The field `counter`, a C `unsigned`. -/
  counter : Nat
  deriving DecidableEq, Repr

/-- `st_masterlock`, without its mutex. -/
structure st_masterlock where
  busy : Int
  waiters : Int
  is_free : custom_condvar
  deriving DecidableEq, Repr

/-- The counter update of `custom_condvar_signal` and `custom_condvar_broadcast`:
`__sync_add_and_fetch(&cv->counter, 1)` on a 32-bit `unsigned`. -/
def custom_condvar_increment (cv : custom_condvar) : custom_condvar :=
  { counter := (cv.counter + 1) % 2 ^ 32 }

/-- Where a thread stands with respect to the master lock. -/
inductive Pc where
  /-- Not in a master-lock function and not holding the lock. -/
  | outside
  /-- Returned from `st_masterlock_acquire` or `st_thread_yield` (or initialised the lock) and
  has not called `st_masterlock_release` since. -/
  | holding
  /-- In `custom_condvar_wait` called by `st_masterlock_acquire`: the mutex is unlocked, the
  futex call with snapshot `old_count` comes next. -/
  | acq_futex (old_count : Nat)
  /-- Asleep in the `FUTEX_WAIT` of `st_masterlock_acquire`. -/
  | acq_sleep (old_count : Nat)
  /-- The futex call of `st_masterlock_acquire` has returned; `pthread_mutex_lock` comes next. -/
  | acq_woken
  /-- In `st_masterlock_release` after the unlock, before `custom_condvar_signal`. -/
  | rel_signal
  /-- In `custom_condvar_wait` called by `st_thread_yield`, before the futex call. -/
  | yld_futex (old_count : Nat)
  /-- Asleep in the `FUTEX_WAIT` of `st_thread_yield`. -/
  | yld_sleep (old_count : Nat)
  /-- The futex call of `st_thread_yield` has returned; `pthread_mutex_lock` comes next. -/
  | yld_woken
  deriving DecidableEq, Repr

/-- Whether the thread is asleep on the futex word. -/
def Pc.asleep : Pc → Bool
  | Pc.acq_sleep _ => true
  | Pc.yld_sleep _ => true
  | _ => false

/-- Whether the thread is inside the wait loop of `st_masterlock_acquire` or
`st_thread_yield`, between `waiters++` and `waiters--`. -/
def Pc.waiting : Pc → Bool
  | Pc.acq_futex _ => true
  | Pc.acq_sleep _ => true
  | Pc.acq_woken => true
  | Pc.yld_futex _ => true
  | Pc.yld_sleep _ => true
  | Pc.yld_woken => true
  | _ => false

/-- The lock and the position of every thread. -/
structure MState where
  m : st_masterlock
  pcs : List Pc
  deriving DecidableEq, Repr

/-- `st_masterlock_init`, run by thread 0 of `n + 1` threads: the initialising thread holds
the lock. -/
def st_masterlock_init (n : Nat) : MState :=
  { m := { busy := 1, waiters := 0, is_free := { counter := 0 } },
    pcs := Pc.holding :: List.replicate n Pc.outside }

/-- The test `while (m->busy)` of `st_masterlock_acquire` and what follows it up to the next
unlock: either `waiters++` and the first half of `custom_condvar_wait`, or `busy = 1`. -/
def acquire_test (m : st_masterlock) : st_masterlock × Pc :=
  if m.busy ≠ 0 then
    ({ m with waiters := m.waiters + 1 }, Pc.acq_futex m.is_free.counter)
  else ({ m with busy := 1 }, Pc.holding)

/-- `st_masterlock_acquire` after the wait: relock, `waiters--`, and the loop test again. -/
def acquire_relock (m : st_masterlock) : st_masterlock × Pc :=
  acquire_test { m with waiters := m.waiters - 1 }

/-- The mutex section of `st_masterlock_release`. -/
def release_section (m : st_masterlock) : st_masterlock × Pc :=
  ({ m with busy := 0 }, Pc.rel_signal)

/-- `st_thread_yield` from its entry to its first unlock. The third component tells whether
`custom_condvar_signal` was called; `none` is a failure of `assert(m->busy)`. -/
def yield_enter (m : st_masterlock) : Option (st_masterlock × Pc × Bool) :=
  if m.busy = 0 then none
  else if m.waiters = 0 then some (m, Pc.holding, false)
  else
    let m1 : st_masterlock := { m with busy := 0 }
    let m2 : st_masterlock := { m1 with is_free := custom_condvar_increment m1.is_free }
    let m3 : st_masterlock := { m2 with waiters := m2.waiters + 1 }
    some (m3, Pc.yld_futex m3.is_free.counter, true)

/-- `st_thread_yield` after a wait: relock and the test `while (m->busy)`; either wait again
or `busy = 1; waiters--`. -/
def yield_relock (m : st_masterlock) : st_masterlock × Pc :=
  if m.busy ≠ 0 then (m, Pc.yld_futex m.is_free.counter)
  else ({ m with busy := 1, waiters := m.waiters - 1 }, Pc.holding)

/-- The return of a futex call to the thread asleep at `pc`. -/
def Pc.wake : Pc → Pc
  | Pc.acq_sleep _ => Pc.acq_woken
  | Pc.yld_sleep _ => Pc.yld_woken
  | pc => pc

/-- `FUTEX_WAKE` of one waiter: `target` is the thread the kernel picks. It must be asleep;
`none` is only possible when no thread is asleep. -/
def futex_wake_one (pcs : List Pc) (target : Option Nat) : Option (List Pc) :=
  match target with
  | none => if pcs.any Pc.asleep then none else some pcs
  | some u =>
    match pcs[u]? with
    | some pc => if pc.asleep then some (pcs.set u pc.wake) else none
    | none => none

/-- The steps of the threads. -/
inductive Action where
  /-- Thread `t` calls `st_masterlock_acquire` and runs it up to its first unlock. -/
  | acquire (t : Nat)
  /-- Thread `t` calls `st_masterlock_release` and runs its mutex section. -/
  | release (t : Nat)
  /-- Thread `t` runs the `custom_condvar_signal` of `st_masterlock_release`. -/
  | signal (t : Nat) (target : Option Nat)
  /-- Thread `t` calls `st_thread_yield` and runs it up to its first unlock. -/
  | yield (t : Nat) (target : Option Nat)
  /-- Thread `t` makes the `FUTEX_WAIT` call of `custom_condvar_wait`. -/
  | futex_wait (t : Nat)
  /-- Thread `t`, back from the futex, relocks the mutex and runs up to the next unlock. -/
  | relock (t : Nat)
  /-- The futex call of the sleeping thread `t` returns without a wake-up. -/
  | spurious_wakeup (t : Nat)
  deriving DecidableEq, Repr

/-- One step; `none` when the action is not enabled in the state. -/
def step (st : MState) : Action → Option MState
  | Action.acquire t =>
    match st.pcs[t]? with
    | some Pc.outside =>
      let r := acquire_test st.m
      some { m := r.1, pcs := st.pcs.set t r.2 }
    | _ => none
  | Action.release t =>
    match st.pcs[t]? with
    | some Pc.holding =>
      let r := release_section st.m
      some { m := r.1, pcs := st.pcs.set t r.2 }
    | _ => none
  | Action.signal t target =>
    match st.pcs[t]? with
    | some Pc.rel_signal =>
      match futex_wake_one st.pcs target with
      | some pcs =>
        some { m := { st.m with is_free := custom_condvar_increment st.m.is_free },
               pcs := pcs.set t Pc.outside }
      | none => none
    | _ => none
  | Action.yield t target =>
    match st.pcs[t]? with
    | some Pc.holding =>
      match yield_enter st.m with
      | some (m1, pc, true) =>
        match futex_wake_one st.pcs target with
        | some pcs => some { m := m1, pcs := pcs.set t pc }
        | none => none
      | some (m1, pc, false) => some { m := m1, pcs := st.pcs.set t pc }
      | none => none
    | _ => none
  | Action.futex_wait t =>
    match st.pcs[t]? with
    | some (Pc.acq_futex old_count) =>
      if st.m.is_free.counter = old_count then
        some { st with pcs := st.pcs.set t (Pc.acq_sleep old_count) }
      else some { st with pcs := st.pcs.set t Pc.acq_woken }
    | some (Pc.yld_futex old_count) =>
      if st.m.is_free.counter = old_count then
        some { st with pcs := st.pcs.set t (Pc.yld_sleep old_count) }
      else some { st with pcs := st.pcs.set t Pc.yld_woken }
    | _ => none
  | Action.relock t =>
    match st.pcs[t]? with
    | some Pc.acq_woken =>
      let r := acquire_relock st.m
      some { m := r.1, pcs := st.pcs.set t r.2 }
    | some Pc.yld_woken =>
      let r := yield_relock st.m
      some { m := r.1, pcs := st.pcs.set t r.2 }
    | _ => none
  | Action.spurious_wakeup t =>
    match st.pcs[t]? with
    | some pc => if pc.asleep then some { st with pcs := st.pcs.set t pc.wake } else none
    | none => none

/-- A sequence of steps; `none` when one of them is not enabled. -/
def run (st : MState) : List Action → Option MState
  | [] => some st
  | a :: as =>
    match step st a with
    | some st1 => run st1 as
    | none => none

/-- Thread `t` holds the master lock: it is between the return of its acquire (or yield) and
its next release. -/
def MState.holds (st : MState) (t : Nat) : Prop :=
  st.pcs[t]? = some Pc.holding

instance (st : MState) (t : Nat) : Decidable (st.holds t) := by
  unfold MState.holds; infer_instance

/-- The invariant behind mutual exclusion: a holder sees `busy == 1`, and there is at most one
holder. -/
def MState.exclusive (st : MState) : Prop :=
  (∀ t, st.holds t → st.m.busy = 1) ∧ (∀ t u, st.holds t → st.holds u → t = u)

/-- The states a run goes through, the first one included; it stops at a step that is not
enabled. -/
def run_states (st : MState) : List Action → List MState
  | [] => [st]
  | a :: as =>
    st :: (match step st a with
      | some st1 => run_states st1 as
      | none => [])

/-- The accounting of `waiters`: it counts the threads inside a wait loop. -/
def MState.waiters_counted (st : MState) : Prop :=
  st.m.waiters = ((st.pcs.countP Pc.waiting : Nat) : Int)

/-- Two threads `A` and `B`, after `A` gave the lock away in `st_thread_yield` and before `B`
took it: `busy == 0`, `A` is in the wait of its yield with the current counter value as
snapshot, and `B` is back from its futex call. -/
def MState.handed_off (st : MState) (A B : Nat) : Prop :=
  st.pcs.length = 2 ∧ A ≠ B ∧ A < 2 ∧ B < 2 ∧ st.m.busy = 0 ∧
  (st.pcs[A]? = some (Pc.yld_futex st.m.is_free.counter) ∨
    st.pcs[A]? = some (Pc.yld_sleep st.m.is_free.counter)) ∧
  st.pcs[B]? = some Pc.acq_woken

/-! ## The futex-based condition variable, function by function -/

/-- `INT_MAX`, the number of waiters `custom_condvar_broadcast` asks the kernel to wake. -/
def INT_MAX : Nat := 2 ^ 31 - 1

/-- `custom_condvar_signal`: the condition variable after the call and the number of waiters
its `FUTEX_WAKE` may wake. -/
def custom_condvar_signal (cv : custom_condvar) : custom_condvar × Nat :=
  (custom_condvar_increment cv, 1)

/-- `custom_condvar_broadcast`: the condition variable after the call and the number of
waiters its `FUTEX_WAKE` may wake. -/
def custom_condvar_broadcast (cv : custom_condvar) : custom_condvar × Nat :=
  (custom_condvar_increment cv, INT_MAX)

/-- The first statement of `custom_condvar_wait`, `unsigned old_count = cv->counter`, run while
the caller holds the mutex. -/
def custom_condvar_wait_snapshot (cv : custom_condvar) : Nat :=
  cv.counter

/-- The call `syscall(SYS_futex, &cv->counter, FUTEX_WAIT_PRIVATE, old_count, ...)` of
`custom_condvar_wait`, made after the mutex was unlocked, on the condition variable as it is
at the time of the call: the kernel puts the caller to sleep if the futex word still holds
`old_count` and returns at once otherwise. -/
def custom_condvar_wait_sleeps (cv : custom_condvar) (old_count : Nat) : Bool :=
  cv.counter == old_count

/-- A call of `custom_condvar_signal` or `custom_condvar_broadcast`. -/
inductive condvar_call where
  | signal
  | broadcast
  deriving DecidableEq, Repr

/-- The condition variable after the call `c`. -/
def condvar_call.run (cv : custom_condvar) : condvar_call → custom_condvar
  | condvar_call.signal => (custom_condvar_signal cv).1
  | condvar_call.broadcast => (custom_condvar_broadcast cv).1

/-! ## Specification-level notions used in the theorems -/

/-- A sequence of `caml_record_signal` calls, one per element of `recs`, in order. -/
def record_signals {σ : Type} (p : Platform) (env : Env σ) (recs : List Int) (s : St σ) :
    St σ :=
  recs.foldl (fun s n => caml_record_signal p env n s) s

/-- Signal `n` has been recorded by one of the calls `recs` and is a valid signal number. -/
def recorded (p : Platform) (recs : List Int) (n : Int) : Prop :=
  n ∈ recs ∧ 1 ≤ n ∧ n < p.NSIG

/-- Every word of the pending-signal array is a `uintnat` and the array has `NSIG_WORDS`
words. -/
def pending_wf (p : Platform) (words : List Nat) : Prop :=
  words.length = p.NSIG_WORDS ∧ ∀ k, atomic_load words k < 2 ^ p.BITS_PER_WORD

/-- Bit `j` of the word `curr` at index `i` is set and, in a POSIX build, its signal is not
in the mask `set`. -/
def deliverable (p : Platform) (set : sigset_t) (i curr j : Nat) : Bool :=
  curr.testBit j && !(p.POSIX_SIGNALS && sigismember set (signo_of p i j))

/-- The call `c` is the call of a signal handler made by `caml_execute_signal_exn`: for some
signal number `n` it calls the handler found in slot `n` of the handler table on entry, with
argument `Val_int(caml_rev_convert_signal_number(n))`. -/
def handler_call {σ : Type} (p : Platform) (env : Env σ) (c : Call σ) : Prop :=
  ∃ n : Int,
    c.ev = Event.callback_exn n (signal_handler_field c.pre n)
      (p.Val_int (caml_rev_convert_signal_number p n)) ∧
    c.post = (env.caml_callback_exn (signal_handler_field c.pre n)
      (p.Val_int (caml_rev_convert_signal_number p n)) c.pre).1

/-- The values of `action_pending` seen by a sequence of external calls fit together: the
first call is entered with `a`, each call is entered with the value the previous one
returned, and the last one returns `b`. -/
def ApChain {σ : Type} (a : Int) : List (Call σ) → Int → Prop
  | [], b => a = b
  | c :: cs, b => c.pre.action_pending = a ∧ ApChain c.post.action_pending cs b

/-- The signal numbers of the handler calls in a trace. -/
def executed_signals {σ : Type} (calls : List (Call σ)) : List (Option Int) :=
  calls.map fun c => c.ev.executed_signal

/-- The call of the signal handlers in `caml_do_pending_actions_exn`: the state and the result
of `caml_process_pending_signals_exn`, run after the GC interrupt has been handled and
`action_pending` cleared. -/
def signals_step {σ : Type} (p : Platform) (env : Env σ) (s : St σ) : St σ × value :=
  caml_process_pending_signals_exn p env (do_pending_actions_begin env s)

/-- The call `caml_memprof_run_callbacks_exn()`: the state after it, and its result. -/
def memprof_step {σ : Type} (env : Env σ) (s : St σ) : St σ × value :=
  ({ w := (env.caml_memprof_run_callbacks_exn s.w).1,
     trace := s.trace ++ [⟨Event.memprof_run_callbacks_exn, s.w,
       (env.caml_memprof_run_callbacks_exn s.w).1⟩] },
   (env.caml_memprof_run_callbacks_exn s.w).2)

/-- The call `caml_final_do_calls_exn()`: the state after it, and its result. -/
def final_step {σ : Type} (env : Env σ) (s : St σ) : St σ × value :=
  ({ w := (env.caml_final_do_calls_exn s.w).1,
     trace := s.trace ++ [⟨Event.final_do_calls_exn, s.w,
       (env.caml_final_do_calls_exn s.w).1⟩] },
   (env.caml_final_do_calls_exn s.w).2)

/-- In the drain started in state `s`, the step of category `msg` (signal handlers, memprof
callbacks or finalisers) is reached and yields the exception result `exn`, leaving the state
`st`: the earlier steps did not yield an exception result. -/
def drain_raises {σ : Type} (p : Platform) (env : Env σ) (s : St σ) (exn : value)
    (st : St σ) (msg : String) : Prop :=
  p.Is_exception_result exn = true ∧
  ((signals_step p env s = (st, exn) ∧ msg = "signal handler") ∨
   (p.Is_exception_result (signals_step p env s).2 = false ∧
     memprof_step env (signals_step p env s).1 = (st, exn) ∧ msg = "memprof callback") ∨
   (p.Is_exception_result (signals_step p env s).2 = false ∧
     p.Is_exception_result (memprof_step env (signals_step p env s).1).2 = false ∧
     final_step env (memprof_step env (signals_step p env s).1).1 = (st, exn) ∧
     msg = "finaliser"))

/-- The state left by the label `exception:` of `caml_do_pending_actions_exn`. -/
def rearmed {σ : Type} (st : St σ) : St σ :=
  { st with w := caml_set_action_pending st.w }

/-- The action that `caml_install_signal_handler` reports for the disposition of signal `sig`
found in the world `w`: `Signal_handle` of the closure in slot `sig` when the disposition is
`handle_signal`, `Signal_ignore` when it is `SIG_IGN`, `Signal_default` otherwise. -/
def previous_behavior {σ : Type} (w : World σ) (sig : Int) : signal_behavior :=
  if w.sigactions sig = sighandler.handle_signal then
    signal_behavior.Signal_handle (signal_handler_field w sig)
  else if w.sigactions sig = sighandler.SIG_IGN then signal_behavior.Signal_ignore
  else signal_behavior.Signal_default

/-- The disposition that `caml_set_signal_action` installs for an action. -/
def disposition_of : signal_behavior → sighandler
  | signal_behavior.Signal_default => sighandler.SIG_DFL
  | signal_behavior.Signal_ignore => sighandler.SIG_IGN
  | signal_behavior.Signal_handle _ => sighandler.handle_signal

/-- The world in which the disposition of signal `sig` has been replaced by `h`. -/
def set_disposition {σ : Type} (w : World σ) (sig : Int) (h : sighandler) : World σ :=
  { w with sigactions := fun x => if x = sig then h else w.sigactions x }

/-- The state of `caml_install_signal_handler` when it unlocks `signal_install_mutex`, for a
valid signal `sig` on which `sigaction` succeeds: the disposition of `sig` is replaced and the
closure of a `Signal_handle` is stored in the table. -/
def installed {σ : Type} (p : Platform) (sig : Int) (action : signal_behavior) (s : St σ) :
    St σ :=
  let w1 := set_disposition s.w sig (disposition_of action)
  { s with w := store_signal_handler p sig action w1 }

/-- The allocators hand out blocks of the size that was asked for. -/
def Allocator.wf (a : Allocator) : Prop :=
  0 < a.sizeof_value ∧ a.sizeof_value ≤ 256 ∧
  (∀ wosize, (a.Alloc_small wosize).length = wosize * a.sizeof_value) ∧
  (∀ wosize block, a.caml_alloc_shr wosize = some block →
    block.length = wosize * a.sizeof_value) ∧
  (∀ block, (a.caml_check_urgent_gc block).length = block.length)

/-- The length of a string recovered from its block, as the runtime does it: the size of the
block in bytes, minus one, minus the value of the last byte. -/
def recovered_length (block : List Nat) : Nat :=
  block.length - 1 - block.getD (block.length - 1) 0

/-- The number of decimal digits of a value, 1 for zero. -/
def decimal_digits (val : Nat) : Nat :=
  if val = 0 then 1 else (Nat.digits 10 val).length

/-- The decimal representation of a value, most significant digit first. -/
def decimal (val : Nat) : List Char :=
  if val = 0 then ['0'] else (Nat.digits 10 val).reverse.map Nat.digitChar

/-- The tweaks whose current value differs from the initial one, in table order. -/
def changed_tweaks (tweaks : List gc_tweak) : List gc_tweak :=
  tweaks.filter fun t => decide (t.ptr ≠ t.initial_value)

/-- The size of the item of a tweak: `,X`, the name, `=`, the digits of the value. -/
def item_size (t : gc_tweak) : Nat :=
  2 + t.name.length + 1 + decimal_digits t.ptr

/-- The exact size of the output: the NUL and the items of the changed tweaks. -/
def exact_size (tweaks : List gc_tweak) : Nat :=
  1 + ((changed_tweaks tweaks).map item_size).sum

/-- The item `,X<name>=<value>` of a tweak. -/
def expected_item (t : gc_tweak) : List Char :=
  [',', 'X'] ++ t.name.data ++ ['='] ++ decimal t.ptr

/-- The concatenation, in table order, of the items of the changed tweaks. -/
def expected_output (tweaks : List gc_tweak) : List Char :=
  (changed_tweaks tweaks).flatMap expected_item

/-- The result returned by the handler in a signal-handler call, `none` for any other external
call. -/
def handler_result {σ : Type} (env : Env σ) (c : Call σ) : Option value :=
  match c.ev with
  | Event.callback_exn _ handler signum => some (env.caml_callback_exn handler signum c.pre).2
  | _ => none

/-- The result of a drain as the last entry of the list of handler results: an exception
result is the result of the last handler that ran. -/
def raised_result (p : Platform) (ret : value) : List value :=
  if p.Is_exception_result ret then [ret] else []

/-- Whether the bit of signal `n` is set in the pending-signal array `words`. -/
def signal_pending (p : Platform) (words : List Nat) (n : Int) : Bool :=
  pending_bit words ((n - 1).toNat / p.BITS_PER_WORD) ((n - 1).toNat % p.BITS_PER_WORD)

/-- The writes of the drain to the pending-signal array, seen from the handler calls it makes:
starting from the array `w0`, each call is entered with the array left by the previous one in
which the drain has cleared one bit, a bit that was set and whose signal the mask `set` does not
block, and the call is the call of the handler of that signal; the array `w1` in which the drain
ends is the one left by the last call. -/
def ClearChain {σ : Type} (p : Platform) (set : sigset_t) :
    List Nat → List (Call σ) → List Nat → Prop
  | w0, [], w1 => w1 = w0
  | w0, c :: cs, w1 =>
    (∃ i j, j < p.BITS_PER_WORD ∧ c.ev.executed_signal = some (signo_of p i j) ∧
      (p.POSIX_SIGNALS && sigismember set (signo_of p i j)) = false ∧
      pending_bit w0 i j = true ∧
      c.pre.caml_pending_signals
        = atomic_store w0 i (atomic_load w0 i &&& uintnat_not p (1 <<< j))) ∧
    ClearChain p set c.post.caml_pending_signals cs w1

/-- The signal numbers of all the bits of the words `is`, in the order in which the drain
visits them. -/
def all_signals (p : Platform) (is : List Nat) : List Int :=
  is.flatMap fun i => (List.range p.BITS_PER_WORD).map (signo_of p i)

/-- The bit of signal `n` is changed by no write of the drain itself: starting from the array
`w0`, each handler call is entered with the bit as the previous call (or the start of the
drain) left it, and the drain ends with the bit as the last call left it. -/
def BitKept {σ : Type} (p : Platform) (n : Int) : List Nat → List (Call σ) → List Nat → Prop
  | w0, [], w1 => signal_pending p w1 n = signal_pending p w0 n
  | w0, c :: cs, w1 =>
    signal_pending p c.pre.caml_pending_signals n = signal_pending p w0 n ∧
    BitKept p n c.post.caml_pending_signals cs w1

/-! ## Instances used to evaluate the definitions -/

/-- Linux on x86-64 with glibc: 64 signals, 64-bit words, the usual encoding of values. -/
def linux_amd64 : Platform :=
  { NSIG := 65
    BITS_PER_WORD := 64
    NSIG_WORDS := 2
    POSIX_SIGNALS := true
    posix_signals := [6, 14, 8, 1, 4, 2, 9, 13, 3, 11, 15, 10, 12, 17, 18, 19, 20, 21, 22, 26,
      27, 7, 29, 31, 5, 23, 24, 25]
    Val_unit := 1
    Val_int := fun n => 2 * n + 1
    Is_exception_result := fun v => v % 4 == 2
    Extract_exception := fun v => v - v % 4 }

/-- The same platform built without `POSIX_SIGNALS`. -/
def no_posix : Platform :=
  { linux_amd64 with POSIX_SIGNALS := false }

/-- An environment whose callbacks count their calls in `rest` and return `Val_unit`. -/
def counting_env : Env Nat :=
  { caml_interrupt_all_signal_safe := fun w => w
    caml_callback_exn := fun _ _ w => ({ w with rest := w.rest + 1 }, 1)
    Caml_check_gc_interrupt := fun _ => false
    caml_handle_gc_interrupt := fun w => w
    caml_memprof_run_callbacks_exn := fun w => (w, 1)
    caml_final_do_calls_exn := fun w => (w, 1)
    caml_process_external_interrupt := fun w => w
    caml_named_value := fun name => if name = "Sys.Break" then some 1000 else none
    caml_enter_blocking_section_hook := fun w => w
    caml_leave_blocking_section_hook := fun w => w
    sigaction_fails := fun signo => signo == 9 || signo == 19 }

/-- A state with no pending signal, the signal mask `mask`, and 65 registered handlers, the
handler of signal `i` being the value `100 + 4 * i`. -/
def start_state (mask : sigset_t) : St Nat :=
  { w := { caml_pending_signals := [0, 0]
           sigmask := mask
           action_pending := 0
           errno := 0
           caml_signal_handlers := (List.range 65).map (fun i => (100 + 4 * i : Int))
           rest := 0 }
    trace := [] }

/-- Two threads: thread 0 holds the master lock, thread 1 sleeps in the wait of
`st_masterlock_acquire`. It is `st_masterlock_init 1` after thread 1 called acquire. -/
def handoff_start : MState :=
  { m := { busy := 1, waiters := 1, is_free := { counter := 0 } },
    pcs := [Pc.holding, Pc.acq_sleep 0] }

/-- Thread 0 has yielded from `handoff_start` and thread 1 has taken the lock. -/
def handoff_taken : MState :=
  { m := { busy := 1, waiters := 1, is_free := { counter := 1 } },
    pcs := [Pc.yld_futex 1, Pc.holding] }

/-- Thread 0 has yielded from `handoff_start` and got the lock back after thread 1 took and
released it. -/
def handoff_end : MState :=
  { m := { busy := 1, waiters := 0, is_free := { counter := 2 } },
    pcs := [Pc.holding, Pc.outside] }

/-- As `counting_env`, but the finalisers re-trigger the drain: they call
`caml_set_action_pending`. -/
def retrigger_env : Env Nat :=
  { counting_env with
    caml_final_do_calls_exn := fun w => (caml_set_action_pending w, 1) }

/-- As `counting_env`, but every signal handler raises `Sys.Break`: the callback returns the
exception result `1002` for the exception value `1000` registered as `"Sys.Break"`. -/
def breaking_env : Env Nat :=
  { counting_env with
    caml_callback_exn := fun _ _ w => (w, 1002) }

/-- A state in which signal 7 has been recorded and `action_pending` is set. -/
def signal_7_pending : St Nat :=
  { w := { caml_pending_signals := [64, 0]
           sigmask := fun _ => false
           action_pending := 1
           errno := 0
           caml_signal_handlers := (List.range 65).map (fun i => (100 + 4 * i : Int))
           rest := 0 }
    trace := [] }

/-- As `counting_env`, but every signal handler raises an exception other than `Sys.Break`:
the callback returns the exception result `2002` for the exception value `2000`. -/
def failing_env : Env Nat :=
  { counting_env with
    caml_callback_exn := fun _ _ w => (w, 2002) }

/-- As `counting_env`, but the leave hook and the memprof callbacks overwrite `errno`. -/
def errno_env : Env Nat :=
  { counting_env with
    caml_leave_blocking_section_hook := fun w => { w with errno := 4 }
    caml_memprof_run_callbacks_exn := fun w => ({ w with errno := 5 }, 1) }

/-- An environment in which `rest` is the interrupt word of the domain:
`caml_interrupt_all_signal_safe` sets it, `caml_handle_gc_interrupt` resets it, and the
handler of signal 7 (called with `Val_int(-22)`, that is `-43`) sends signal 2 to the process,
whose C handler records it. -/
def rerecord_env : Env Nat :=
  { counting_env with
    caml_interrupt_all_signal_safe := fun w => { w with rest := 1 }
    Caml_check_gc_interrupt := fun w => decide (w.rest ≠ 0)
    caml_handle_gc_interrupt := fun w => { w with rest := 0 }
    caml_callback_exn := fun _ signum w =>
      if signum = -43 then
        ({ w with caml_pending_signals := atomic_fetch_or w.caml_pending_signals 0 (1 <<< 1),
                  rest := 1 }, 1)
      else (w, 1) }

/-- Signal 7 has been recorded, `action_pending` is not set and no interrupt is requested:
the state a thread is in after another thread, which blocks signal 7, has drained. -/
def signal_7_unnoticed : St Nat :=
  { signal_7_pending with w := { signal_7_pending.w with action_pending := 0 } }

/-- Signal 7 has just been recorded in `rerecord_env`: its bit and the interrupt word are
set. -/
def signal_7_interrupt : St Nat :=
  { signal_7_pending with w := { signal_7_pending.w with action_pending := 0, rest := 1 } }

/-- Signal 2 has been recorded while the calling thread blocks it; `errno` is 11. -/
def signal_2_blocked : St Nat :=
  { w := { caml_pending_signals := [2, 0]
           sigmask := fun n => n == 2
           action_pending := 0
           errno := 11
           caml_signal_handlers := (List.range 65).map (fun i => (100 + 4 * i : Int))
           rest := 0 }
    trace := [] }

/-- As `counting_env`, but the leave hook overwrites `errno` and finds signal 2 unblocked: the
thread comes back from a blocking section in which the signal mask was changed. -/
def unblocking_env : Env Nat :=
  { counting_env with
    caml_leave_blocking_section_hook := fun w => { w with errno := 4, sigmask := fun _ => false } }

/-- A signal handler that blocks every signal and raises `Sys.Break`. -/
def masking_env : Env Nat :=
  { counting_env with
    caml_callback_exn := fun _ _ w => ({ w with sigmask := fun _ => true }, 1002) }

/-- An allocator for 8-byte values whose fresh blocks are filled with the byte `0xAA`. -/
def garbage_allocator : Allocator :=
  { sizeof_value := 8
    Max_young_wosize := 256
    Alloc_small := fun wosize => List.replicate (wosize * 8) 170
    caml_alloc_shr := fun wosize => some (List.replicate (wosize * 8) 170)
    caml_check_urgent_gc := fun block => block }

/-- Current values of the tweak variables: `compaction` (entry 2) holds 12, `main_stack_size`
(entry 5) holds 0, the others 7. -/
def tweaked_values (i : Nat) : Nat :=
  if i = 2 then 12 else if i = 5 then 0 else 7

/-- Initial values of the tweaks: 0 for `compaction`, 4096 for `main_stack_size`, 7 for the
others. -/
def initial_values (i : Nat) : Nat :=
  if i = 2 then 0 else if i = 5 then 4096 else 7

/-- As `counting_env`, but the handler of signal 7 (the closure 128) raises `Sys.Break`. -/
def break_at_7_env : Env Nat :=
  { counting_env with
    caml_callback_exn := fun handler _ w =>
      if handler = 128 then (w, 1002) else ({ w with rest := w.rest + 1 }, 1) }

/-- Signals 2, 3, 7 and 9 are pending, signal 3 is blocked by the calling thread. -/
def four_signals_pending : St Nat :=
  { w := { caml_pending_signals := [326, 0]
           sigmask := fun n => n == 3
           action_pending := 1
           errno := 0
           caml_signal_handlers := (List.range 65).map (fun i => (100 + 4 * i : Int))
           rest := 0 }
    trace := [] }

/-- As `counting_env`, but the handler of signal 2 (the closure 108) runs
`Thread.sigmask SIG_UNBLOCK [Sys.sigquit]` (the OCaml number of `SIGQUIT` is `-9`, the signal
number is 3) before it returns: the handlers run by that call are those of `counting_env`. -/
def unmasking_env : Env Nat :=
  { counting_env with
    caml_callback_exn := fun handler _ w =>
      if handler = 108 then
        (match caml_thread_sigmask linux_amd64 counting_env 2 2 [-9] ⟨w, []⟩ with
          | some o => o.state.w
          | none => w, 1)
      else ({ w with rest := w.rest + 1 }, 1) }

/-- Signals 2 and 3 are pending, signal 3 is blocked by the calling thread, and
`action_pending` has been cleared by the pass that calls the drain. -/
def signals_2_3_pending : St Nat :=
  { w := { caml_pending_signals := [6, 0]
           sigmask := fun n => n == 3
           action_pending := 0
           errno := 0
           caml_signal_handlers := (List.range 65).map (fun i => (100 + 4 * i : Int))
           rest := 0 }
    trace := [] }

/-- As `counting_env`, but the memprof callbacks call `caml_set_action_pending` and the
finalisers then process the pending actions themselves, by a call of
`caml_process_pending_actions` whose callbacks are those of `counting_env`. -/
def nested_drain_env : Env Nat :=
  { counting_env with
    caml_memprof_run_callbacks_exn := fun w => (caml_set_action_pending w, 1)
    caml_final_do_calls_exn := fun w =>
      ((caml_process_pending_actions linux_amd64 counting_env ⟨w, []⟩).state.w, 1) }

/-- As `counting_env`, but the handler of signal 2 (the closure 108) runs
`Thread.sigmask SIG_BLOCK []`, a blocking section followed by the processing of the pending
actions, whose handlers are those of `counting_env`, and then raises `Sys.Break`. -/
def nested_raising_env : Env Nat :=
  { counting_env with
    caml_callback_exn := fun handler _ w =>
      if handler = 108 then
        (match caml_thread_sigmask linux_amd64 counting_env 2 1 [] ⟨w, []⟩ with
          | some o => o.state.w
          | none => w, 1002)
      else ({ w with rest := w.rest + 1 }, 1) }

/-- Signals 2 and 3 are pending, no signal is blocked, and `action_pending` has been cleared
by the pass that calls the drain. -/
def signals_2_3_unblocked : St Nat :=
  { w := { caml_pending_signals := [6, 0]
           sigmask := fun _ => false
           action_pending := 0
           errno := 0
           caml_signal_handlers := (List.range 65).map (fun i => (100 + 4 * i : Int))
           rest := 0 }
    trace := [] }

/-! # Theorems -/

/-! ## Recording a signal -/

theorem atomic_load_set (words : List Nat) (i k v : Nat) :
    atomic_load (words.set i v) k =
      if i = k ∧ i < words.length then v else atomic_load words k := by
  unfold atomic_load
  rw [List.getD_eq_getElem?_getD, List.getD_eq_getElem?_getD, List.getElem?_set]
  by_cases h : i = k
  · subst h
    by_cases hl : i < words.length
    · simp [hl]
    · simp [hl, List.getElem?_eq_none (Nat.le_of_not_lt hl)]
  · simp [h]

theorem record_index_lt (p : Platform) (hp : p.wf) (signal_number : Int)
    (h1 : 1 ≤ signal_number) (h2 : signal_number < p.NSIG) :
    (signal_number - 1).toNat / p.BITS_PER_WORD < p.NSIG_WORDS := by
  obtain ⟨hb, hn, -⟩ := hp
  rw [Nat.div_lt_iff_lt_mul hb]
  omega

/-- C1: `caml_record_signal(signal_number)` with `1 <= signal_number < NSIG` sets bit
`(signal_number - 1) mod BITS_PER_WORD` of word `(signal_number - 1) div BITS_PER_WORD`, leaves
every other bit of every word as it was and triggers the interrupt once; with
`signal_number <= 0` or `signal_number >= NSIG` it changes nothing and triggers no interrupt.
The interrupt itself is assumed not to write the pending-signal array. -/
theorem caml_record_signal_spec {σ : Type} (p : Platform) (env : Env σ) (hp : p.wf)
    (hframe : ∀ w, (env.caml_interrupt_all_signal_safe w).caml_pending_signals
      = w.caml_pending_signals)
    (s : St σ) (hlen : s.w.caml_pending_signals.length = p.NSIG_WORDS)
    (signal_number : Int) :
    (1 ≤ signal_number ∧ signal_number < p.NSIG →
      (caml_record_signal p env signal_number s).w.caml_pending_signals.length = p.NSIG_WORDS ∧
      (∀ w b, pending_bit (caml_record_signal p env signal_number s).w.caml_pending_signals w b
        = if w = (signal_number - 1).toNat / p.BITS_PER_WORD
              ∧ b = (signal_number - 1).toNat % p.BITS_PER_WORD
          then true else pending_bit s.w.caml_pending_signals w b) ∧
      (caml_record_signal p env signal_number s).trace.map Call.ev
        = s.trace.map Call.ev ++ [Event.interrupt_all_signal_safe]) ∧
    (signal_number ≤ 0 ∨ signal_number ≥ p.NSIG →
      caml_record_signal p env signal_number s = s) := by
  constructor
  · rintro ⟨h1, h2⟩
    have hidx := record_index_lt p hp signal_number h1 h2
    have hno : ¬ (signal_number ≤ 0 ∨ signal_number ≥ p.NSIG) := by omega
    simp only [caml_record_signal, hno, if_false, hframe]
    refine ⟨?_, ?_, by simp⟩
    · simp [atomic_fetch_or, hlen]
    · intro w b
      generalize (signal_number - 1).toNat = n at hidx ⊢
      simp only [pending_bit, atomic_fetch_or, atomic_load_set, hlen]
      by_cases hw : n / p.BITS_PER_WORD = w
      · subst hw
        simp only [hidx, and_self, if_true, true_and, Nat.testBit_or, Nat.one_shiftLeft,
          Nat.testBit_two_pow]
        by_cases hb : b = n % p.BITS_PER_WORD
        · simp [hb]
        · have hb' : ¬ n % p.BITS_PER_WORD = b := fun h => hb h.symm
          simp [hb, hb']
      · have hw' : ¬ w = n / p.BITS_PER_WORD := fun h => hw h.symm
        simp [hw, hw']
  · intro h
    simp [caml_record_signal, h]

/-- Witness of C1 on Linux: recording signal 7 sets bit 6 of word 0, recording signal 64 sets
bit 63 of word 0, recording 0 or 65 changes nothing. -/
theorem caml_record_signal_spec_witness :
    linux_amd64.wf ∧
    pending_bit (caml_record_signal linux_amd64 counting_env 7
      (start_state fun _ => false)).w.caml_pending_signals 0 6 = true ∧
    pending_bit (caml_record_signal linux_amd64 counting_env 7
      (start_state fun _ => false)).w.caml_pending_signals 0 7 = false ∧
    caml_record_signal linux_amd64 counting_env 65 (start_state fun _ => false)
      = start_state fun _ => false :=
  have h := caml_record_signal_spec linux_amd64 counting_env (by decide) (fun _ => rfl)
    (start_state fun _ => false) rfl
  ⟨by decide, ((h 7).1 ⟨by decide, by decide⟩).2.1 0 6,
    ((h 7).1 ⟨by decide, by decide⟩).2.1 0 7, (h 65).2 (Or.inr (by decide))⟩

/-! ## The master lock -/

theorem getElem?_set_holding_iff (pcs : List Pc) (t u : Nat) (pc : Pc) :
    (pcs.set t pc)[u]? = some Pc.holding ↔
      (t = u ∧ t < pcs.length ∧ pc = Pc.holding) ∨
        (t ≠ u ∧ pcs[u]? = some Pc.holding) := by
  rw [List.getElem?_set]
  by_cases h : t = u
  · subst h
    by_cases hl : t < pcs.length
    · simp [hl, eq_comm]
    · simp [hl]
  · simp [h]

theorem futex_wake_one_holding (pcs pcs1 : List Pc) (target : Option Nat)
    (h : futex_wake_one pcs target = some pcs1) (u : Nat) :
    pcs1[u]? = some Pc.holding ↔ pcs[u]? = some Pc.holding := by
  unfold futex_wake_one at h
  cases target with
  | none =>
    simp only at h
    split at h
    · exact absurd h (by simp)
    · cases h; rfl
  | some v =>
    simp only at h
    cases hv : pcs[v]? with
    | none => simp [hv] at h
    | some pc =>
      simp only [hv] at h
      split at h
      · rename_i hs
        cases h
        rw [getElem?_set_holding_iff]
        constructor
        · rintro (⟨_, _, hw⟩ | ⟨_, hu⟩)
          · cases pc <;> simp [Pc.wake, Pc.asleep] at hw hs
          · exact hu
        · intro hu
          refine Or.inr ⟨?_, hu⟩
          rintro rfl
          rw [hv] at hu
          cases hu
          simp [Pc.asleep] at hs
      · exact absurd h (by simp)

/-- Holders only disappear and `busy` is not written: the invariant is kept. -/
theorem exclusive_of_subset (st st1 : MState) (h : st.exclusive)
    (hb : st1.m.busy = st.m.busy) (hs : ∀ u, st1.holds u → st.holds u) : st1.exclusive :=
  ⟨fun t ht => hb.trans (h.1 t (hs t ht)), fun t u ht hu => h.2 t u (hs t ht) (hs u hu)⟩

/-- No holder is left: the invariant holds. -/
theorem exclusive_of_no_holder (st1 : MState) (hs : ∀ u, ¬ st1.holds u) : st1.exclusive :=
  ⟨fun t ht => absurd ht (hs t), fun t _ ht _ => absurd ht (hs t)⟩

/-- Thread `t` is the only possible holder and `busy == 1`: the invariant holds. -/
theorem exclusive_of_single (st1 : MState) (t : Nat) (hb : st1.m.busy = 1)
    (hs : ∀ u, st1.holds u → u = t) : st1.exclusive :=
  ⟨fun _ _ => hb, fun u v hu hv => (hs u hu).trans (hs v hv).symm⟩

/-- Taking the lock in `st_masterlock_acquire` keeps the invariant. -/
theorem exclusive_acquire_test (st : MState) (h : st.exclusive) (t : Nat) (m : st_masterlock)
    (hm : m.busy = st.m.busy) :
    MState.exclusive { m := (acquire_test m).1, pcs := st.pcs.set t (acquire_test m).2 } := by
  unfold acquire_test
  by_cases hbusy : m.busy ≠ 0
  · rw [if_pos hbusy]
    refine exclusive_of_subset st _ h hm ?_
    intro u hu
    simp only [MState.holds, getElem?_set_holding_iff] at hu
    rcases hu with ⟨_, _, hpc⟩ | ⟨_, hu⟩
    · cases hpc
    · exact hu
  · rw [if_neg hbusy]
    refine exclusive_of_single _ t rfl ?_
    intro u hu
    simp only [MState.holds, getElem?_set_holding_iff] at hu
    rcases hu with ⟨rfl, _, _⟩ | ⟨_, hu⟩
    · rfl
    · have := h.1 u hu
      rw [← hm] at this
      simp [this] at hbusy

theorem step_exclusive (st st1 : MState) (a : Action) (h : st.exclusive)
    (hstep : step st a = some st1) : st1.exclusive := by
  cases a with
  | acquire t =>
    simp only [step] at hstep
    split at hstep
    · rename_i hpc
      cases hstep
      exact exclusive_acquire_test st h t st.m rfl
    · exact absurd hstep (by simp)
  | release t =>
    simp only [step] at hstep
    split at hstep
    · rename_i hpc
      cases hstep
      refine exclusive_of_no_holder _ ?_
      intro u hu
      simp only [MState.holds, release_section, getElem?_set_holding_iff] at hu
      rcases hu with ⟨_, _, hx⟩ | ⟨hne, hu⟩
      · cases hx
      · exact hne (h.2 t u hpc hu)
    · exact absurd hstep (by simp)
  | signal t target =>
    simp only [step] at hstep
    split at hstep
    · split at hstep
      · rename_i pcs hw
        cases hstep
        refine exclusive_of_subset st _ h rfl ?_
        intro u hu
        simp only [MState.holds, getElem?_set_holding_iff] at hu
        rcases hu with ⟨_, _, hx⟩ | ⟨_, hu⟩
        · cases hx
        · exact (futex_wake_one_holding _ _ _ hw u).1 hu
      · exact absurd hstep (by simp)
    · exact absurd hstep (by simp)
  | yield t target =>
    simp only [step] at hstep
    split at hstep
    · rename_i hpc
      unfold yield_enter at hstep
      by_cases hb : st.m.busy = 0
      · simp [hb] at hstep
      · by_cases hw : st.m.waiters = 0
        · simp only [hb, hw, if_true, if_false] at hstep
          cases hstep
          refine exclusive_of_subset st _ h rfl ?_
          intro u hu
          simp only [MState.holds, getElem?_set_holding_iff] at hu
          rcases hu with ⟨rfl, _, _⟩ | ⟨_, hu⟩
          · exact hpc
          · exact hu
        · simp only [hb, hw, if_false] at hstep
          split at hstep
          · rename_i pcs hwake
            cases hstep
            refine exclusive_of_no_holder _ ?_
            intro u hu
            simp only [MState.holds, getElem?_set_holding_iff] at hu
            rcases hu with ⟨_, _, hx⟩ | ⟨hne, hu⟩
            · cases hx
            · exact hne (h.2 t u hpc ((futex_wake_one_holding _ _ _ hwake u).1 hu))
          · exact absurd hstep (by simp)
    · exact absurd hstep (by simp)
  | futex_wait t =>
    simp only [step] at hstep
    split at hstep
    · split at hstep <;> cases hstep <;>
        · refine exclusive_of_subset st _ h rfl ?_
          intro u hu
          simp only [MState.holds, getElem?_set_holding_iff] at hu
          rcases hu with ⟨_, _, hx⟩ | ⟨_, hu⟩
          · cases hx
          · exact hu
    · split at hstep <;> cases hstep <;>
        · refine exclusive_of_subset st _ h rfl ?_
          intro u hu
          simp only [MState.holds, getElem?_set_holding_iff] at hu
          rcases hu with ⟨_, _, hx⟩ | ⟨_, hu⟩
          · cases hx
          · exact hu
    · exact absurd hstep (by simp)
  | relock t =>
    simp only [step] at hstep
    split at hstep
    · rename_i hpc
      cases hstep
      exact exclusive_acquire_test st h t _ rfl
    · rename_i hpc
      cases hstep
      unfold yield_relock
      by_cases hbusy : st.m.busy ≠ 0
      · rw [if_pos hbusy]
        refine exclusive_of_subset st _ h rfl ?_
        intro u hu
        simp only [MState.holds, getElem?_set_holding_iff] at hu
        rcases hu with ⟨_, _, hx⟩ | ⟨_, hu⟩
        · cases hx
        · exact hu
      · rw [if_neg hbusy]
        refine exclusive_of_single _ t rfl ?_
        intro u hu
        simp only [MState.holds, getElem?_set_holding_iff] at hu
        rcases hu with ⟨rfl, _, _⟩ | ⟨_, hu⟩
        · rfl
        · have := h.1 u hu
          simp [this] at hbusy
    · exact absurd hstep (by simp)
  | spurious_wakeup t =>
    simp only [step] at hstep
    split at hstep
    · rename_i pc hpc
      split at hstep
      · rename_i hs
        cases hstep
        refine exclusive_of_subset st _ h rfl ?_
        intro u hu
        simp only [MState.holds, getElem?_set_holding_iff] at hu
        rcases hu with ⟨_, _, hx⟩ | ⟨_, hu⟩
        · cases pc <;> simp [Pc.wake, Pc.asleep] at hx hs
        · exact hu
      · exact absurd hstep (by simp)
    · exact absurd hstep (by simp)

theorem run_exclusive (acts : List Action) (st st1 : MState) (h : st.exclusive)
    (hrun : run st acts = some st1) : st1.exclusive := by
  induction acts generalizing st with
  | nil =>
    simp only [run] at hrun
    cases hrun
    exact h
  | cons a as ih =>
    simp only [run] at hrun
    cases hs : step st a with
    | none => simp [hs] at hrun
    | some st2 =>
      rw [hs] at hrun
      exact ih st2 (step_exclusive st st2 a h hs) hrun

theorem init_exclusive (n : Nat) : (st_masterlock_init n).exclusive := by
  refine exclusive_of_single _ 0 rfl ?_
  intro u hu
  cases u with
  | zero => rfl
  | succ k =>
    simp only [MState.holds, st_masterlock_init, List.getElem?_cons_succ] at hu
    rw [List.getElem?_replicate] at hu
    split at hu <;> cases hu

/-- C5: in every state reached from `st_masterlock_init` (thread 0 holding the lock, any
number of other threads) by any interleaving of the mutex-protected steps of
`st_masterlock_acquire`, `st_masterlock_release` and `st_thread_yield`, spurious futex
returns included, release and yield being taken only by a holder, at most one thread is
between the return of its acquire or yield and its next release, and `busy == 1` whenever
some thread is. -/
theorem st_masterlock_mutual_exclusion (n : Nat) (acts : List Action) (st : MState)
    (hrun : run (st_masterlock_init n) acts = some st) :
    (∀ t u, st.holds t → st.holds u → t = u) ∧ (∀ t, st.holds t → st.m.busy = 1) :=
  have h := run_exclusive acts _ st (init_exclusive n) hrun
  ⟨h.2, h.1⟩

/-- Witness of C5 with two threads: thread 1 calls acquire and sleeps, thread 0 yields to it,
thread 1 takes the lock; thread 1 is then the only holder and `busy == 1`. -/
theorem st_masterlock_mutual_exclusion_witness :
    run (st_masterlock_init 1)
        [Action.acquire 1, Action.futex_wait 1, Action.yield 0 (some 1), Action.relock 1]
      = some handoff_taken ∧
    handoff_taken.holds 1 ∧
    (∀ t u, handoff_taken.holds t → handoff_taken.holds u → t = u) ∧
    (∀ t, handoff_taken.holds t → handoff_taken.m.busy = 1) :=
  ⟨by decide, by decide, st_masterlock_mutual_exclusion 1
    [Action.acquire 1, Action.futex_wait 1, Action.yield 0 (some 1), Action.relock 1]
    handoff_taken (by decide)⟩

/-- C6: with `busy == 1` and `waiters == 0`, `st_thread_yield` returns at its first unlock: it
calls neither `custom_condvar_signal` nor `custom_condvar_wait` and leaves `busy`, `waiters`
and the counter of the condition variable as they were; as a step of the holder `t` it leaves
the whole state unchanged, whatever the other threads are doing. -/
theorem st_thread_yield_no_waiter (st : MState) (t : Nat) (target : Option Nat)
    (hold : st.holds t) (hbusy : st.m.busy = 1) (hwaiters : st.m.waiters = 0) :
    yield_enter st.m = some (st.m, Pc.holding, false) ∧
    step st (Action.yield t target) = some st := by
  have hy : yield_enter st.m = some (st.m, Pc.holding, false) := by
    simp [yield_enter, hbusy, hwaiters]
  refine ⟨hy, ?_⟩
  have hpc : st.pcs[t]? = some Pc.holding := hold
  have hset : st.pcs.set t Pc.holding = st.pcs := by
    apply List.ext_getElem?
    intro u
    rw [List.getElem?_set]
    by_cases h : t = u
    · subst h
      simp only [if_true]
      split
      · exact hpc.symm
      · rename_i hl
        rw [List.getElem?_eq_none (Nat.le_of_not_lt hl)]
    · simp [h]
  simp only [step, hpc, hy, hset]

/-- Witness of C6: the initialising thread yields right after `st_masterlock_init`, no other
thread waiting. -/
theorem st_thread_yield_no_waiter_witness :
    (st_masterlock_init 1).holds 0 ∧ (st_masterlock_init 1).m.busy = 1 ∧
    (st_masterlock_init 1).m.waiters = 0 ∧
    yield_enter (st_masterlock_init 1).m = some ((st_masterlock_init 1).m, Pc.holding, false) ∧
    step (st_masterlock_init 1) (Action.yield 0 none) = some (st_masterlock_init 1) :=
  ⟨by decide, by decide, by decide,
    st_thread_yield_no_waiter (st_masterlock_init 1) 0 none (by decide) (by decide)
      (by decide)⟩

/-- C7 as stated fails with a third thread, without any spurious wake-up. Thread 0 holds the
lock and thread 1 sleeps in `st_masterlock_acquire` (`waiters == 1`); thread 0 yields; thread
2 takes the lock before the woken thread 1 relocks the mutex, then releases it and its signal
wakes thread 0: the yield of thread 0 returns although the acquire of thread 1 has not. -/
theorem st_thread_yield_handoff_counterexample :
    run (st_masterlock_init 2) [Action.acquire 1, Action.futex_wait 1]
      = some { m := { busy := 1, waiters := 1, is_free := { counter := 0 } },
               pcs := [Pc.holding, Pc.acq_sleep 0, Pc.outside] } ∧
    run { m := { busy := 1, waiters := 1, is_free := { counter := 0 } },
          pcs := [Pc.holding, Pc.acq_sleep 0, Pc.outside] }
        [Action.yield 0 (some 1), Action.acquire 2, Action.relock 1, Action.futex_wait 0,
         Action.futex_wait 1, Action.release 2, Action.signal 2 (some 0), Action.relock 0]
      = some { m := { busy := 1, waiters := 1, is_free := { counter := 2 } },
               pcs := [Pc.holding, Pc.acq_sleep 1, Pc.outside] } ∧
    ∀ st ∈ run_states { m := { busy := 1, waiters := 1, is_free := { counter := 0 } },
                        pcs := [Pc.holding, Pc.acq_sleep 0, Pc.outside] }
        [Action.yield 0 (some 1), Action.acquire 2, Action.relock 1, Action.futex_wait 0,
         Action.futex_wait 1, Action.release 2, Action.signal 2 (some 0), Action.relock 0],
      ¬ st.holds 1 := by
  refine ⟨by decide, by decide, by decide⟩

theorem countP_waiting_set (pcs : List Pc) (t : Nat) (old new : Pc)
    (h : pcs[t]? = some old) :
    (((pcs.set t new).countP Pc.waiting : Nat) : Int) =
      (pcs.countP Pc.waiting : Nat) - (if old.waiting then 1 else 0)
        + (if new.waiting then 1 else 0) := by
  induction pcs generalizing t with
  | nil => simp at h
  | cons x xs ih =>
    cases t with
    | zero =>
      simp only [List.getElem?_cons_zero, Option.some.injEq] at h
      subst h
      simp only [List.set_cons_zero, List.countP_cons]
      split <;> split <;> push_cast <;> ring
    | succ k =>
      simp only [List.getElem?_cons_succ] at h
      simp only [List.set_cons_succ, List.countP_cons]
      have := ih k h
      push_cast
      rw [this]
      ring

theorem futex_wake_one_spec (pcs pcs1 : List Pc) (target : Option Nat)
    (h : futex_wake_one pcs target = some pcs1) :
    pcs1 = pcs ∨ ∃ u pc, target = some u ∧ pcs[u]? = some pc ∧ pc.asleep = true ∧
      pcs1 = pcs.set u pc.wake := by
  unfold futex_wake_one at h
  cases target with
  | none =>
    simp only at h
    split at h
    · exact absurd h (by simp)
    · cases h; exact Or.inl rfl
  | some v =>
    simp only at h
    cases hv : pcs[v]? with
    | none => simp [hv] at h
    | some pc =>
      simp only [hv] at h
      split at h
      · rename_i hs
        cases h
        exact Or.inr ⟨v, pc, rfl, hv, hs, rfl⟩
      · exact absurd h (by simp)

theorem wake_waiting (pc : Pc) (h : pc.asleep = true) : pc.wake.waiting = pc.waiting := by
  cases pc <;> simp [Pc.wake, Pc.waiting, Pc.asleep] at h ⊢

theorem futex_wake_one_countP (pcs pcs1 : List Pc) (target : Option Nat)
    (h : futex_wake_one pcs target = some pcs1) :
    pcs1.countP Pc.waiting = pcs.countP Pc.waiting := by
  rcases futex_wake_one_spec pcs pcs1 target h with rfl | ⟨u, pc, _, hu, hs, rfl⟩
  · rfl
  · have := countP_waiting_set pcs u pc pc.wake hu
    rw [wake_waiting pc hs] at this
    omega

theorem futex_wake_one_getElem? (pcs pcs1 : List Pc) (target : Option Nat)
    (h : futex_wake_one pcs target = some pcs1) (t : Nat) (pc : Pc)
    (ht : pcs[t]? = some pc) (hs : pc.asleep = false) : pcs1[t]? = some pc := by
  rcases futex_wake_one_spec pcs pcs1 target h with rfl | ⟨u, pc1, _, hu, hs1, rfl⟩
  · exact ht
  · rw [List.getElem?_set]
    by_cases hut : u = t
    · subst hut
      rw [hu] at ht
      cases ht
      rw [hs] at hs1
      cases hs1
    · simp [hut, ht]

theorem step_waiters_counted (st st1 : MState) (a : Action) (h : st.waiters_counted)
    (hstep : step st a = some st1) : st1.waiters_counted := by
  unfold MState.waiters_counted at h ⊢
  cases a with
  | acquire t =>
    simp only [step] at hstep
    split at hstep
    · rename_i hpc
      cases hstep
      simp only [acquire_test]
      split <;> simp [countP_waiting_set _ t _ _ hpc, Pc.waiting, h]
    · exact absurd hstep (by simp)
  | release t =>
    simp only [step] at hstep
    split at hstep
    · rename_i hpc
      cases hstep
      simp [release_section, countP_waiting_set _ t _ _ hpc, Pc.waiting, h]
    · exact absurd hstep (by simp)
  | signal t target =>
    simp only [step] at hstep
    split at hstep
    · rename_i hpc
      split at hstep
      · rename_i pcs hw
        cases hstep
        have hpc1 := futex_wake_one_getElem? _ _ _ hw t _ hpc rfl
        simp [countP_waiting_set _ t _ _ hpc1, Pc.waiting, h, futex_wake_one_countP _ _ _ hw]
      · exact absurd hstep (by simp)
    · exact absurd hstep (by simp)
  | yield t target =>
    simp only [step] at hstep
    split at hstep
    · rename_i hpc
      unfold yield_enter at hstep
      by_cases hb : st.m.busy = 0
      · simp [hb] at hstep
      · by_cases hw : st.m.waiters = 0
        · simp only [hb, hw, if_true, if_false] at hstep
          cases hstep
          simp [countP_waiting_set _ t _ _ hpc, Pc.waiting, h]
        · simp only [hb, hw, if_false] at hstep
          split at hstep
          · rename_i pcs hwake
            cases hstep
            have hpc1 := futex_wake_one_getElem? _ _ _ hwake t _ hpc rfl
            simp [countP_waiting_set _ t _ _ hpc1, Pc.waiting, h,
              futex_wake_one_countP _ _ _ hwake]
          · exact absurd hstep (by simp)
    · exact absurd hstep (by simp)
  | futex_wait t =>
    simp only [step] at hstep
    split at hstep
    · rename_i hpc
      split at hstep <;> cases hstep <;>
        simp [countP_waiting_set _ t _ _ hpc, Pc.waiting, h]
    · rename_i hpc
      split at hstep <;> cases hstep <;>
        simp [countP_waiting_set _ t _ _ hpc, Pc.waiting, h]
    · exact absurd hstep (by simp)
  | relock t =>
    simp only [step] at hstep
    split at hstep
    · rename_i hpc
      cases hstep
      simp only [acquire_relock, acquire_test]
      split <;> simp [countP_waiting_set _ t _ _ hpc, Pc.waiting, h]
    · rename_i hpc
      cases hstep
      simp only [yield_relock]
      split <;> simp [countP_waiting_set _ t _ _ hpc, Pc.waiting, h]
    · exact absurd hstep (by simp)
  | spurious_wakeup t =>
    simp only [step] at hstep
    split at hstep
    · rename_i pc hpc
      split at hstep
      · rename_i hs
        cases hstep
        have := countP_waiting_set st.pcs t pc pc.wake hpc
        rw [wake_waiting pc hs] at this
        simp only [this, h]
        ring
      · exact absurd hstep (by simp)
    · exact absurd hstep (by simp)

theorem run_waiters_counted (acts : List Action) (st st1 : MState) (h : st.waiters_counted)
    (hrun : run st acts = some st1) : st1.waiters_counted := by
  induction acts generalizing st with
  | nil =>
    simp only [run] at hrun
    cases hrun
    exact h
  | cons a as ih =>
    simp only [run] at hrun
    cases hs : step st a with
    | none => simp [hs] at hrun
    | some st2 =>
      rw [hs] at hrun
      exact ih st2 (step_waiters_counted st st2 a h hs) hrun

theorem two_threads_cases (pcs : List Pc) (A B : Nat) (hlen : pcs.length = 2) (hAB : A ≠ B)
    (hA : A < 2) (hB : B < 2) (t : Nat) : t = A ∨ t = B ∨ pcs[t]? = none := by
  by_cases ht : t < 2
  · omega
  · exact Or.inr (Or.inr (List.getElem?_eq_none (by omega)))

/-- While the lock is handed off and no futex call returns spuriously, the only enabled steps
are the futex call of `A`, which puts it to sleep, and the relock of `B`, which takes the
lock. -/
theorem handed_off_step (st st1 : MState) (A B : Nat) (a : Action)
    (h : st.handed_off A B) (hns : ∀ t, a ≠ Action.spurious_wakeup t)
    (hstep : step st a = some st1) :
    st1.handed_off A B ∨ (st1.holds B ∧ ¬ st1.holds A) := by
  obtain ⟨hlen, hAB, hA2, hB2, hbusy, hA, hB⟩ := h
  have hBA : B ≠ A := fun e => hAB e.symm
  cases a with
  | acquire t =>
    rcases two_threads_cases st.pcs A B hlen hAB hA2 hB2 t with rfl | rfl | ht
    · rcases hA with hA | hA <;> simp [step, hA] at hstep
    · simp [step, hB] at hstep
    · simp [step, ht] at hstep
  | release t =>
    rcases two_threads_cases st.pcs A B hlen hAB hA2 hB2 t with rfl | rfl | ht
    · rcases hA with hA | hA <;> simp [step, hA] at hstep
    · simp [step, hB] at hstep
    · simp [step, ht] at hstep
  | signal t target =>
    rcases two_threads_cases st.pcs A B hlen hAB hA2 hB2 t with rfl | rfl | ht
    · rcases hA with hA | hA <;> simp [step, hA] at hstep
    · simp [step, hB] at hstep
    · simp [step, ht] at hstep
  | yield t target =>
    rcases two_threads_cases st.pcs A B hlen hAB hA2 hB2 t with rfl | rfl | ht
    · rcases hA with hA | hA <;> simp [step, hA] at hstep
    · simp [step, hB] at hstep
    · simp [step, ht] at hstep
  | futex_wait t =>
    rcases two_threads_cases st.pcs A B hlen hAB hA2 hB2 t with rfl | rfl | ht
    · rcases hA with hA | hA
      · simp only [step, hA, if_true, Option.some.injEq] at hstep
        subst hstep
        left
        refine ⟨by simp [hlen], hAB, hA2, hB2, hbusy, Or.inr ?_, ?_⟩
        · simp [List.getElem?_set, hlen, hA2]
        · simp [List.getElem?_set, hAB, hB]
      · simp [step, hA] at hstep
    · simp [step, hB] at hstep
    · simp [step, ht] at hstep
  | relock t =>
    rcases two_threads_cases st.pcs A B hlen hAB hA2 hB2 t with rfl | rfl | ht
    · rcases hA with hA | hA <;> simp [step, hA] at hstep
    · simp only [step, hB, acquire_relock, acquire_test, hbusy, ne_eq, not_true_eq_false,
        if_false, Option.some.injEq] at hstep
      subst hstep
      right
      constructor
      · simp [MState.holds, List.getElem?_set, hlen, hB2]
      · rcases hA with hA | hA <;> simp [MState.holds, List.getElem?_set, hBA, hA]
    · simp [step, ht] at hstep
  | spurious_wakeup t => exact absurd rfl (hns t)

theorem handed_off_run (acts : List Action) (st st1 : MState) (A B : Nat)
    (h : st.handed_off A B) (hns : ∀ t, Action.spurious_wakeup t ∉ acts)
    (hrun : run st acts = some st1) (hret : st1.holds A) :
    ∃ acts1 acts2 st2, acts = acts1 ++ acts2 ∧ run st acts1 = some st2 ∧
      st2.holds B ∧ ¬ st2.holds A := by
  induction acts generalizing st with
  | nil =>
    simp only [run] at hrun
    cases hrun
    obtain ⟨_, _, _, _, _, hA, _⟩ := h
    rcases hA with hA | hA <;> simp [MState.holds, hA] at hret
  | cons a as ih =>
    simp only [run] at hrun
    cases hs : step st a with
    | none => simp [hs] at hrun
    | some st2 =>
      rw [hs] at hrun
      have hns1 : ∀ t, a ≠ Action.spurious_wakeup t := by
        intro t e
        exact hns t (by simp [e])
      have hns2 : ∀ t, Action.spurious_wakeup t ∉ as := by
        intro t e
        exact hns t (List.mem_cons_of_mem _ e)
      rcases handed_off_step st st2 A B a h hns1 hs with h2 | h2
      · obtain ⟨acts1, acts2, st3, he, hr, hb⟩ := ih st2 h2 hns2 hrun
        refine ⟨a :: acts1, acts2, st3, by simp [he], ?_, hb⟩
        simp [run, hs, hr]
      · exact ⟨[a], as, st2, rfl, by simp [run, hs], h2⟩

theorem run_cons (st : MState) (a : Action) (acts : List Action) :
    run st (a :: acts) = (step st a).bind fun st1 => run st1 acts := by
  simp only [run]
  cases step st a <;> rfl

/-- C7, amended: with exactly two threads, `A` holding the lock (`busy == 1`) and `B` asleep
in the wait of `st_masterlock_acquire` (`waiters == 1`), and no spurious return of a futex
call, every execution in which `A` calls `st_thread_yield` and that yield returns has an
earlier state in which the acquire of `B` has returned and `A` does not hold the lock; when
the yield of `A` returns, `A` holds the lock, `busy == 1`, and `waiters` again counts exactly
the threads that are inside a wait loop. -/
theorem st_thread_yield_handoff (st st1 : MState) (A B old_count : Nat)
    (target : Option Nat) (acts : List Action)
    (hlen : st.pcs.length = 2) (hA : st.holds A)
    (hB : st.pcs[B]? = some (Pc.acq_sleep old_count))
    (hbusy : st.m.busy = 1) (hwaiters : st.m.waiters = 1)
    (hns : ∀ t, Action.spurious_wakeup t ∉ acts)
    (hrun : run st (Action.yield A target :: acts) = some st1) (hret : st1.holds A) :
    (∃ acts1 acts2 st2, acts = acts1 ++ acts2 ∧
      run st (Action.yield A target :: acts1) = some st2 ∧ st2.holds B ∧ ¬ st2.holds A) ∧
    st1.m.busy = 1 ∧ st1.m.waiters = ((st1.pcs.countP Pc.waiting : Nat) : Int) := by
  have hA' : st.pcs[A]? = some Pc.holding := hA
  have hA2 : A < 2 := by
    by_contra hc
    rw [List.getElem?_eq_none (by omega)] at hA'
    cases hA'
  have hB2 : B < 2 := by
    by_contra hc
    rw [List.getElem?_eq_none (by omega)] at hB
    cases hB
  have hAB : A ≠ B := by
    rintro rfl
    rw [hA'] at hB
    cases hB
  have hexcl : st.exclusive := by
    refine exclusive_of_single st A hbusy ?_
    intro u hu
    rcases two_threads_cases st.pcs A B hlen hAB hA2 hB2 u with rfl | rfl | hn
    · rfl
    · rw [MState.holds, hB] at hu
      cases hu
    · rw [MState.holds, hn] at hu
      cases hu
  have hcount : st.waiters_counted := by
    unfold MState.waiters_counted
    rw [hwaiters]
    match hp : st.pcs, hlen with
    | [a, b], _ =>
      rw [hp] at hA' hB
      have h01 : (A = 0 ∧ B = 1) ∨ (A = 1 ∧ B = 0) := by omega
      rcases h01 with ⟨rfl, rfl⟩ | ⟨rfl, rfl⟩
      · simp only [List.getElem?_cons_zero, List.getElem?_cons_succ, Option.some.injEq]
          at hA' hB
        subst hA' hB
        rfl
      · simp only [List.getElem?_cons_zero, List.getElem?_cons_succ, Option.some.injEq]
          at hA' hB
        subst hA' hB
        rfl
  have hex1 := run_exclusive _ st st1 hexcl hrun
  have hc1 := run_waiters_counted _ st st1 hcount hrun
  refine ⟨?_, hex1.1 A hret, hc1⟩
  rw [run_cons] at hrun
  cases hs : step st (Action.yield A target) with
  | none => simp [hs] at hrun
  | some st0 =>
    rw [hs] at hrun
    change run st0 acts = some st1 at hrun
    have hho : st0.handed_off A B := by
      have hw0 : st.m.waiters ≠ 0 := by rw [hwaiters]; decide
      have hb0 : st.m.busy ≠ 0 := by rw [hbusy]; decide
      simp only [step, hA', yield_enter, hb0, hw0, if_false] at hs
      split at hs
      · rename_i pcs hwake
        cases hs
        rcases futex_wake_one_spec st.pcs pcs target hwake with rfl | ⟨u, pc, _, hu, hsl, rfl⟩
        · exfalso
          unfold futex_wake_one at hwake
          have hany : st.pcs.any Pc.asleep = true := by
            rw [List.any_eq_true]
            exact ⟨_, List.mem_iff_getElem?.2 ⟨B, hB⟩, rfl⟩
          cases target with
          | none => simp [hany] at hwake
          | some v =>
            simp only at hwake
            cases hv : st.pcs[v]? with
            | none => simp [hv] at hwake
            | some pc =>
              simp only [hv] at hwake
              split at hwake
              · rename_i hsl
                have hvl : v < st.pcs.length := by
                  by_contra hc
                  rw [List.getElem?_eq_none (by omega)] at hv
                  cases hv
                have hext : st.pcs.set v pc.wake = st.pcs := Option.some.inj hwake
                have : (st.pcs.set v pc.wake)[v]? = some pc.wake := by
                  simp [List.getElem?_set, hvl]
                rw [hext, hv] at this
                cases pc <;> simp [Pc.wake, Pc.asleep] at this hsl
              · exact absurd hwake (by simp)
        · have huB : u = B := by
            rcases two_threads_cases st.pcs A B hlen hAB hA2 hB2 u with rfl | rfl | hn
            · rw [hA'] at hu
              cases hu
              simp [Pc.asleep] at hsl
            · rfl
            · rw [hn] at hu
              cases hu
          subst huB
          rw [hB] at hu
          cases hu
          refine ⟨by simp [hlen], hAB, hA2, hB2, rfl, Or.inl ?_, ?_⟩
          · simp [List.getElem?_set, hlen, hA2]
          · simp [List.getElem?_set, hAB, hlen, hB2, Pc.wake]
      · exact absurd hs (by simp)
    obtain ⟨acts1, acts2, st2, he, hr, hb⟩ := handed_off_run acts st0 st1 A B hho hns hrun hret
    refine ⟨acts1, acts2, st2, he, ?_, hb⟩
    rw [run_cons, hs]
    exact hr

/-- Witness of the amended C7: from `handoff_start` thread 0 yields, thread 1 takes the lock,
thread 0 goes to sleep, thread 1 releases and signals, thread 0 relocks and returns. -/
theorem st_thread_yield_handoff_witness :
    run (st_masterlock_init 1) [Action.acquire 1, Action.futex_wait 1] = some handoff_start ∧
    run handoff_start [Action.yield 0 (some 1), Action.relock 1, Action.futex_wait 0,
      Action.release 1, Action.signal 1 (some 0), Action.relock 0] = some handoff_end ∧
    handoff_end.holds 0 ∧
    (∃ acts1 acts2 st2,
      [Action.relock 1, Action.futex_wait 0, Action.release 1, Action.signal 1 (some 0),
        Action.relock 0] = acts1 ++ acts2 ∧
      run handoff_start (Action.yield 0 (some 1) :: acts1) = some st2 ∧
      st2.holds 1 ∧ ¬ st2.holds 0) ∧
    handoff_end.m.busy = 1 ∧
    handoff_end.m.waiters = ((handoff_end.pcs.countP Pc.waiting : Nat) : Int) :=
  ⟨by decide, by decide, by decide,
    st_thread_yield_handoff handoff_start handoff_end 0 1 0 (some 1)
      [Action.relock 1, Action.futex_wait 0, Action.release 1, Action.signal 1 (some 0),
        Action.relock 0]
      (by decide) (by decide) (by decide) (by decide) (by decide) (by intro t; simp)
      (by decide) (by decide)⟩

/-! ## The drain of pending signals: shape of the trace -/

theorem ApChain_append {σ : Type} (l1 l2 : List (Call σ)) (a m b : Int)
    (h1 : ApChain a l1 m) (h2 : ApChain m l2 b) : ApChain a (l1 ++ l2) b := by
  induction l1 generalizing a with
  | nil =>
    simp only [ApChain] at h1
    subst h1
    exact h2
  | cons c cs ih => exact ⟨h1.1, ih _ h1.2⟩

/-- The call made by `caml_execute_signal_exn`. -/
theorem execute_signal_trace {σ : Type} (p : Platform) (env : Env σ) (n : Int) (s : St σ) :
    ∃ c : Call σ, (caml_execute_signal_exn p env n s).1.trace = s.trace ++ [c] ∧
      handler_call p env c ∧
      c.ev.executed_signal = some n ∧
      c.pre.action_pending = s.w.action_pending ∧
      (caml_execute_signal_exn p env n s).1.w.action_pending = c.post.action_pending ∧
      c.pre.caml_pending_signals = s.w.caml_pending_signals ∧
      (caml_execute_signal_exn p env n s).1.w.caml_pending_signals
        = c.post.caml_pending_signals ∧
      (p.POSIX_SIGNALS = true →
        (caml_execute_signal_exn p env n s).1.w.sigmask = s.w.sigmask) := by
  refine ⟨_, rfl, ⟨n, rfl, rfl⟩, rfl, ?_, ?_, ?_, ?_, ?_⟩
  · simp only [caml_execute_signal_exn]; split <;> rfl
  · simp only [caml_execute_signal_exn]; split <;> rfl
  · simp only [caml_execute_signal_exn]; split <;> rfl
  · simp only [caml_execute_signal_exn]; split <;> rfl
  · intro hp
    simp only [caml_execute_signal_exn, hp, if_true]

/-- Every external call made by the bit loop is a signal-handler call, and the loop itself
does not write `action_pending`. -/
theorem process_pending_bits_trace {σ : Type} (p : Platform) (env : Env σ) (set : sigset_t)
    (i : Nat) (js : List Nat) (curr : Nat) (s : St σ) :
    ∃ new, (process_pending_bits p env set i js curr s).1.trace = s.trace ++ new ∧
      (∀ c ∈ new, handler_call p env c) ∧
      ApChain s.w.action_pending new
        (process_pending_bits p env set i js curr s).1.w.action_pending := by
  induction js generalizing curr s with
  | nil => exact ⟨[], by simp [process_pending_bits], by simp, rfl⟩
  | cons j js ih =>
    simp only [process_pending_bits]
    split
    · exact ih curr s
    · split
      · exact ih curr s
      · split
        · exact ⟨[], by simp, by simp, rfl⟩
        · exact ih _ s
        · rename_i stored _
          generalize hs1 : cas_store s i stored = s1
          have hap : s1.w.action_pending = s.w.action_pending := by rw [← hs1]; rfl
          have htr : s1.trace = s.trace := by rw [← hs1]; rfl
          obtain ⟨c, hc, hev, -, hpre, hpost, -⟩ := execute_signal_trace p env
            (signo_of p i j) s1
          rw [htr] at hc
          rw [hap] at hpre
          split
          · exact ⟨[c], hc, by simpa using hev, ⟨hpre, hpost.symm⟩⟩
          · split
            · exact ⟨[c], hc, by simpa using hev, ⟨hpre, hpost.symm⟩⟩
            · obtain ⟨new, hn, hall, hchain⟩ := ih
                (atomic_load (caml_execute_signal_exn p env
                  (signo_of p i j) s1).1.w.caml_pending_signals i)
                (caml_execute_signal_exn p env (signo_of p i j)
                  s1).1
              refine ⟨c :: new, ?_, ?_, ?_⟩
              · rw [hn, hc]; simp
              · intro c1 hc1
                rcases List.mem_cons.1 hc1 with rfl | h
                · exact hev
                · exact hall c1 h
              · refine ⟨hpre, ?_⟩
                rw [← hpost]
                exact hchain

theorem process_pending_words_trace {σ : Type} (p : Platform) (env : Env σ) (set : sigset_t)
    (is : List Nat) (s : St σ) :
    ∃ new, (process_pending_words p env set is s).1.trace = s.trace ++ new ∧
      (∀ c ∈ new, handler_call p env c) ∧
      ApChain s.w.action_pending new
        (process_pending_words p env set is s).1.w.action_pending := by
  induction is generalizing s with
  | nil => exact ⟨[], by simp [process_pending_words], by simp, rfl⟩
  | cons i is ih =>
    simp only [process_pending_words]
    split
    · exact ih s
    · obtain ⟨new1, h1, hall1, hch1⟩ := process_pending_bits_trace p env set i
        (List.range p.BITS_PER_WORD) (atomic_load s.w.caml_pending_signals i) s
      split
      · rename_i s1 exn heq
        rw [heq] at h1 hch1
        exact ⟨new1, h1, hall1, hch1⟩
      · rename_i s1 heq
        rw [heq] at h1 hch1
        obtain ⟨new2, h2, hall2, hch2⟩ := ih s1
        refine ⟨new1 ++ new2, ?_, ?_, ApChain_append _ _ _ _ _ hch1 hch2⟩
        · rw [h2, h1, List.append_assoc]
        · intro c hc
          rcases List.mem_append.1 hc with h | h
          · exact hall1 c h
          · exact hall2 c h

/-- Every external call made by `caml_process_pending_signals_exn` is a signal-handler call;
between the calls `action_pending` is not written. -/
theorem process_pending_signals_trace {σ : Type} (p : Platform) (env : Env σ) (s : St σ) :
    ∃ new, (caml_process_pending_signals_exn p env s).1.trace = s.trace ++ new ∧
      (∀ c ∈ new, handler_call p env c) ∧
      ApChain s.w.action_pending new
        (caml_process_pending_signals_exn p env s).1.w.action_pending := by
  simp only [caml_process_pending_signals_exn]
  split
  · exact ⟨[], by simp, by simp, rfl⟩
  · exact process_pending_words_trace p env s.w.sigmask _ s

/-! ## `caml_check_pending_signals` -/

theorem and_shiftLeft_eq_zero_iff (curr j : Nat) :
    curr &&& (1 <<< j) = 0 ↔ curr.testBit j = false := by
  rw [Nat.one_shiftLeft, Nat.and_two_pow]
  cases h : curr.testBit j
  · simp
  · simp [Nat.pos_iff_ne_zero.1 (Nat.two_pow_pos j)]

theorem check_pending_unblocked_bits_iff (p : Platform) (set : sigset_t) (curr i : Nat)
    (js : List Nat) :
    check_pending_unblocked_bits p set curr i js = true ↔
      ∃ j ∈ js, curr.testBit j = true ∧ set (signo_of p i j) = false := by
  induction js with
  | nil => simp [check_pending_unblocked_bits]
  | cons j js ih =>
    simp only [check_pending_unblocked_bits, List.mem_cons, exists_eq_or_imp, ne_eq,
      and_shiftLeft_eq_zero_iff, sigismember, Bool.not_eq_false, Bool.not_eq_true]
    split
    · rename_i h
      simp [h]
    · rename_i h
      rw [ih]
      constructor
      · intro h1; exact Or.inr h1
      · rintro (h1 | h1)
        · exact absurd h1 h
        · exact h1

theorem check_pending_unblocked_words_iff (p : Platform) (set : sigset_t) (words : List Nat)
    (is : List Nat) :
    check_pending_unblocked_words p set words is = true ↔
      ∃ i ∈ is, ∃ j, j < p.BITS_PER_WORD ∧ (atomic_load words i).testBit j = true ∧
        set (signo_of p i j) = false := by
  induction is with
  | nil => simp [check_pending_unblocked_words]
  | cons i is ih =>
    simp only [check_pending_unblocked_words, List.mem_cons, exists_eq_or_imp]
    split
    · rename_i h0
      rw [ih, h0]
      simp
    · split
      · rename_i hb
        rw [check_pending_unblocked_bits_iff] at hb
        obtain ⟨j, hj, h1, h2⟩ := hb
        simp only [true_iff]
        exact Or.inl ⟨j, List.mem_range.1 hj, h1, h2⟩
      · rename_i hb
        rw [check_pending_unblocked_bits_iff] at hb
        rw [ih]
        constructor
        · intro h; exact Or.inr h
        · rintro (⟨j, hj, h1, h2⟩ | h)
          · exact absurd ⟨j, List.mem_range.2 hj, h1, h2⟩ hb
          · exact h

theorem foldl_pending_iff (words : List Nat) (is : List Nat) (b : Bool) :
    is.foldl (fun pending i => if atomic_load words i ≠ 0 then true else pending) b = true ↔
      b = true ∨ ∃ i ∈ is, atomic_load words i ≠ 0 := by
  induction is generalizing b with
  | nil => simp
  | cons i is ih =>
    simp only [List.foldl_cons, List.mem_cons, exists_eq_or_imp]
    rw [ih]
    by_cases h : atomic_load words i = 0
    · simp [h]
    · simp [h]

theorem exists_testBit_of_ne_zero (x : Nat) (h : x ≠ 0) : ∃ j, x.testBit j = true := by
  by_contra hc
  push_neg at hc
  apply h
  apply Nat.eq_of_testBit_eq
  intro j
  simp [hc j]

/-- What `caml_check_pending_signals` computes: some word has a bit that is set and, in a
POSIX build, whose signal is not blocked by the mask of the calling thread. -/
theorem check_pending_signals_iff {σ : Type} (p : Platform) (w : World σ)
    (hwf : pending_wf p w.caml_pending_signals) :
    caml_check_pending_signals p w = true ↔
      ∃ i j, i < p.NSIG_WORDS ∧ j < p.BITS_PER_WORD ∧
        deliverable p w.sigmask i (atomic_load w.caml_pending_signals i) j = true := by
  have hbit : ∀ i, atomic_load w.caml_pending_signals i ≠ 0 ↔
      ∃ j, j < p.BITS_PER_WORD ∧ (atomic_load w.caml_pending_signals i).testBit j = true := by
    intro i
    constructor
    · intro h
      obtain ⟨j, hj⟩ := exists_testBit_of_ne_zero _ h
      refine ⟨j, ?_, hj⟩
      by_contra hc
      have := Nat.testBit_lt_two_pow
        (Nat.lt_of_lt_of_le (hwf.2 i) (Nat.pow_le_pow_right (by decide) (Nat.le_of_not_lt hc)))
      rw [this] at hj
      cases hj
    · rintro ⟨j, _, hj⟩ h0
      rw [h0, Nat.zero_testBit] at hj
      cases hj
  simp only [caml_check_pending_signals, check_pending_unblocked_signals]
  cases hpos : p.POSIX_SIGNALS
  · simp only [Bool.false_eq_true, if_false, foldl_pending_iff, false_or, List.mem_range,
      deliverable, hpos, Bool.false_and, Bool.not_false, Bool.and_true]
    constructor
    · rintro ⟨i, hi, h⟩
      obtain ⟨j, hj, hb⟩ := (hbit i).1 h
      exact ⟨i, j, hi, hj, hb⟩
    · rintro ⟨i, j, hi, hj, hb⟩
      exact ⟨i, hi, (hbit i).2 ⟨j, hj, hb⟩⟩
  · simp only [if_true]
    split
    · rw [check_pending_unblocked_words_iff]
      simp only [List.mem_range, deliverable, hpos, Bool.true_and, sigismember,
        Bool.and_eq_true, Bool.not_eq_true']
      constructor
      · rintro ⟨i, hi, j, hj, h1, h2⟩
        exact ⟨i, j, hi, hj, h1, h2⟩
      · rintro ⟨i, j, hi, hj, h1, h2⟩
        exact ⟨i, hi, j, hj, h1, h2⟩
    · rename_i hf
      have hf0 := hf
      rw [foldl_pending_iff] at hf
      simp only [Bool.false_eq_true, false_or, List.mem_range, not_exists, not_and] at hf
      constructor
      · intro h
        exact absurd h hf0
      · rintro ⟨i, j, hi, hj, hd⟩
        exfalso
        simp only [deliverable, Bool.and_eq_true] at hd
        exact hf i hi ((hbit i).2 ⟨j, hj, hd.1⟩)

/-! ## The drain of pending signals: what is delivered and what is cleared -/

theorem drop_length_append {α : Type} (a b : List α) : (a ++ b).drop a.length = b := by
  induction a with
  | nil => rfl
  | cons x xs ih => simp [ih]

/-- An exception leaves the bit loop only as the result of a handler. -/
theorem process_pending_bits_value {σ : Type} (p : Platform) (env : Env σ) (set : sigset_t)
    (i : Nat) (js : List Nat) (curr : Nat) (s : St σ) (exn : value)
    (h : (process_pending_bits p env set i js curr s).2 = some exn) :
    ∃ handler signum w, exn = (env.caml_callback_exn handler signum w).2 := by
  induction js generalizing curr s with
  | nil => simp [process_pending_bits] at h
  | cons j js ih =>
    simp only [process_pending_bits] at h
    split at h
    · exact ih curr s h
    · split at h
      · exact ih curr s h
      · split at h
        · cases h
        · exact ih _ s h
        · split at h
          · simp only [Option.some.injEq] at h
            exact ⟨_, _, _, h.symm.trans rfl⟩
          · split at h
            · cases h
            · exact ih _ _ h

/-- The word loop returns `Val_unit` or the result of a handler. -/
theorem process_pending_words_value {σ : Type} (p : Platform) (env : Env σ) (set : sigset_t)
    (is : List Nat) (s : St σ) :
    (process_pending_words p env set is s).2 = p.Val_unit ∨
    ∃ handler signum w,
      (process_pending_words p env set is s).2 = (env.caml_callback_exn handler signum w).2 := by
  induction is generalizing s with
  | nil => exact Or.inl rfl
  | cons i is ih =>
    simp only [process_pending_words]
    split
    · exact ih s
    · split
      · rename_i s1 exn heq
        exact Or.inr (process_pending_bits_value p env set i _ _ s exn (by rw [heq]))
      · exact ih _

/-- The drain returns `Val_unit` or the result of a handler. -/
theorem process_pending_signals_value {σ : Type} (p : Platform) (env : Env σ) (s : St σ) :
    (caml_process_pending_signals_exn p env s).2 = p.Val_unit ∨
    ∃ handler signum w,
      (caml_process_pending_signals_exn p env s).2
        = (env.caml_callback_exn handler signum w).2 := by
  simp only [caml_process_pending_signals_exn]
  split
  · exact Or.inl rfl
  · exact process_pending_words_value p env s.w.sigmask _ s

theorem pending_bit_fetch_or (words : List Nat) (i b0 : Nat) (hi : i < words.length)
    (w b : Nat) :
    pending_bit (atomic_fetch_or words i (1 <<< b0)) w b =
      if w = i ∧ b = b0 then true else pending_bit words w b := by
  simp only [pending_bit, atomic_fetch_or, atomic_load_set]
  by_cases hw : i = w
  · subst hw
    simp only [hi, and_self, if_true, true_and, Nat.testBit_or, Nat.one_shiftLeft,
      Nat.testBit_two_pow]
    by_cases hb : b = b0
    · simp [hb]
    · have hb' : ¬ b0 = b := fun h => hb h.symm
      simp [hb, hb']
  · have hw' : ¬ w = i := fun h => hw h.symm
    simp [hw, hw']

theorem record_signal_valid {σ : Type} (p : Platform) (env : Env σ)
    (hframe : ∀ w, (env.caml_interrupt_all_signal_safe w).caml_pending_signals
      = w.caml_pending_signals)
    (s : St σ) (n : Int) (h1 : 1 ≤ n) (h2 : n < p.NSIG) :
    (caml_record_signal p env n s).w.caml_pending_signals =
      atomic_fetch_or s.w.caml_pending_signals ((n - 1).toNat / p.BITS_PER_WORD)
        (1 <<< ((n - 1).toNat % p.BITS_PER_WORD)) := by
  have hno : ¬ (n ≤ 0 ∨ n ≥ p.NSIG) := by omega
  simp only [caml_record_signal, hno, if_false, hframe]

theorem signo_of_decode (p : Platform) (n : Int) (h1 : 1 ≤ n) :
    signo_of p ((n - 1).toNat / p.BITS_PER_WORD) ((n - 1).toNat % p.BITS_PER_WORD) = n := by
  unfold signo_of
  have := Nat.div_add_mod (n - 1).toNat p.BITS_PER_WORD
  rw [Nat.mul_comm] at this
  rw [this]
  omega

theorem signo_of_encode (p : Platform) (i j : Nat) (hj : j < p.BITS_PER_WORD) :
    1 ≤ signo_of p i j ∧ (signo_of p i j - 1).toNat / p.BITS_PER_WORD = i ∧
      (signo_of p i j - 1).toNat % p.BITS_PER_WORD = j := by
  unfold signo_of
  have h : (((i * p.BITS_PER_WORD + j + 1 : Nat) : Int) - 1).toNat = i * p.BITS_PER_WORD + j := by
    omega
  rw [h]
  refine ⟨by omega, ?_, ?_⟩
  · rw [Nat.mul_comm, Nat.mul_add_div (by omega), Nat.div_eq_of_lt hj]
    rfl
  · rw [Nat.mul_comm, Nat.mul_add_mod]
    exact Nat.mod_eq_of_lt hj

theorem atomic_load_replicate (n k : Nat) : atomic_load (List.replicate n 0) k = 0 := by
  unfold atomic_load
  rw [List.getD_eq_getElem?_getD, List.getElem?_replicate]
  split <;> rfl

/-- After a sequence of `caml_record_signal` calls the array is well formed, and a bit is set
exactly when it was set before or its signal has been recorded. -/
theorem record_signals_spec {σ : Type} (p : Platform) (env : Env σ) (hp : p.wf)
    (hframe : ∀ w, (env.caml_interrupt_all_signal_safe w).caml_pending_signals
      = w.caml_pending_signals)
    (recs : List Int) (s : St σ) (hwf : pending_wf p s.w.caml_pending_signals) :
    pending_wf p (record_signals p env recs s).w.caml_pending_signals ∧
    ∀ i j, pending_bit (record_signals p env recs s).w.caml_pending_signals i j = true ↔
      (pending_bit s.w.caml_pending_signals i j = true ∨
        ∃ n, recorded p recs n ∧ (n - 1).toNat / p.BITS_PER_WORD = i ∧
          (n - 1).toNat % p.BITS_PER_WORD = j) := by
  induction recs generalizing s with
  | nil =>
    refine ⟨hwf, fun i j => ?_⟩
    simp [record_signals, recorded]
  | cons n recs ih =>
    have hstep : pending_wf p (caml_record_signal p env n s).w.caml_pending_signals ∧
        ∀ i j, pending_bit (caml_record_signal p env n s).w.caml_pending_signals i j = true ↔
          (pending_bit s.w.caml_pending_signals i j = true ∨
            ((1 ≤ n ∧ n < p.NSIG) ∧ (n - 1).toNat / p.BITS_PER_WORD = i ∧
              (n - 1).toNat % p.BITS_PER_WORD = j)) := by
      by_cases hv : 1 ≤ n ∧ n < p.NSIG
      · have hidx := record_index_lt p hp n hv.1 hv.2
        rw [← hwf.1] at hidx
        rw [record_signal_valid p env hframe s n hv.1 hv.2]
        refine ⟨⟨?_, ?_⟩, ?_⟩
        · simp [atomic_fetch_or, hwf.1]
        · intro k
          simp only [atomic_fetch_or, atomic_load_set]
          split
          · rw [Nat.one_shiftLeft]
            exact Nat.or_lt_two_pow (hwf.2 _)
              (Nat.pow_lt_pow_right (by decide) (Nat.mod_lt _ hp.1))
          · exact hwf.2 k
        · intro i j
          rw [pending_bit_fetch_or _ _ _ hidx]
          constructor
          · intro h
            split at h
            · rename_i hc
              exact Or.inr ⟨hv, hc.1.symm, hc.2.symm⟩
            · exact Or.inl h
          · rintro (h | ⟨-, h1, h2⟩)
            · split
              · rfl
              · exact h
            · rw [if_pos ⟨h1.symm, h2.symm⟩]
      · have hinv : n ≤ 0 ∨ n ≥ p.NSIG := by omega
        simp only [caml_record_signal, hinv, if_true]
        refine ⟨hwf, fun i j => ?_⟩
        constructor
        · intro h; exact Or.inl h
        · rintro (h | ⟨h, -⟩)
          · exact h
          · exact absurd h hv
    obtain ⟨g1, g2⟩ := ih (caml_record_signal p env n s) hstep.1
    refine ⟨g1, fun i j => ?_⟩
    show pending_bit
      (record_signals p env recs (caml_record_signal p env n s)).w.caml_pending_signals i j
        = true ↔ _
    rw [g2 i j, hstep.2 i j]
    simp only [recorded, List.mem_cons]
    constructor
    · rintro ((h | ⟨hv, h1, h2⟩) | ⟨m, ⟨hm, hv⟩, h1, h2⟩)
      · exact Or.inl h
      · exact Or.inr ⟨n, ⟨Or.inl rfl, hv⟩, h1, h2⟩
      · exact Or.inr ⟨m, ⟨Or.inr hm, hv⟩, h1, h2⟩
    · rintro (h | ⟨m, ⟨hm | hm, hv⟩, h1, h2⟩)
      · exact Or.inl (Or.inl h)
      · subst hm
        exact Or.inl (Or.inr ⟨hv, h1, h2⟩)
      · exact Or.inr ⟨m, ⟨hm, hv⟩, h1, h2⟩

/-- From the empty set: the bit of signal `signo_of p i j` is set exactly when that signal has
been recorded. -/
theorem record_signals_from_empty {σ : Type} (p : Platform) (env : Env σ) (hp : p.wf)
    (hframe : ∀ w, (env.caml_interrupt_all_signal_safe w).caml_pending_signals
      = w.caml_pending_signals)
    (recs : List Int) (s : St σ)
    (hempty : s.w.caml_pending_signals = List.replicate p.NSIG_WORDS 0) :
    pending_wf p (record_signals p env recs s).w.caml_pending_signals ∧
    ∀ i j, j < p.BITS_PER_WORD →
      ((atomic_load (record_signals p env recs s).w.caml_pending_signals i).testBit j = true ↔
        recorded p recs (signo_of p i j)) := by
  have hwf : pending_wf p s.w.caml_pending_signals := by
    rw [hempty]
    refine ⟨by simp, fun k => ?_⟩
    rw [atomic_load_replicate]
    exact Nat.two_pow_pos _
  obtain ⟨h1, h2⟩ := record_signals_spec p env hp hframe recs s hwf
  refine ⟨h1, fun i j hj => ?_⟩
  have := h2 i j
  simp only [pending_bit] at this
  rw [this, hempty, atomic_load_replicate]
  simp only [Nat.zero_testBit, Bool.false_eq_true, false_or]
  obtain ⟨e1, e2, e3⟩ := signo_of_encode p i j hj
  constructor
  · rintro ⟨n, hn, h1, h2⟩
    have : signo_of p i j = n := by
      rw [← h1, ← h2]
      exact signo_of_decode p n hn.2.1
    rw [this]
    exact hn
  · intro h
    exact ⟨_, h, e2, e3⟩

/-! ## The order of delivery -/

theorem toNat_sub_one_div_lt (p : Platform) (hp : p.wf) (n : Int) (h1 : 1 ≤ n)
    (h2 : n < p.NSIG) :
    (n - 1).toNat / p.BITS_PER_WORD < p.NSIG_WORDS ∧
      (n - 1).toNat % p.BITS_PER_WORD < p.BITS_PER_WORD :=
  ⟨record_index_lt p hp n h1 h2, Nat.mod_lt _ hp.1⟩

/-- C3 as stated fails in a build with `POSIX_SIGNALS`: with signal 7 blocked by the mask of
the calling thread, `caml_record_signal(7)` on the empty set records a valid signal, and
`caml_check_pending_signals()` still returns false. -/
theorem check_pending_signals_masked_counterexample :
    (7 : Int) ∈ [(7 : Int)] ∧ (1 : Int) ≤ 7 ∧ (7 : Int) < linux_amd64.NSIG ∧
    pending_bit (record_signals linux_amd64 counting_env [7]
      (start_state fun n => n == 7)).w.caml_pending_signals 0 6 = true ∧
    caml_check_pending_signals linux_amd64
      (record_signals linux_amd64 counting_env [7] (start_state fun n => n == 7)).w = false := by
  refine ⟨by decide, by decide, by decide, by decide, by decide⟩

/-- C3, amended: starting from the empty set, after any sequence `recs` of
`caml_record_signal` calls with no drain in between, `caml_check_pending_signals()` returns
true if and only if some call had a signal number in `1 .. NSIG - 1` that, in a build with
`POSIX_SIGNALS`, is not blocked by the signal mask of the calling thread. -/
theorem check_pending_signals_after_records {σ : Type} (p : Platform) (env : Env σ)
    (hp : p.wf)
    (hint : ∀ w, (env.caml_interrupt_all_signal_safe w).caml_pending_signals
      = w.caml_pending_signals)
    (s0 : St σ) (hempty : s0.w.caml_pending_signals = List.replicate p.NSIG_WORDS 0)
    (recs : List Int) :
    caml_check_pending_signals p (record_signals p env recs s0).w = true ↔
      ∃ n, recorded p recs n ∧
        ¬ (p.POSIX_SIGNALS = true ∧ (record_signals p env recs s0).w.sigmask n = true) := by
  obtain ⟨hwf, hbits⟩ := record_signals_from_empty p env hp hint recs s0 hempty
  generalize record_signals p env recs s0 = s at hwf hbits
  rw [check_pending_signals_iff p s.w hwf]
  constructor
  · rintro ⟨i, j, hi, hj, hd⟩
    simp only [deliverable, Bool.and_eq_true, Bool.not_eq_true', sigismember] at hd
    refine ⟨signo_of p i j, (hbits i j hj).1 hd.1, ?_⟩
    rintro ⟨h1, h2⟩
    rw [h1, h2] at hd
    simp at hd
  · rintro ⟨n, hrec, hmask⟩
    obtain ⟨hi, hj⟩ := toNat_sub_one_div_lt p hp n hrec.2.1 hrec.2.2
    refine ⟨_, _, hi, hj, ?_⟩
    have hbit := (hbits _ _ hj).2 (by rw [signo_of_decode p n hrec.2.1]; exact hrec)
    simp only [deliverable, hbit, Bool.true_and, Bool.not_eq_true', sigismember,
      signo_of_decode p n hrec.2.1]
    by_contra hc
    apply hmask
    simp only [Bool.not_eq_false, Bool.and_eq_true] at hc
    exact hc

/-- Witness of the amended C3 on Linux: with signal 7 blocked, recording 7 and then 2 makes
`caml_check_pending_signals()` true, because of signal 2. -/
theorem check_pending_signals_after_records_witness :
    linux_amd64.wf ∧
    caml_check_pending_signals linux_amd64
      (record_signals linux_amd64 counting_env [7, 2] (start_state fun n => n == 7)).w = true ∧
    (caml_check_pending_signals linux_amd64
        (record_signals linux_amd64 counting_env [7, 2] (start_state fun n => n == 7)).w = true ↔
      ∃ n, recorded linux_amd64 [7, 2] n ∧
        ¬ (linux_amd64.POSIX_SIGNALS = true ∧
          (record_signals linux_amd64 counting_env [7, 2]
            (start_state fun n => n == 7)).w.sigmask n = true)) :=
  ⟨by decide, by decide,
    check_pending_signals_after_records linux_amd64 counting_env (by decide) (fun _ => rfl)
      (start_state fun n => n == 7) rfl [7, 2]⟩

/-! ## `caml_do_pending_actions_exn` -/

/-- `check_async_exn` returns without touching the state, or the process dies with the
message it was given. -/
theorem check_async_exn_cases {σ : Type} (p : Platform) (env : Env σ) (res : value)
    (msg : String) (s : St σ) :
    check_async_exn p env res msg s = Outcome.returned () s ∨
    ∃ exn, check_async_exn p env res msg s = Outcome.fatal_uncaught_exception exn msg s := by
  by_cases h1 : p.Is_exception_result res = true
  · cases hb : env.caml_named_value "Sys.Break" with
    | none =>
      exact Or.inr ⟨p.Extract_exception res, by simp [check_async_exn, h1, hb]⟩
    | some b =>
      by_cases he : p.Extract_exception res = b
      · exact Or.inl (by simp [check_async_exn, h1, hb, he])
      · exact Or.inr ⟨p.Extract_exception res, by simp [check_async_exn, h1, hb, he]⟩
  · exact Or.inl (by simp [check_async_exn, h1])

theorem ApChain_single {σ : Type} (c : Call σ) : ApChain c.pre.action_pending [c]
    c.post.action_pending :=
  ⟨rfl, rfl⟩

/-- The drain from the finalisers on: the calls made, in order, are a prefix of
`[final_do_calls_exn, process_external_interrupt]`; the function does not write
`action_pending` between them; it returns either an exception result with `action_pending`
set, or `Val_unit` after both calls with `action_pending` as the last call left it. -/
theorem do_pending_actions_final_structure {σ : Type} (p : Platform) (env : Env σ)
    (s : St σ) :
    ∃ (tail : List (Call σ)) (a : Int),
      (do_pending_actions_final p env s).state.trace = s.trace ++ tail ∧
      tail.map Call.ev <+: [Event.final_do_calls_exn, Event.process_external_interrupt] ∧
      ApChain s.w.action_pending tail a ∧
      ∀ v s1, do_pending_actions_final p env s = Outcome.returned v s1 →
        (p.Is_exception_result v = true ∧ s1.w.action_pending = 1) ∨
        (v = p.Val_unit ∧ s1.w.action_pending = a ∧
          tail.map Call.ev = [Event.final_do_calls_exn, Event.process_external_interrupt]) := by
  simp only [do_pending_actions_final]
  rcases check_async_exn_cases p env (env.caml_final_do_calls_exn s.w).2 "finaliser"
    { w := (env.caml_final_do_calls_exn s.w).1,
      trace := s.trace ++
        [⟨Event.final_do_calls_exn, s.w, (env.caml_final_do_calls_exn s.w).1⟩] }
    with h | ⟨e, h⟩
  · rw [h]
    simp only
    split
    · rename_i hexn
      refine ⟨[⟨Event.final_do_calls_exn, s.w, (env.caml_final_do_calls_exn s.w).1⟩], _, rfl,
        ⟨[Event.process_external_interrupt], rfl⟩, ApChain_single _, ?_⟩
      intro v s1 hv
      simp only [do_pending_actions_exception, Outcome.returned.injEq] at hv
      obtain ⟨rfl, rfl⟩ := hv
      exact Or.inl ⟨hexn, rfl⟩
    · refine ⟨[⟨Event.final_do_calls_exn, s.w, (env.caml_final_do_calls_exn s.w).1⟩,
        ⟨Event.process_external_interrupt, (env.caml_final_do_calls_exn s.w).1,
          env.caml_process_external_interrupt (env.caml_final_do_calls_exn s.w).1⟩], _,
        by simp [Outcome.state], ⟨[], rfl⟩, ⟨rfl, rfl, rfl⟩, ?_⟩
      intro v s1 hv
      simp only [Outcome.returned.injEq] at hv
      obtain ⟨rfl, rfl⟩ := hv
      exact Or.inr ⟨rfl, rfl, rfl⟩
  · rw [h]
    refine ⟨[⟨Event.final_do_calls_exn, s.w, (env.caml_final_do_calls_exn s.w).1⟩], _, rfl,
      ⟨[Event.process_external_interrupt], rfl⟩, ApChain_single _, ?_⟩
    intro v s1 hv
    cases hv

/-- The drain from the memprof callbacks on. -/
theorem do_pending_actions_memprof_structure {σ : Type} (p : Platform) (env : Env σ)
    (s : St σ) :
    ∃ (tail : List (Call σ)) (a : Int),
      (do_pending_actions_memprof p env s).state.trace = s.trace ++ tail ∧
      tail.map Call.ev <+: [Event.memprof_run_callbacks_exn, Event.final_do_calls_exn,
        Event.process_external_interrupt] ∧
      ApChain s.w.action_pending tail a ∧
      ∀ v s1, do_pending_actions_memprof p env s = Outcome.returned v s1 →
        (p.Is_exception_result v = true ∧ s1.w.action_pending = 1) ∨
        (v = p.Val_unit ∧ s1.w.action_pending = a ∧
          tail.map Call.ev = [Event.memprof_run_callbacks_exn, Event.final_do_calls_exn,
            Event.process_external_interrupt]) := by
  simp only [do_pending_actions_memprof]
  rcases check_async_exn_cases p env (env.caml_memprof_run_callbacks_exn s.w).2
    "memprof callback"
    { w := (env.caml_memprof_run_callbacks_exn s.w).1,
      trace := s.trace ++ [⟨Event.memprof_run_callbacks_exn, s.w,
        (env.caml_memprof_run_callbacks_exn s.w).1⟩] }
    with h | ⟨e, h⟩
  · rw [h]
    simp only
    split
    · rename_i hexn
      refine ⟨[⟨Event.memprof_run_callbacks_exn, s.w,
        (env.caml_memprof_run_callbacks_exn s.w).1⟩], _, rfl,
        ⟨[Event.final_do_calls_exn, Event.process_external_interrupt], rfl⟩,
        ApChain_single _, ?_⟩
      intro v s1 hv
      simp only [do_pending_actions_exception, Outcome.returned.injEq] at hv
      obtain ⟨rfl, rfl⟩ := hv
      exact Or.inl ⟨hexn, rfl⟩
    · obtain ⟨tail, a, htr, hpre, hch, hret⟩ := do_pending_actions_final_structure p env
        { w := (env.caml_memprof_run_callbacks_exn s.w).1,
          trace := s.trace ++ [⟨Event.memprof_run_callbacks_exn, s.w,
            (env.caml_memprof_run_callbacks_exn s.w).1⟩] }
      refine ⟨⟨Event.memprof_run_callbacks_exn, s.w,
        (env.caml_memprof_run_callbacks_exn s.w).1⟩ :: tail, a, ?_, ?_, ⟨rfl, hch⟩, ?_⟩
      · rw [htr]; simp
      · simpa using hpre
      · intro v s1 hv
        rcases hret v s1 hv with h1 | ⟨h1, h2, h3⟩
        · exact Or.inl h1
        · exact Or.inr ⟨h1, h2, by simp [h3]⟩
  · rw [h]
    refine ⟨[⟨Event.memprof_run_callbacks_exn, s.w,
      (env.caml_memprof_run_callbacks_exn s.w).1⟩], _, rfl,
      ⟨[Event.final_do_calls_exn, Event.process_external_interrupt], rfl⟩,
      ApChain_single _, ?_⟩
    intro v s1 hv
    cases hv

/-- The shape of every run of `caml_do_pending_actions_exn`: the call of
`caml_handle_gc_interrupt`, then calls of signal handlers, then a prefix of memprof
callbacks, finalisers, external interrupt. `action_pending` is 0 when the first of the calls
after the GC interrupt is entered and is not written by the function between them; the
function returns either an exception result with `action_pending` set, or `Val_unit` after
all calls with `action_pending` as the last call left it. -/
theorem do_pending_actions_structure {σ : Type} (p : Platform) (env : Env σ) (s : St σ) :
    ∃ (gc : Call σ) (sigs tail : List (Call σ)) (a : Int),
      (caml_do_pending_actions_exn p env s).state.trace = s.trace ++ gc :: (sigs ++ tail) ∧
      gc.ev = Event.handle_gc_interrupt ∧
      (∀ c ∈ sigs, handler_call p env c) ∧
      tail.map Call.ev <+: [Event.memprof_run_callbacks_exn, Event.final_do_calls_exn,
        Event.process_external_interrupt] ∧
      ApChain 0 (sigs ++ tail) a ∧
      ∀ v s1, caml_do_pending_actions_exn p env s = Outcome.returned v s1 →
        (p.Is_exception_result v = true ∧ s1.w.action_pending = 1) ∨
        (v = p.Val_unit ∧ s1.w.action_pending = a ∧
          tail.map Call.ev = [Event.memprof_run_callbacks_exn, Event.final_do_calls_exn,
            Event.process_external_interrupt]) := by
  simp only [caml_do_pending_actions_exn]
  generalize hs2 : do_pending_actions_begin env s = s2
  have htr2 : s2.trace
      = s.trace ++ [⟨Event.handle_gc_interrupt, s.w, env.caml_handle_gc_interrupt s.w⟩] := by
    rw [← hs2]; rfl
  have hap2 : s2.w.action_pending = 0 := by rw [← hs2]; rfl
  obtain ⟨sigs, htr, hcalls, hch⟩ := process_pending_signals_trace p env s2
  rw [hap2] at hch
  generalize caml_process_pending_signals_exn p env s2 = r at htr hch
  rcases check_async_exn_cases p env r.2 "signal handler" r.1 with h | ⟨e, h⟩
  · rw [h]
    simp only
    split
    · rename_i hexn
      refine ⟨⟨Event.handle_gc_interrupt, s.w, env.caml_handle_gc_interrupt s.w⟩, sigs, [],
        r.1.w.action_pending, ?_,
        rfl, hcalls, ⟨_, rfl⟩, ?_, ?_⟩
      · simp only [do_pending_actions_exception, Outcome.state, htr, htr2]
        simp
      · simpa using hch
      · intro v s1 hv
        simp only [do_pending_actions_exception, Outcome.returned.injEq] at hv
        obtain ⟨rfl, rfl⟩ := hv
        exact Or.inl ⟨hexn, rfl⟩
    · obtain ⟨tail, a, htl, hpre, hcht, hret⟩ := do_pending_actions_memprof_structure p env r.1
      refine ⟨⟨Event.handle_gc_interrupt, s.w, env.caml_handle_gc_interrupt s.w⟩, sigs, tail,
        a, ?_, rfl, hcalls, hpre, ApChain_append _ _ _ _ _ hch hcht, hret⟩
      rw [htl, htr, htr2]
      simp
  · rw [h]
    refine ⟨⟨Event.handle_gc_interrupt, s.w, env.caml_handle_gc_interrupt s.w⟩, sigs, [],
        r.1.w.action_pending, ?_,
        rfl, hcalls, ⟨_, rfl⟩, ?_, ?_⟩
    · simp only [Outcome.state, htr, htr2]
      simp
    · simpa using hch
    · intro v s1 hv
      cases hv

/-- C8: in every run of `caml_do_pending_actions_exn`, whether it returns or the process
dies, the external calls are made in the order: `caml_handle_gc_interrupt` first, then the
signal handlers, then `caml_memprof_run_callbacks_exn`, then `caml_final_do_calls_exn`, then
`caml_process_external_interrupt` last, each category at most once apart from the signal
handlers; a run that returns without an exception result has made all of them. Each call has
returned before the next one is made, calls being function applications. -/
theorem caml_do_pending_actions_exn_order {σ : Type} (p : Platform) (env : Env σ)
    (s : St σ) :
    ∃ sigs tail : List Event,
      (caml_do_pending_actions_exn p env s).state.trace.map Call.ev
        = s.trace.map Call.ev ++ Event.handle_gc_interrupt :: (sigs ++ tail) ∧
      (∀ e ∈ sigs, ∃ n handler signum, e = Event.callback_exn n handler signum) ∧
      tail <+: [Event.memprof_run_callbacks_exn, Event.final_do_calls_exn,
        Event.process_external_interrupt] ∧
      ∀ v s1, caml_do_pending_actions_exn p env s = Outcome.returned v s1 →
        p.Is_exception_result v = false →
        tail = [Event.memprof_run_callbacks_exn, Event.final_do_calls_exn,
          Event.process_external_interrupt] := by
  obtain ⟨gc, sigs, tail, a, htr, hgc, hcalls, hpre, -, hret⟩ :=
    do_pending_actions_structure p env s
  refine ⟨sigs.map Call.ev, tail.map Call.ev, ?_, ?_, hpre, ?_⟩
  · rw [htr]
    simp [hgc]
  · intro e he
    obtain ⟨c, hc, rfl⟩ := List.mem_map.1 he
    obtain ⟨n, hev, -⟩ := hcalls c hc
    exact ⟨n, _, _, hev⟩
  · intro v s1 hv hne
    rcases hret v s1 hv with ⟨h1, -⟩ | ⟨-, -, h3⟩
    · rw [h1] at hne
      cases hne
    · exact h3

/-- Witness of C8 on Linux, signal 7 pending: the calls are the GC interrupt, the handler of
signal 7, the memprof callbacks, the finalisers and the external interrupt, in this order. -/
theorem caml_do_pending_actions_exn_order_witness :
    (caml_do_pending_actions_exn linux_amd64 counting_env signal_7_pending).state.trace.map
        Call.ev
      = [Event.handle_gc_interrupt, Event.callback_exn 7 128 (-43),
          Event.memprof_run_callbacks_exn, Event.final_do_calls_exn,
          Event.process_external_interrupt] ∧
    ∃ sigs tail : List Event,
      (caml_do_pending_actions_exn linux_amd64 counting_env signal_7_pending).state.trace.map
          Call.ev
        = signal_7_pending.trace.map Call.ev ++ Event.handle_gc_interrupt :: (sigs ++ tail) ∧
      (∀ e ∈ sigs, ∃ n handler signum, e = Event.callback_exn n handler signum) ∧
      tail <+: [Event.memprof_run_callbacks_exn, Event.final_do_calls_exn,
        Event.process_external_interrupt] ∧
      ∀ v s1, caml_do_pending_actions_exn linux_amd64 counting_env signal_7_pending
          = Outcome.returned v s1 →
        linux_amd64.Is_exception_result v = false →
        tail = [Event.memprof_run_callbacks_exn, Event.final_do_calls_exn,
          Event.process_external_interrupt] :=
  ⟨by decide, caml_do_pending_actions_exn_order linux_amd64 counting_env signal_7_pending⟩

theorem ApChain_set {σ : Type} (l : List (Call σ)) (x b : Int) (h : ApChain x l b)
    (hmono : ∀ c ∈ l,
      c.post.action_pending = c.pre.action_pending ∨ c.post.action_pending = 1)
    (hset : x = 1 ∨ ∃ c ∈ l, c.post.action_pending = 1) : b = 1 := by
  induction l generalizing x with
  | nil =>
    simp only [ApChain] at h
    rcases hset with h1 | ⟨c, hc, -⟩
    · rw [← h, h1]
    · cases hc
  | cons c cs ih =>
    obtain ⟨hpre, hrest⟩ := h
    apply ih c.post.action_pending hrest (fun d hd => hmono d (List.mem_cons_of_mem _ hd))
    rcases hset with h1 | ⟨d, hd, hd1⟩
    · rcases hmono c (List.mem_cons_self _ _) with h2 | h2
      · left; rw [h2, hpre, h1]
      · left; exact h2
    · rcases List.mem_cons.1 hd with rfl | hd
      · left; exact hd1
      · right; exact ⟨d, hd, hd1⟩

theorem ApChain_const {σ : Type} (l : List (Call σ)) (x b : Int) (h : ApChain x l b)
    (hsame : ∀ c ∈ l, c.post.action_pending = c.pre.action_pending) : b = x := by
  induction l generalizing x with
  | nil => exact h.symm
  | cons c cs ih =>
    obtain ⟨hpre, hrest⟩ := h
    rw [ih c.post.action_pending hrest (fun d hd => hsame d (List.mem_cons_of_mem _ hd)),
      hsame c (List.mem_cons_self _ _), hpre]

/-- Counterexample to C9 as stated, on Linux, signal 7 pending: the memprof callbacks call
`caml_set_action_pending`, and the finalisers, run after them, process the pending actions
themselves, which clears the flag. The drain returns `Val_unit` with `action_pending == 0`
although a delayable action of the run has set the flag. -/
theorem caml_do_pending_actions_exn_action_pending_counterexample :
    (caml_do_pending_actions_exn linux_amd64 nested_drain_env signal_7_pending).value?
      = some 1 ∧
    (caml_do_pending_actions_exn linux_amd64 nested_drain_env signal_7_pending).state.trace.map
        (fun c => (c.ev, c.pre.action_pending, c.post.action_pending))
      = [(Event.handle_gc_interrupt, 1, 1), (Event.callback_exn 7 128 (-43), 0, 0),
          (Event.memprof_run_callbacks_exn, 0, 1), (Event.final_do_calls_exn, 1, 0),
          (Event.process_external_interrupt, 0, 0)] ∧
    (caml_do_pending_actions_exn linux_amd64 nested_drain_env
      signal_7_pending).state.w.action_pending = 0 := by
  decide

/-- C9, amended: in every run of `caml_do_pending_actions_exn` that returns, the calls after
`caml_handle_gc_interrupt` are the delayable actions; the first of them is entered with
`action_pending == 0`. The function does not clear the flag afterwards: when the actions write
the flag only by setting it (`caml_set_action_pending`) and one of them does, the flag is 1 on
return; when no action changes the flag and the result is not an exception, it is 0 on
return. -/
theorem caml_do_pending_actions_exn_action_pending {σ : Type} (p : Platform) (env : Env σ)
    (s : St σ) (v : value) (s1 : St σ)
    (hret : caml_do_pending_actions_exn p env s = Outcome.returned v s1) :
    ∃ (gc : Call σ) (actions : List (Call σ)),
      s1.trace = s.trace ++ gc :: actions ∧
      gc.ev = Event.handle_gc_interrupt ∧
      (∀ c ∈ actions, c.ev.delayable = true) ∧
      (∀ c, actions.head? = some c → c.pre.action_pending = 0) ∧
      ((∀ c ∈ actions, c.post.action_pending = c.pre.action_pending ∨
          c.post.action_pending = 1) →
        (∃ c ∈ actions, c.post.action_pending = 1) → s1.w.action_pending = 1) ∧
      ((∀ c ∈ actions, c.post.action_pending = c.pre.action_pending) →
        p.Is_exception_result v = false → s1.w.action_pending = 0) := by
  obtain ⟨gc, sigs, tail, a, htr, hgc, hcalls, hpre, hch, hr⟩ :=
    do_pending_actions_structure p env s
  rw [hret] at htr
  refine ⟨gc, sigs ++ tail, htr, hgc, ?_, ?_, ?_, ?_⟩
  · intro c hc
    rcases List.mem_append.1 hc with h | h
    · obtain ⟨n, hev, -⟩ := hcalls c h
      rw [hev]
      rfl
    · have hmem : c.ev ∈ [Event.memprof_run_callbacks_exn, Event.final_do_calls_exn,
          Event.process_external_interrupt] :=
        hpre.subset (List.mem_map_of_mem _ h)
      simp only [List.mem_cons, List.mem_singleton, List.not_mem_nil, or_false] at hmem
      rcases hmem with h1 | h1 | h1 <;> rw [h1] <;> rfl
  · intro c hc
    cases hl : sigs ++ tail with
    | nil => rw [hl] at hc; cases hc
    | cons d ds =>
      rw [hl] at hc hch
      simp only [List.head?_cons, Option.some.injEq] at hc
      subst hc
      exact hch.1
  · intro hmono hset
    rcases hr v s1 hret with ⟨-, h1⟩ | ⟨-, h1, -⟩
    · exact h1
    · rw [h1]
      exact ApChain_set _ 0 a hch hmono (Or.inr hset)
  · intro hsame hne
    rcases hr v s1 hret with ⟨h1, -⟩ | ⟨-, h1, -⟩
    · rw [h1] at hne
      cases hne
    · rw [h1]
      exact ApChain_const _ 0 a hch hsame

/-- Witness of C9 on Linux: with signal 7 pending and finalisers that call
`caml_set_action_pending`, the drain returns `Val_unit` with `action_pending == 1`; with
actions that leave the flag alone it returns with `action_pending == 0`. -/
theorem caml_do_pending_actions_exn_action_pending_witness :
    (caml_do_pending_actions_exn linux_amd64 retrigger_env signal_7_pending).state.w.action_pending
      = 1 ∧
    (caml_do_pending_actions_exn linux_amd64 counting_env signal_7_pending).state.w.action_pending
      = 0 ∧
    ∃ (gc : Call Nat) (actions : List (Call Nat)),
      (caml_do_pending_actions_exn linux_amd64 retrigger_env signal_7_pending).state.trace
        = signal_7_pending.trace ++ gc :: actions ∧
      gc.ev = Event.handle_gc_interrupt ∧
      (∀ c ∈ actions, c.ev.delayable = true) ∧
      (∀ c, actions.head? = some c → c.pre.action_pending = 0) ∧
      ((∀ c ∈ actions, c.post.action_pending = c.pre.action_pending ∨
          c.post.action_pending = 1) →
        (∃ c ∈ actions, c.post.action_pending = 1) →
        (caml_do_pending_actions_exn linux_amd64 retrigger_env
          signal_7_pending).state.w.action_pending = 1) ∧
      ((∀ c ∈ actions, c.post.action_pending = c.pre.action_pending) →
        linux_amd64.Is_exception_result 1 = false →
        (caml_do_pending_actions_exn linux_amd64 retrigger_env
          signal_7_pending).state.w.action_pending = 0) :=
  ⟨by decide, by decide,
    caml_do_pending_actions_exn_action_pending linux_amd64 retrigger_env signal_7_pending 1
      (caml_do_pending_actions_exn linux_amd64 retrigger_env signal_7_pending).state rfl⟩

/-- C10: whenever `caml_do_pending_actions_exn` returns an exception result,
`action_pending` is 1 in the state it returns. -/
theorem caml_do_pending_actions_exn_rearm {σ : Type} (p : Platform) (env : Env σ)
    (hp : p.wf) (s : St σ) (v : value) (s1 : St σ)
    (hret : caml_do_pending_actions_exn p env s = Outcome.returned v s1)
    (hexn : p.Is_exception_result v = true) : s1.w.action_pending = 1 := by
  obtain ⟨gc, sigs, tail, a, -, -, -, -, -, hr⟩ := do_pending_actions_structure p env s
  rcases hr v s1 hret with ⟨-, h1⟩ | ⟨h1, -, -⟩
  · exact h1
  · rw [h1, hp.2.2] at hexn
    cases hexn

/-- Witness of C10 on Linux: the handler of the pending signal 7 raises `Sys.Break`; the
drain returns that exception result and `action_pending` is 1, memprof callbacks and
finalisers not having been run. -/
theorem caml_do_pending_actions_exn_rearm_witness :
    linux_amd64.wf ∧
    linux_amd64.Is_exception_result 1002 = true ∧
    (caml_do_pending_actions_exn linux_amd64 breaking_env signal_7_pending).state.trace.map
        Call.ev
      = [Event.handle_gc_interrupt, Event.callback_exn 7 128 (-43)] ∧
    (caml_do_pending_actions_exn linux_amd64 breaking_env
      signal_7_pending).state.w.action_pending = 1 :=
  ⟨by decide, by decide, by decide,
    caml_do_pending_actions_exn_rearm linux_amd64 breaking_env (by decide) signal_7_pending
      1002 (caml_do_pending_actions_exn linux_amd64 breaking_env signal_7_pending).state rfl
      (by decide)⟩

/-! ## `caml_check_pending_signals` in the POSIX build -/

/-- C20: in a build with `POSIX_SIGNALS`, for every pending-signal array and every signal
mask, `caml_check_pending_signals()` returns true if and only if some bit of the array is set
whose signal is not a member of the mask of the calling thread; so it returns false when every
set bit belongs to a masked signal, and false when no word is non-zero. -/
theorem caml_check_pending_signals_posix {σ : Type} (p : Platform) (w : World σ)
    (hposix : p.POSIX_SIGNALS = true) :
    (caml_check_pending_signals p w = true ↔
      ∃ i j, i < p.NSIG_WORDS ∧ j < p.BITS_PER_WORD ∧
        pending_bit w.caml_pending_signals i j = true ∧
        sigismember w.sigmask (signo_of p i j) = false) ∧
    ((∀ i j, i < p.NSIG_WORDS → j < p.BITS_PER_WORD →
        pending_bit w.caml_pending_signals i j = true →
        sigismember w.sigmask (signo_of p i j) = true) →
      caml_check_pending_signals p w = false) ∧
    ((∀ i, i < p.NSIG_WORDS → atomic_load w.caml_pending_signals i = 0) →
      caml_check_pending_signals p w = false) := by
  have hiff : caml_check_pending_signals p w = true ↔
      ∃ i j, i < p.NSIG_WORDS ∧ j < p.BITS_PER_WORD ∧
        pending_bit w.caml_pending_signals i j = true ∧
        sigismember w.sigmask (signo_of p i j) = false := by
    simp only [caml_check_pending_signals, check_pending_unblocked_signals, hposix, if_true]
    split
    · rw [check_pending_unblocked_words_iff]
      simp only [List.mem_range, pending_bit, sigismember]
      constructor
      · rintro ⟨i, hi, j, hj, h1, h2⟩
        exact ⟨i, j, hi, hj, h1, h2⟩
      · rintro ⟨i, j, hi, hj, h1, h2⟩
        exact ⟨i, hi, j, hj, h1, h2⟩
    · rename_i hf
      have hf0 := hf
      rw [foldl_pending_iff] at hf
      simp only [Bool.false_eq_true, false_or, List.mem_range, not_exists, not_and] at hf
      constructor
      · intro h
        exact absurd h hf0
      · rintro ⟨i, j, hi, -, hb, -⟩
        exfalso
        apply hf i hi
        intro h0
        rw [pending_bit, h0, Nat.zero_testBit] at hb
        cases hb
  refine ⟨hiff, ?_, ?_⟩
  · intro hall
    by_contra hc
    rw [Bool.not_eq_false, hiff] at hc
    obtain ⟨i, j, hi, hj, hb, hm⟩ := hc
    rw [hall i j hi hj hb] at hm
    cases hm
  · intro hzero
    by_contra hc
    rw [Bool.not_eq_false, hiff] at hc
    obtain ⟨i, j, hi, -, hb, -⟩ := hc
    rw [pending_bit, hzero i hi, Nat.zero_testBit] at hb
    cases hb

/-- Witness of C20 on Linux: with signals 7 and 2 recorded and signal 7 blocked the check is
true; with only signal 7 recorded it is false. -/
theorem caml_check_pending_signals_posix_witness :
    linux_amd64.POSIX_SIGNALS = true ∧
    caml_check_pending_signals linux_amd64
      (record_signals linux_amd64 counting_env [7, 2] (start_state fun n => n == 7)).w = true ∧
    caml_check_pending_signals linux_amd64
      (record_signals linux_amd64 counting_env [7] (start_state fun n => n == 7)).w = false ∧
    (caml_check_pending_signals linux_amd64
        (record_signals linux_amd64 counting_env [7] (start_state fun n => n == 7)).w = true ↔
      ∃ i j, i < linux_amd64.NSIG_WORDS ∧ j < linux_amd64.BITS_PER_WORD ∧
        pending_bit (record_signals linux_amd64 counting_env [7]
          (start_state fun n => n == 7)).w.caml_pending_signals i j = true ∧
        sigismember (record_signals linux_amd64 counting_env [7]
          (start_state fun n => n == 7)).w.sigmask (signo_of linux_amd64 i j) = false) :=
  ⟨rfl, by decide, by decide,
    (caml_check_pending_signals_posix linux_amd64
      (record_signals linux_amd64 counting_env [7] (start_state fun n => n == 7)).w rfl).1⟩

/-! ## Exceptions in the drain -/

/-- `check_async_exn` returns normally, in the state it was called in, exactly when the result
is not an exception result or its exception is the one registered as `"Sys.Break"`; otherwise
the process dies with the message it was given. -/
theorem check_async_exn_eq {σ : Type} (p : Platform) (env : Env σ) (res : value)
    (msg : String) (s : St σ) :
    check_async_exn p env res msg s =
      if p.Is_exception_result res = false ∨ is_sys_break env (p.Extract_exception res) then
        Outcome.returned () s
      else Outcome.fatal_uncaught_exception (p.Extract_exception res) msg s := by
  unfold check_async_exn
  by_cases h1 : p.Is_exception_result res = true
  · cases hb : env.caml_named_value "Sys.Break" with
    | none => simp [h1, is_sys_break, hb]
    | some b =>
      by_cases he : p.Extract_exception res = b
      · simp [h1, is_sys_break, hb, he]
      · have he' : ¬ b = p.Extract_exception res := fun e => he e.symm
        simp [h1, is_sys_break, hb, he, he']
  · simp [h1]

theorem check_async_exn_raised {σ : Type} (p : Platform) (env : Env σ) (exn : value)
    (msg : String) (s : St σ) (hexn : p.Is_exception_result exn = true) :
    check_async_exn p env exn msg s =
      if is_sys_break env (p.Extract_exception exn) then Outcome.returned () s
      else Outcome.fatal_uncaught_exception (p.Extract_exception exn) msg s := by
  rw [check_async_exn_eq]
  simp [hexn]

theorem check_async_exn_not_raised {σ : Type} (p : Platform) (env : Env σ) (res : value)
    (msg : String) (s : St σ) (hres : p.Is_exception_result res = false) :
    check_async_exn p env res msg s = Outcome.returned () s := by
  rw [check_async_exn_eq]
  simp [hres]

theorem do_pending_actions_final_raises {σ : Type} (p : Platform) (env : Env σ) (s : St σ)
    (hexn : p.Is_exception_result (final_step env s).2 = true) :
    do_pending_actions_final p env s =
      if is_sys_break env (p.Extract_exception (final_step env s).2) then
        Outcome.returned (final_step env s).2 (rearmed (final_step env s).1)
      else Outcome.fatal_uncaught_exception (p.Extract_exception (final_step env s).2)
        "finaliser" (final_step env s).1 := by
  simp only [final_step] at hexn ⊢
  simp only [do_pending_actions_final, check_async_exn_raised p env _ _ _ hexn]
  by_cases hb : is_sys_break env (p.Extract_exception (env.caml_final_do_calls_exn s.w).2)
  · simp only [hb, if_true, hexn, do_pending_actions_exception, rearmed]
  · simp only [hb, if_false]

theorem do_pending_actions_memprof_raises {σ : Type} (p : Platform) (env : Env σ) (s : St σ)
    (hexn : p.Is_exception_result (memprof_step env s).2 = true) :
    do_pending_actions_memprof p env s =
      if is_sys_break env (p.Extract_exception (memprof_step env s).2) then
        Outcome.returned (memprof_step env s).2 (rearmed (memprof_step env s).1)
      else Outcome.fatal_uncaught_exception (p.Extract_exception (memprof_step env s).2)
        "memprof callback" (memprof_step env s).1 := by
  simp only [memprof_step] at hexn ⊢
  simp only [do_pending_actions_memprof, check_async_exn_raised p env _ _ _ hexn]
  by_cases hb : is_sys_break env (p.Extract_exception (env.caml_memprof_run_callbacks_exn s.w).2)
  · simp only [hb, if_true, hexn, do_pending_actions_exception, rearmed]
  · simp only [hb, if_false]

theorem do_pending_actions_memprof_continues {σ : Type} (p : Platform) (env : Env σ)
    (s : St σ) (hres : p.Is_exception_result (memprof_step env s).2 = false) :
    do_pending_actions_memprof p env s = do_pending_actions_final p env (memprof_step env s).1 := by
  simp only [memprof_step] at hres ⊢
  simp only [do_pending_actions_memprof, check_async_exn_not_raised p env _ _ _ hres, hres]
  simp

theorem do_pending_actions_signals_raises {σ : Type} (p : Platform) (env : Env σ) (s : St σ)
    (hexn : p.Is_exception_result (signals_step p env s).2 = true) :
    caml_do_pending_actions_exn p env s =
      if is_sys_break env (p.Extract_exception (signals_step p env s).2) then
        Outcome.returned (signals_step p env s).2 (rearmed (signals_step p env s).1)
      else Outcome.fatal_uncaught_exception (p.Extract_exception (signals_step p env s).2)
        "signal handler" (signals_step p env s).1 := by
  simp only [signals_step] at hexn ⊢
  simp only [caml_do_pending_actions_exn, check_async_exn_raised p env _ _ _ hexn]
  by_cases hb : is_sys_break env (p.Extract_exception (caml_process_pending_signals_exn p env (do_pending_actions_begin env s)).2)
  · simp only [hb, if_true, hexn, do_pending_actions_exception, rearmed]
  · simp only [hb, if_false]

theorem do_pending_actions_signals_continues {σ : Type} (p : Platform) (env : Env σ)
    (s : St σ) (hres : p.Is_exception_result (signals_step p env s).2 = false) :
    caml_do_pending_actions_exn p env s
      = do_pending_actions_memprof p env (signals_step p env s).1 := by
  simp only [signals_step] at hres ⊢
  simp only [caml_do_pending_actions_exn, check_async_exn_not_raised p env _ _ _ hres, hres]
  simp

/-- What `caml_do_pending_actions_exn` does with an exception result yielded by one of its
three steps: `Sys.Break` is returned as the result, `action_pending` being set first; any
other exception ends the process in `caml_fatal_uncaught_exception_with_message`, with the
message of the step. -/
theorem do_pending_actions_of_raises {σ : Type} (p : Platform) (env : Env σ) (s : St σ)
    (exn : value) (st : St σ) (msg : String) (h : drain_raises p env s exn st msg) :
    caml_do_pending_actions_exn p env s =
      if is_sys_break env (p.Extract_exception exn) then Outcome.returned exn (rearmed st)
      else Outcome.fatal_uncaught_exception (p.Extract_exception exn) msg st := by
  obtain ⟨hexn, h | h | h⟩ := h
  · obtain ⟨h1, rfl⟩ := h
    have := do_pending_actions_signals_raises p env s (by rw [h1]; exact hexn)
    rw [h1] at this
    exact this
  · obtain ⟨h0, h1, rfl⟩ := h
    rw [do_pending_actions_signals_continues p env s h0]
    have := do_pending_actions_memprof_raises p env (signals_step p env s).1
      (by rw [h1]; exact hexn)
    rw [h1] at this
    exact this
  · obtain ⟨h0, h1, h2, rfl⟩ := h
    rw [do_pending_actions_signals_continues p env s h0,
      do_pending_actions_memprof_continues p env _ h1]
    have := do_pending_actions_final_raises p env (memprof_step env (signals_step p env s).1).1
      (by rw [h2]; exact hexn)
    rw [h2] at this
    exact this

/-- C11 as stated fails: the handler of the pending signal 7 raises an exception that is not
`Sys.Break` (exception result `2002`, exception `2000`); `caml_do_pending_actions_exn` does
not return it, the process dies in `caml_fatal_uncaught_exception_with_message`. -/
theorem caml_do_pending_actions_exn_propagates_counterexample :
    (signals_step linux_amd64 failing_env signal_7_pending).2 = 2002 ∧
    linux_amd64.Is_exception_result 2002 = true ∧
    ¬ is_sys_break failing_env (linux_amd64.Extract_exception 2002) ∧
    (caml_do_pending_actions_exn linux_amd64 failing_env signal_7_pending).value? = none ∧
    (caml_do_pending_actions_exn linux_amd64 failing_env signal_7_pending).fatal?
      = some (2000, "signal handler") := by
  refine ⟨by decide, by decide, by decide, by decide, by decide⟩

/-- C11, amended: for every exception result yielded by the signal handlers, the memprof
callbacks or the finalisers inside the drain, if the exception is `Sys.Break` then
`caml_do_pending_actions_exn` stops draining, sets `action_pending` and returns that
exception result, and `caml_process_pending_actions_exn` returns it to its caller; if it is
not `Sys.Break`, neither function returns. -/
theorem caml_do_pending_actions_exn_propagates {σ : Type} (p : Platform) (env : Env σ)
    (s : St σ) (exn : value) (st : St σ) (msg : String)
    (h : drain_raises p env s exn st msg) :
    (is_sys_break env (p.Extract_exception exn) →
      caml_do_pending_actions_exn p env s = Outcome.returned exn (rearmed st) ∧
      (rearmed st).trace = st.trace ∧
      (rearmed st).w.action_pending = 1 ∧
      (caml_check_pending_actions env s.w = true →
        caml_process_pending_actions_exn p env s = Outcome.returned exn (rearmed st))) ∧
    (¬ is_sys_break env (p.Extract_exception exn) →
      (caml_do_pending_actions_exn p env s).value? = none ∧
      (caml_check_pending_actions env s.w = true →
        (caml_process_pending_actions_exn p env s).value? = none)) := by
  have hrun := do_pending_actions_of_raises p env s exn st msg h
  constructor
  · intro hb
    rw [if_pos hb] at hrun
    refine ⟨hrun, rfl, rfl, ?_⟩
    intro hc
    simp only [caml_process_pending_actions_exn, caml_process_pending_actions_with_root_exn, hc,
      if_true, hrun, Outcome.bind, h.1]
  · intro hb
    rw [if_neg hb] at hrun
    refine ⟨by rw [hrun]; rfl, ?_⟩
    intro hc
    simp only [caml_process_pending_actions_exn, caml_process_pending_actions_with_root_exn, hc,
      if_true, hrun, Outcome.bind, Outcome.value?]

/-- Witness of the amended C11 on Linux: the handler of the pending signal 7 raises
`Sys.Break`; the drain returns that exception result with `action_pending` set, without
calling memprof callbacks or finalisers. -/
theorem caml_do_pending_actions_exn_propagates_witness :
    drain_raises linux_amd64 breaking_env signal_7_pending 1002
      (signals_step linux_amd64 breaking_env signal_7_pending).1 "signal handler" ∧
    is_sys_break breaking_env (linux_amd64.Extract_exception 1002) ∧
    (caml_do_pending_actions_exn linux_amd64 breaking_env signal_7_pending).value?
      = some 1002 ∧
    (caml_do_pending_actions_exn linux_amd64 breaking_env signal_7_pending).state.trace.map
      Call.ev = [Event.handle_gc_interrupt, Event.callback_exn 7 128 (-43)] ∧
    caml_do_pending_actions_exn linux_amd64 breaking_env signal_7_pending
      = Outcome.returned 1002
          (rearmed (signals_step linux_amd64 breaking_env signal_7_pending).1) :=
  ⟨⟨by decide, Or.inl ⟨rfl, rfl⟩⟩, by decide, by decide, by decide,
    ((caml_do_pending_actions_exn_propagates linux_amd64 breaking_env signal_7_pending 1002
      (signals_step linux_amd64 breaking_env signal_7_pending).1 "signal handler"
      ⟨by decide, Or.inl ⟨rfl, rfl⟩⟩).1 (by decide)).1⟩

/-- C12 as stated fails: when the handler of the pending signal 7 raises `Sys.Break`
(exception `1000`), `caml_do_pending_actions_exn` returns the exception result `1002` to its
caller and `caml_process_pending_actions` raises the exception into its caller with
`caml_raise_async`: the sentinel is not discarded. -/
theorem sys_break_is_propagated_counterexample :
    is_sys_break breaking_env 1000 ∧
    linux_amd64.Is_exception_result 1002 = true ∧
    linux_amd64.Extract_exception 1002 = 1000 ∧
    (caml_do_pending_actions_exn linux_amd64 breaking_env signal_7_pending).value?
      = some 1002 ∧
    (caml_process_pending_actions linux_amd64 breaking_env signal_7_pending).value? = none ∧
    (caml_process_pending_actions linux_amd64 breaking_env signal_7_pending).async?
      = some 1000 := by
  refine ⟨by decide, by decide, by decide, by decide, by decide, by decide⟩

/-- C12, amended: when a signal handler, the memprof callbacks or the finalisers run by the
drain yield `Sys.Break`, the process is not terminated, and the exception is not discarded
either: `caml_do_pending_actions_exn` returns it as an exception result, `action_pending`
being set, and `caml_process_pending_actions` raises it into its caller with
`caml_raise_async`. -/
theorem sys_break_is_propagated {σ : Type} (p : Platform) (env : Env σ) (s : St σ)
    (exn : value) (st : St σ) (msg : String) (h : drain_raises p env s exn st msg)
    (hb : is_sys_break env (p.Extract_exception exn)) :
    caml_do_pending_actions_exn p env s = Outcome.returned exn (rearmed st) ∧
    (rearmed st).w.action_pending = 1 ∧
    (caml_check_pending_actions env s.w = true →
      caml_process_pending_actions p env s
        = Outcome.raise_async (p.Extract_exception exn) (rearmed st)) := by
  have hrun := do_pending_actions_of_raises p env s exn st msg h
  rw [if_pos hb] at hrun
  refine ⟨hrun, rfl, ?_⟩
  intro hc
  simp only [caml_process_pending_actions, caml_process_pending_actions_with_root,
    caml_process_pending_actions_with_root_exn, hc, if_true, hrun, Outcome.bind, h.1,
    caml_raise_async_if_exception, check_async_exn_raised p env _ _ _ h.1, hb]

/-- Witness of the amended C12 on Linux: `Sys.Break` raised by the handler of signal 7 leaves
`caml_process_pending_actions` through `caml_raise_async`. -/
theorem sys_break_is_propagated_witness :
    drain_raises linux_amd64 breaking_env signal_7_pending 1002
      (signals_step linux_amd64 breaking_env signal_7_pending).1 "signal handler" ∧
    is_sys_break breaking_env (linux_amd64.Extract_exception 1002) ∧
    caml_check_pending_actions breaking_env signal_7_pending.w = true ∧
    caml_process_pending_actions linux_amd64 breaking_env signal_7_pending
      = Outcome.raise_async (linux_amd64.Extract_exception 1002)
          (rearmed (signals_step linux_amd64 breaking_env signal_7_pending).1) :=
  ⟨⟨by decide, Or.inl ⟨rfl, rfl⟩⟩, by decide, by decide,
    (sys_break_is_propagated linux_amd64 breaking_env signal_7_pending 1002
      (signals_step linux_amd64 breaking_env signal_7_pending).1 "signal handler"
      ⟨by decide, Or.inl ⟨rfl, rfl⟩⟩ (by decide)).2.2 (by decide)⟩

/-- C13: an exception result that is not `Sys.Break`, yielded by the signal handlers, the
memprof callbacks or the finalisers in `caml_do_pending_actions_exn`, ends the drain in
`caml_fatal_uncaught_exception_with_message` with that exception and the message of the step
that yielded it, `"signal handler"`, `"memprof callback"` or `"finaliser"`; and
`check_async_exn` returns exactly when the result is not an exception result or its exception
is `Sys.Break`. -/
theorem caml_do_pending_actions_exn_fatal {σ : Type} (p : Platform) (env : Env σ)
    (s : St σ) (exn : value) (st : St σ) (msg : String)
    (h : drain_raises p env s exn st msg)
    (hnb : ¬ is_sys_break env (p.Extract_exception exn)) :
    caml_do_pending_actions_exn p env s
      = Outcome.fatal_uncaught_exception (p.Extract_exception exn) msg st ∧
    ((signals_step p env s = (st, exn) ∧ msg = "signal handler") ∨
     (memprof_step env (signals_step p env s).1 = (st, exn) ∧ msg = "memprof callback") ∨
     (final_step env (memprof_step env (signals_step p env s).1).1 = (st, exn) ∧
       msg = "finaliser")) ∧
    ∀ (res : value) (m : String) (s1 : St σ),
      (check_async_exn p env res m s1).value? = some () ↔
        (p.Is_exception_result res = false ∨ is_sys_break env (p.Extract_exception res)) := by
  have hrun := do_pending_actions_of_raises p env s exn st msg h
  rw [if_neg hnb] at hrun
  refine ⟨hrun, ?_, ?_⟩
  · obtain ⟨-, h1 | h1 | h1⟩ := h
    · exact Or.inl h1
    · exact Or.inr (Or.inl h1.2)
    · exact Or.inr (Or.inr h1.2.2)
  · intro res m s1
    rw [check_async_exn_eq]
    split
    · rename_i hc
      simp [Outcome.value?, hc]
    · rename_i hc
      simp [Outcome.value?, hc]

/-- Witness of C13 on Linux: the handler of the pending signal 7 raises the exception `2000`,
which is not `Sys.Break`; the process dies with the message `"signal handler"`. -/
theorem caml_do_pending_actions_exn_fatal_witness :
    drain_raises linux_amd64 failing_env signal_7_pending 2002
      (signals_step linux_amd64 failing_env signal_7_pending).1 "signal handler" ∧
    ¬ is_sys_break failing_env (linux_amd64.Extract_exception 2002) ∧
    (caml_do_pending_actions_exn linux_amd64 failing_env signal_7_pending).fatal?
      = some (2000, "signal handler") ∧
    caml_do_pending_actions_exn linux_amd64 failing_env signal_7_pending
      = Outcome.fatal_uncaught_exception (linux_amd64.Extract_exception 2002) "signal handler"
          (signals_step linux_amd64 failing_env signal_7_pending).1 :=
  ⟨⟨by decide, Or.inl ⟨rfl, rfl⟩⟩, by decide, by decide,
    (caml_do_pending_actions_exn_fatal linux_amd64 failing_env signal_7_pending 2002
      (signals_step linux_amd64 failing_env signal_7_pending).1 "signal handler"
      ⟨by decide, Or.inl ⟨rfl, rfl⟩⟩ (by decide)).1⟩

/-! ## Blocking sections and the installation of handlers -/

theorem raise_async_if_exception_eq {σ : Type} (p : Platform) (env : Env σ) (res : value)
    (location : String) (s : St σ) :
    caml_raise_async_if_exception p env res location s =
      if p.Is_exception_result res = false then Outcome.returned res s
      else if is_sys_break env (p.Extract_exception res) then
        Outcome.raise_async (p.Extract_exception res) s
      else Outcome.fatal_uncaught_exception (p.Extract_exception res) location s := by
  unfold caml_raise_async_if_exception
  by_cases h : p.Is_exception_result res = true
  · rw [check_async_exn_raised p env res location s h]
    by_cases hb : is_sys_break env (p.Extract_exception res)
    · simp [h, hb, Outcome.bind]
    · simp [h, hb, Outcome.bind]
  · simp [h]

/-- C17: `caml_leave_blocking_section` calls the leave hook, once and on the state it was
entered in, and returns with `errno` as it was at entry, whatever the hook wrote to it; on
return `action_pending` is 1 if `caml_check_pending_signals()` was true after the hook, and
otherwise has the value the hook left, so that a flag set after the hook is still set on
return; the pending signals and the signal mask are as the hook left them. -/
theorem caml_leave_blocking_section_spec {σ : Type} (p : Platform) (env : Env σ)
    (s : St σ) :
    (caml_leave_blocking_section p env s).trace
      = s.trace ++ [⟨Event.leave_blocking_section_hook, s.w,
          env.caml_leave_blocking_section_hook s.w⟩] ∧
    (caml_leave_blocking_section p env s).w.errno = s.w.errno ∧
    (caml_leave_blocking_section p env s).w.action_pending
      = (if caml_check_pending_signals p (env.caml_leave_blocking_section_hook s.w) then 1
         else (env.caml_leave_blocking_section_hook s.w).action_pending) ∧
    ((env.caml_leave_blocking_section_hook s.w).action_pending ≠ 0 →
      (caml_leave_blocking_section p env s).w.action_pending ≠ 0) ∧
    (caml_leave_blocking_section p env s).w.caml_pending_signals
      = (env.caml_leave_blocking_section_hook s.w).caml_pending_signals ∧
    (caml_leave_blocking_section p env s).w.sigmask
      = (env.caml_leave_blocking_section_hook s.w).sigmask := by
  unfold caml_leave_blocking_section
  by_cases hc : caml_check_pending_signals p (env.caml_leave_blocking_section_hook s.w) = true
  · simp [hc, caml_set_action_pending]
  · simp [hc]

/-- Witness of C17 on Linux: the leave hook sets `errno` to 4 and unblocks signal 2, which is
pending; `caml_leave_blocking_section` returns with `errno` 11 as at entry and with
`action_pending` set. -/
theorem caml_leave_blocking_section_spec_witness :
    signal_2_blocked.w.errno = 11 ∧
    (unblocking_env.caml_leave_blocking_section_hook signal_2_blocked.w).errno = 4 ∧
    signal_2_blocked.w.action_pending = 0 ∧
    (caml_leave_blocking_section linux_amd64 unblocking_env signal_2_blocked).w.errno = 11 ∧
    (caml_leave_blocking_section linux_amd64 unblocking_env signal_2_blocked).w.action_pending
      = 1 ∧
    (caml_leave_blocking_section linux_amd64 unblocking_env signal_2_blocked).trace.map Call.ev
      = [Event.leave_blocking_section_hook] ∧
    (caml_leave_blocking_section linux_amd64 unblocking_env signal_2_blocked).w.errno
      = signal_2_blocked.w.errno :=
  ⟨by decide, by decide, by decide, by decide, by decide, by decide,
    (caml_leave_blocking_section_spec linux_amd64 unblocking_env signal_2_blocked).2.1⟩

/-- C18: when the converted signal number `sig` is at most 0 or at least `NSIG`,
`caml_install_signal_handler` raises `Invalid_argument "Sys.signal: unavailable signal"` in
the state it was called in: the signal dispositions, the handler table and the pending signals
are unchanged and nothing was called; when `1 ≤ sig < NSIG` it does not raise
`Invalid_argument`. -/
theorem caml_install_signal_handler_range {σ : Type} (p : Platform) (env : Env σ)
    (n : Int) (action : signal_behavior) (s : St σ) :
    ((caml_convert_signal_number p n ≤ 0 ∨ caml_convert_signal_number p n ≥ p.NSIG) →
      caml_install_signal_handler p env n action s
        = Outcome.raise_exception
            (Exception.Invalid_argument "Sys.signal: unavailable signal") s) ∧
    ((1 ≤ caml_convert_signal_number p n ∧ caml_convert_signal_number p n < p.NSIG) →
      ∀ msg, (caml_install_signal_handler p env n action s).exception?
        ≠ some (Exception.Invalid_argument msg)) := by
  constructor
  · intro h
    simp only [caml_install_signal_handler, h, if_true]
  · intro h msg
    have hn : ¬ (caml_convert_signal_number p n ≤ 0 ∨ caml_convert_signal_number p n ≥ p.NSIG) := by
      omega
    simp only [caml_install_signal_handler, hn, if_false]
    split
    · simp [Outcome.exception?]
    · rw [raise_async_if_exception_eq]
      split
      · simp [Outcome.bind, Outcome.exception?]
      · split
        · simp [Outcome.bind, Outcome.exception?]
        · simp [Outcome.bind, Outcome.exception?]

/-- Witness of C18 on Linux: the OCaml signal number 0 and the number 65 are refused with
`Invalid_argument`, the state being unchanged; `-6` (`SIGINT`, converted to 2) is accepted. -/
theorem caml_install_signal_handler_range_witness :
    caml_convert_signal_number linux_amd64 0 = 0 ∧
    caml_convert_signal_number linux_amd64 (-6) = 2 ∧
    caml_install_signal_handler linux_amd64 counting_env 0
        (signal_behavior.Signal_handle 500) (start_state fun _ => false)
      = Outcome.raise_exception (Exception.Invalid_argument "Sys.signal: unavailable signal")
          (start_state fun _ => false) ∧
    (∀ msg, (caml_install_signal_handler linux_amd64 counting_env (-6)
        (signal_behavior.Signal_handle 500) (start_state fun _ => false)).exception?
      ≠ some (Exception.Invalid_argument msg)) :=
  ⟨by decide, by decide,
    (caml_install_signal_handler_range linux_amd64 counting_env 0
      (signal_behavior.Signal_handle 500) (start_state fun _ => false)).1 (by decide),
    (caml_install_signal_handler_range linux_amd64 counting_env (-6)
      (signal_behavior.Signal_handle 500) (start_state fun _ => false)).2 (by decide)⟩

theorem enter_blocking_section_loop_exit {σ : Type} (p : Platform) (env : Env σ) :
    ∀ (fuel : Nat) (s s0 : St σ),
      enter_blocking_section_loop p env fuel s = some (Outcome.returned () s0) →
      enter_blocking_section_condition p env s0.w = false ∧
      ∃ calls, s0.trace = s.trace ++ calls := by
  intro fuel
  induction fuel with
  | zero =>
    intro s s0 h
    simp only [enter_blocking_section_loop] at h
    by_cases hc : enter_blocking_section_condition p env s.w = true
    · simp [hc] at h
    · simp [hc] at h
      subst h
      exact ⟨by simpa using hc, [], by simp⟩
  | succ fuel ih =>
    intro s s0 h
    simp only [enter_blocking_section_loop] at h
    by_cases hc : enter_blocking_section_condition p env s.w = true
    · simp only [hc, if_true, enter_blocking_section_body] at h
      rw [raise_async_if_exception_eq] at h
      obtain ⟨sigs, htr, -, -⟩ :=
        process_pending_signals_trace p env (handle_gc_interrupt_call env s)
      generalize caml_process_pending_signals_exn p env (handle_gc_interrupt_call env s) = r
        at h htr
      by_cases h1 : p.Is_exception_result r.2 = false
      · simp only [h1, if_true] at h
        obtain ⟨hcond, calls, hcalls⟩ := ih r.1 s0 h
        refine ⟨hcond,
          ⟨Event.handle_gc_interrupt, s.w, env.caml_handle_gc_interrupt s.w⟩ ::
            (sigs ++ calls), ?_⟩
        rw [hcalls, htr]
        simp [handle_gc_interrupt_call]
      · by_cases hb : is_sys_break env (p.Extract_exception r.2)
        · simp [h1, hb] at h
        · simp [h1, hb] at h
    · simp [hc] at h
      subst h
      exact ⟨by simpa using hc, [], by simp⟩

/-- C16 as stated fails: signal 7 is pending and not blocked, `action_pending` is 0 and no GC
interrupt is requested (another thread, which blocks the signal, has drained);
`caml_enter_blocking_section` returns after calling the enter hook at once, in a state in
which `caml_check_pending_signals()` is true, and no handler was run. -/
theorem caml_enter_blocking_section_drained_counterexample :
    signal_7_unnoticed.w.in_minor_collection = 0 ∧
    (∀ fuel, caml_enter_blocking_section linux_amd64 counting_env fuel signal_7_unnoticed
      = some (Outcome.returned ()
          (caml_enter_blocking_section_no_pending counting_env signal_7_unnoticed))) ∧
    (caml_enter_blocking_section_no_pending counting_env signal_7_unnoticed).trace
      = [⟨Event.enter_blocking_section_hook, signal_7_unnoticed.w, signal_7_unnoticed.w⟩] ∧
    caml_check_pending_signals linux_amd64 signal_7_unnoticed.w = true := by
  refine ⟨by decide, ?_, rfl, by decide⟩
  intro fuel
  cases fuel <;> rfl

/-- C16, amended: whenever `caml_enter_blocking_section` returns, the enter hook is the last
call it made, and in the state in which the hook is entered no GC interrupt is requested and
either `action_pending` is 0 or `caml_check_pending_signals()` is false: a pending signal that
is not blocked may remain when `action_pending` is not set. -/
theorem caml_enter_blocking_section_drained {σ : Type} (p : Platform) (env : Env σ)
    (fuel : Nat) (s s1 : St σ)
    (h : caml_enter_blocking_section p env fuel s = some (Outcome.returned () s1)) :
    s.w.in_minor_collection = 0 ∧
    ∃ (s0 : St σ) (calls : List (Call σ)),
      s0.trace = s.trace ++ calls ∧
      s1.trace = s0.trace ++ [⟨Event.enter_blocking_section_hook, s0.w, s1.w⟩] ∧
      s1.w = env.caml_enter_blocking_section_hook s0.w ∧
      env.Caml_check_gc_interrupt s0.w = false ∧
      (s0.w.action_pending = 0 ∨ caml_check_pending_signals p s0.w = false) := by
  unfold caml_enter_blocking_section at h
  by_cases hm : s.w.in_minor_collection = 0
  · simp only [hm, ne_eq, not_true_eq_false, if_false] at h
    cases hl : enter_blocking_section_loop p env fuel s with
    | none => rw [hl] at h; cases h
    | some o =>
      rw [hl] at h
      cases o with
      | returned u s0 =>
        simp only [Option.map_some', Outcome.bind, Option.some.injEq,
          Outcome.returned.injEq, true_and] at h
        obtain ⟨hcond, calls, hcalls⟩ := enter_blocking_section_loop_exit p env fuel s s0 hl
        refine ⟨hm, s0, calls, hcalls, ?_, ?_, ?_, ?_⟩
        · rw [← h]; rfl
        · rw [← h]; rfl
        · simp only [enter_blocking_section_condition, Bool.or_eq_false_iff] at hcond
          exact hcond.1
        · simp only [enter_blocking_section_condition, Bool.or_eq_false_iff,
            Bool.and_eq_false_iff, decide_eq_false_iff_not, ne_eq, not_not] at hcond
          exact hcond.2
      | fatal_uncaught_exception e m s0 => simp [Outcome.bind] at h
      | raise_async e s0 => simp [Outcome.bind] at h
      | fatal_error m s0 => simp [Outcome.bind] at h
      | raise_exception e s0 => simp [Outcome.bind] at h
  · simp [hm] at h

/-- Witness of the amended C16 on Linux: signal 7 is pending with `action_pending` set; one
iteration of the loop runs its handler, then the enter hook is called with no pending
signal. -/
theorem caml_enter_blocking_section_drained_witness :
    (caml_enter_blocking_section linux_amd64 counting_env 1 signal_7_pending).map
        (fun o => o.state.trace.map Call.ev)
      = some [Event.handle_gc_interrupt, Event.callback_exn 7 128 (-43),
          Event.enter_blocking_section_hook] ∧
    signal_7_pending.w.in_minor_collection = 0 ∧
    ∃ (s0 : St Nat) (calls : List (Call Nat)),
      s0.trace = signal_7_pending.trace ++ calls ∧
      ((caml_enter_blocking_section linux_amd64 counting_env 1 signal_7_pending).get
          (by decide)).state.trace
        = s0.trace ++ [⟨Event.enter_blocking_section_hook, s0.w,
            ((caml_enter_blocking_section linux_amd64 counting_env 1 signal_7_pending).get
              (by decide)).state.w⟩] ∧
      ((caml_enter_blocking_section linux_amd64 counting_env 1 signal_7_pending).get
          (by decide)).state.w = counting_env.caml_enter_blocking_section_hook s0.w ∧
      counting_env.Caml_check_gc_interrupt s0.w = false ∧
      (s0.w.action_pending = 0 ∨ caml_check_pending_signals linux_amd64 s0.w = false) :=
  ⟨by decide,
    caml_enter_blocking_section_drained linux_amd64 counting_env 1 signal_7_pending
      ((caml_enter_blocking_section linux_amd64 counting_env 1 signal_7_pending).get
        (by decide)).state rfl⟩

/-! ## Idempotence of the explicit drain -/

/-- When the drain returns a result that is not an exception and none of the delayable actions
it ran changed `action_pending`, the flag is 0 on return. -/
theorem do_pending_actions_quiet {σ : Type} (p : Platform) (env : Env σ) (s : St σ)
    (v : value) (s1 : St σ)
    (hret : caml_do_pending_actions_exn p env s = Outcome.returned v s1)
    (hv : p.Is_exception_result v = false)
    (hsame : ∀ c ∈ s1.trace.drop s.trace.length, c.ev.delayable = true →
      c.post.action_pending = c.pre.action_pending) :
    s1.w.action_pending = 0 := by
  obtain ⟨gc, sigs, tail, a, htr, -, hcalls, hpre, hch, hr⟩ :=
    do_pending_actions_structure p env s
  rw [hret] at htr
  simp only [Outcome.state] at htr
  rw [htr, drop_length_append] at hsame
  rcases hr v s1 hret with ⟨h1, -⟩ | ⟨-, h1, -⟩
  · rw [h1] at hv
    cases hv
  · rw [h1]
    apply ApChain_const _ 0 a hch
    intro c hc
    apply hsame c (List.mem_cons_of_mem _ hc)
    rcases List.mem_append.1 hc with h | h
    · obtain ⟨n, hev, -⟩ := hcalls c h
      rw [hev]
      rfl
    · have hmem : c.ev ∈ [Event.memprof_run_callbacks_exn, Event.final_do_calls_exn,
          Event.process_external_interrupt] :=
        hpre.subset (List.mem_map_of_mem _ h)
      simp only [List.mem_cons, List.mem_singleton, List.not_mem_nil, or_false] at hmem
      rcases hmem with h1 | h1 | h1 <;> rw [h1] <;> rfl

/-- C14 as stated fails: signal 7 has been recorded. The first call of
`caml_process_pending_actions_exn` runs its handler, which sends signal 2 to the process, and
returns `Val_unit`; nothing happens after that return, and the second call runs the handler of
signal 2, the memprof callbacks and the finalisers. -/
theorem caml_process_pending_actions_exn_idempotent_counterexample :
    (caml_process_pending_actions_exn linux_amd64 rerecord_env signal_7_interrupt).value?
      = some linux_amd64.Val_unit ∧
    linux_amd64.Is_exception_result linux_amd64.Val_unit = false ∧
    (caml_process_pending_actions_exn linux_amd64 rerecord_env signal_7_interrupt).state.trace.map
        Call.ev
      = [Event.handle_gc_interrupt, Event.callback_exn 7 128 (-43),
          Event.memprof_run_callbacks_exn, Event.final_do_calls_exn,
          Event.process_external_interrupt] ∧
    (caml_process_pending_actions_exn linux_amd64 rerecord_env
        (caml_process_pending_actions_exn linux_amd64 rerecord_env
          signal_7_interrupt).state).value? = some linux_amd64.Val_unit ∧
    ((caml_process_pending_actions_exn linux_amd64 rerecord_env
        (caml_process_pending_actions_exn linux_amd64 rerecord_env
          signal_7_interrupt).state).state.trace.drop 5).map Call.ev
      = [Event.handle_gc_interrupt, Event.callback_exn 2 108 (-11),
          Event.memprof_run_callbacks_exn, Event.final_do_calls_exn,
          Event.process_external_interrupt] := by
  refine ⟨by decide, by decide, by decide, by decide, by decide⟩

/-- C14, amended: if `caml_process_pending_actions_exn` returns a result that is not an
exception, none of the signal handlers, memprof callbacks, finalisers and external-interrupt
actions it ran changed `action_pending`, and no GC interrupt is requested when it returns,
then a call of `caml_process_pending_actions_exn` in the state it returned makes no external
call and returns `Val_unit` in that same state; and whenever `caml_check_pending_actions()`
is false, `caml_process_pending_actions_with_root_exn` returns its root argument, the state
and the trace of calls being unchanged. -/
theorem caml_process_pending_actions_exn_idempotent {σ : Type} (p : Platform)
    (env : Env σ) (s : St σ) (v : value) (s1 : St σ)
    (hret : caml_process_pending_actions_exn p env s = Outcome.returned v s1)
    (hv : p.Is_exception_result v = false)
    (hsame : ∀ c ∈ s1.trace.drop s.trace.length, c.ev.delayable = true →
      c.post.action_pending = c.pre.action_pending)
    (hgc : env.Caml_check_gc_interrupt s1.w = false) :
    caml_process_pending_actions_exn p env s1 = Outcome.returned p.Val_unit s1 ∧
    ∀ (root : value) (s2 : St σ), caml_check_pending_actions env s2.w = false →
      caml_process_pending_actions_with_root_exn p env root s2 = Outcome.returned root s2 := by
  have hgen : ∀ (root : value) (s2 : St σ), caml_check_pending_actions env s2.w = false →
      caml_process_pending_actions_with_root_exn p env root s2 = Outcome.returned root s2 := by
    intro root s2 h2
    simp [caml_process_pending_actions_with_root_exn, h2]
  refine ⟨?_, hgen⟩
  apply hgen
  simp only [caml_check_pending_actions, check_pending_actions, hgc, Bool.false_or,
    decide_eq_false_iff_not, ne_eq, not_not]
  simp only [caml_process_pending_actions_exn, caml_process_pending_actions_with_root_exn]
    at hret
  by_cases hc : caml_check_pending_actions env s.w = true
  · simp only [hc, if_true] at hret
    cases hd : caml_do_pending_actions_exn p env s with
    | returned exn sd =>
      rw [hd] at hret
      simp only [Outcome.bind] at hret
      by_cases he : p.Is_exception_result exn = true
      · simp only [he, if_true, Outcome.returned.injEq] at hret
        rw [← hret.1, he] at hv
        cases hv
      · simp only [he] at hret
        simp only [Bool.false_eq_true, if_false, Outcome.returned.injEq] at hret
        obtain ⟨-, rfl⟩ := hret
        exact do_pending_actions_quiet p env s exn sd hd (by simpa using he) hsame
    | fatal_uncaught_exception e m sd => rw [hd] at hret; simp [Outcome.bind] at hret
    | raise_async e sd => rw [hd] at hret; simp [Outcome.bind] at hret
    | fatal_error m sd => rw [hd] at hret; simp [Outcome.bind] at hret
    | raise_exception e sd => rw [hd] at hret; simp [Outcome.bind] at hret
  · simp [hc] at hret
    obtain ⟨-, rfl⟩ := hret
    have hc2 : env.Caml_check_gc_interrupt s.w = false ∧ s.w.action_pending = 0 := by
      simpa [caml_check_pending_actions, check_pending_actions] using hc
    exact hc2.2

/-- Witness of the amended C14 on Linux: with signal 7 pending and callbacks that leave
`action_pending` alone, the first call runs the handler and the second call returns `Val_unit`
in the same state. -/
theorem caml_process_pending_actions_exn_idempotent_witness :
    (caml_process_pending_actions_exn linux_amd64 counting_env signal_7_pending).state.trace.map
        Call.ev
      = [Event.handle_gc_interrupt, Event.callback_exn 7 128 (-43),
          Event.memprof_run_callbacks_exn, Event.final_do_calls_exn,
          Event.process_external_interrupt] ∧
    caml_process_pending_actions_exn linux_amd64 counting_env
        (caml_process_pending_actions_exn linux_amd64 counting_env signal_7_pending).state
      = Outcome.returned linux_amd64.Val_unit
          (caml_process_pending_actions_exn linux_amd64 counting_env signal_7_pending).state :=
  ⟨by decide,
    (caml_process_pending_actions_exn_idempotent linux_amd64 counting_env signal_7_pending 1
      (caml_process_pending_actions_exn linux_amd64 counting_env signal_7_pending).state
      rfl (by decide) (by decide) (by decide)).1⟩

/-! ## Drains whose handlers neither raise nor record -/

theorem execute_signal_installed {σ : Type} (p : Platform) (env : Env σ)
    (hact : ∀ handler signum w,
      (env.caml_callback_exn handler signum w).1.sigactions = w.sigactions)
    (htab : ∀ handler signum w,
      (env.caml_callback_exn handler signum w).1.caml_signal_handlers = w.caml_signal_handlers)
    (n : Int) (s : St σ) :
    (caml_execute_signal_exn p env n s).1.w.sigactions = s.w.sigactions ∧
    (caml_execute_signal_exn p env n s).1.w.caml_signal_handlers
      = s.w.caml_signal_handlers := by
  by_cases hpx : p.POSIX_SIGNALS = true
  · simp [caml_execute_signal_exn, hpx, hact, htab]
  · simp [caml_execute_signal_exn, hpx, hact, htab]

theorem process_pending_bits_installed {σ : Type} (p : Platform) (env : Env σ)
    (hact : ∀ handler signum w,
      (env.caml_callback_exn handler signum w).1.sigactions = w.sigactions)
    (htab : ∀ handler signum w,
      (env.caml_callback_exn handler signum w).1.caml_signal_handlers = w.caml_signal_handlers)
    (set : sigset_t) (i : Nat) (js : List Nat) (curr : Nat) (s : St σ) :
    (process_pending_bits p env set i js curr s).1.w.sigactions = s.w.sigactions ∧
    (process_pending_bits p env set i js curr s).1.w.caml_signal_handlers
      = s.w.caml_signal_handlers := by
  induction js generalizing curr s with
  | nil => exact ⟨rfl, rfl⟩
  | cons j js ih =>
    simp only [process_pending_bits]
    split
    · exact ih curr s
    · split
      · exact ih curr s
      · split
        · exact ⟨rfl, rfl⟩
        · exact ih _ s
        · rename_i stored _
          have he := execute_signal_installed p env hact htab (signo_of p i j)
            (cas_store s i stored)
          split
          · exact he
          · split
            · exact he
            · obtain ⟨h1, h2⟩ := ih
                (atomic_load (caml_execute_signal_exn p env (signo_of p i j)
                  (cas_store s i stored)).1.w.caml_pending_signals i)
                (caml_execute_signal_exn p env (signo_of p i j) (cas_store s i stored)).1
              exact ⟨h1.trans he.1, h2.trans he.2⟩

theorem process_pending_words_installed {σ : Type} (p : Platform) (env : Env σ)
    (hact : ∀ handler signum w,
      (env.caml_callback_exn handler signum w).1.sigactions = w.sigactions)
    (htab : ∀ handler signum w,
      (env.caml_callback_exn handler signum w).1.caml_signal_handlers = w.caml_signal_handlers)
    (set : sigset_t) (is : List Nat) (s : St σ) :
    (process_pending_words p env set is s).1.w.sigactions = s.w.sigactions ∧
    (process_pending_words p env set is s).1.w.caml_signal_handlers
      = s.w.caml_signal_handlers := by
  induction is generalizing s with
  | nil => exact ⟨rfl, rfl⟩
  | cons i is ih =>
    simp only [process_pending_words]
    split
    · exact ih s
    · have hb := process_pending_bits_installed p env hact htab set i
        (List.range p.BITS_PER_WORD) (atomic_load s.w.caml_pending_signals i) s
      split
      · rename_i s1 exn heq
        rw [heq] at hb
        exact hb
      · rename_i s1 heq
        rw [heq] at hb
        obtain ⟨h1, h2⟩ := ih s1
        exact ⟨h1.trans hb.1, h2.trans hb.2⟩

/-- When the handlers leave the signal dispositions and the handler table alone, so does
`caml_process_pending_signals_exn`. -/
theorem process_pending_signals_installed {σ : Type} (p : Platform) (env : Env σ)
    (hact : ∀ handler signum w,
      (env.caml_callback_exn handler signum w).1.sigactions = w.sigactions)
    (htab : ∀ handler signum w,
      (env.caml_callback_exn handler signum w).1.caml_signal_handlers = w.caml_signal_handlers)
    (s : St σ) :
    (caml_process_pending_signals_exn p env s).1.w.sigactions = s.w.sigactions ∧
    (caml_process_pending_signals_exn p env s).1.w.caml_signal_handlers
      = s.w.caml_signal_handlers := by
  simp only [caml_process_pending_signals_exn]
  split
  · exact ⟨rfl, rfl⟩
  · exact process_pending_words_installed p env hact htab _ _ s

theorem bind_returned {σ α β : Type} (o : Outcome σ α) (f : α → St σ → Outcome σ β)
    (v : β) (s : St σ) (h : o.bind f = Outcome.returned v s) :
    ∃ a s0, o = Outcome.returned a s0 ∧ f a s0 = Outcome.returned v s := by
  cases o with
  | returned a s0 => exact ⟨a, s0, rfl, h⟩
  | fatal_uncaught_exception e m s0 => simp [Outcome.bind] at h
  | raise_async e s0 => simp [Outcome.bind] at h
  | fatal_error m s0 => simp [Outcome.bind] at h
  | raise_exception e s0 => simp [Outcome.bind] at h

theorem raise_async_if_exception_returned {σ : Type} (p : Platform) (env : Env σ)
    (res : value) (location : String) (s : St σ) (v : value) (s1 : St σ)
    (h : caml_raise_async_if_exception p env res location s = Outcome.returned v s1) :
    v = res ∧ s1 = s ∧ p.Is_exception_result res = false := by
  rw [raise_async_if_exception_eq] at h
  by_cases h1 : p.Is_exception_result res = false
  · simp only [h1, if_true, Outcome.returned.injEq] at h
    exact ⟨h.1.symm, h.2.symm, h1⟩
  · by_cases hb : is_sys_break env (p.Extract_exception res)
    · simp [h1, hb] at h
    · simp [h1, hb] at h

/-- For a valid signal on which `sigaction` fails, `caml_install_signal_handler` raises
`Sys_error`; when it succeeds, the function reaches its trailing drain in the state
`installed`, and its result, if the drain lets it return, is `previous_behavior`. -/
theorem install_signal_handler_eq {σ : Type} (p : Platform) (env : Env σ) (n : Int)
    (action : signal_behavior) (s : St σ)
    (hvalid : 1 ≤ caml_convert_signal_number p n ∧ caml_convert_signal_number p n < p.NSIG) :
    caml_install_signal_handler p env n action s =
      if env.sigaction_fails (caml_convert_signal_number p n) = true then
        Outcome.raise_exception (Exception.Sys_error "") s
      else
        (caml_raise_async_if_exception p env
          (caml_process_pending_signals_exn p env
            (installed p (caml_convert_signal_number p n) action s)).2 ""
          (caml_process_pending_signals_exn p env
            (installed p (caml_convert_signal_number p n) action s)).1).bind
          fun _ s2 => Outcome.returned
            (previous_behavior s.w (caml_convert_signal_number p n)) s2 := by
  have hn : ¬ (caml_convert_signal_number p n ≤ 0 ∨ caml_convert_signal_number p n ≥ p.NSIG) := by
    omega
  unfold caml_install_signal_handler
  simp only [hn, if_false]
  generalize caml_convert_signal_number p n = sig
  by_cases hfail : env.sigaction_fails sig = true
  · cases action <;> simp [caml_set_signal_action, hfail]
  · cases action <;> cases hold : s.w.sigactions sig <;>
      simp [caml_set_signal_action, hfail, hold, previous_behavior, installed, disposition_of,
        set_disposition, store_signal_handler, signal_handler_field]

theorem returned_of_value {σ α : Type} (o : Outcome σ α) (v : α) (h : o.value? = some v) :
    o = Outcome.returned v o.state := by
  cases o with
  | returned a s0 =>
    simp only [Outcome.value?, Option.some.injEq] at h
    rw [h]
    rfl
  | fatal_uncaught_exception e m s0 => simp [Outcome.value?] at h
  | raise_async e s0 => simp [Outcome.value?] at h
  | fatal_error m s0 => simp [Outcome.value?] at h
  | raise_exception e s0 => simp [Outcome.value?] at h

/-- C19: let `n` be a valid signal, let the handler table be unallocated or hold `NSIG`
fields, and let the signal handlers run by the trailing drain leave the signal dispositions
and the handler table alone. If `caml_install_signal_handler` on `n` and `a1` returns, it
returns the action found in the state it was called in, and the next call on `n`, with any
action `a2`, returns nothing but `a1`, and does return `a1` when no signal handler raises:
`Signal_default`, `Signal_ignore`, or `Signal_handle` of the closure found in slot `sig`.
After installing `Signal_handle f` slot `sig` of the table holds `f`; after installing
`Signal_default` or `Signal_ignore` the table is unchanged. -/
theorem caml_install_signal_handler_previous {σ : Type} (p : Platform) (env : Env σ)
    (hp : p.wf)
    (hact : ∀ handler signum w,
      (env.caml_callback_exn handler signum w).1.sigactions = w.sigactions)
    (htab : ∀ handler signum w,
      (env.caml_callback_exn handler signum w).1.caml_signal_handlers = w.caml_signal_handlers)
    (n : Int) (a1 a2 : signal_behavior) (s s1 : St σ) (r1 : signal_behavior)
    (hvalid : 1 ≤ caml_convert_signal_number p n ∧ caml_convert_signal_number p n < p.NSIG)
    (htable : s.w.caml_signal_handlers = [] ∨ s.w.caml_signal_handlers.length = p.NSIG)
    (hfirst : caml_install_signal_handler p env n a1 s = Outcome.returned r1 s1) :
    r1 = previous_behavior s.w (caml_convert_signal_number p n) ∧
    (∀ v s2, caml_install_signal_handler p env n a2 s1 = Outcome.returned v s2 → v = a1) ∧
    ((∀ handler signum w,
        p.Is_exception_result (env.caml_callback_exn handler signum w).2 = false) →
      ∃ s2, caml_install_signal_handler p env n a2 s1 = Outcome.returned a1 s2) ∧
    (∀ f, a1 = signal_behavior.Signal_handle f →
      signal_handler_field s1.w (caml_convert_signal_number p n) = f) ∧
    (a1 = signal_behavior.Signal_default ∨ a1 = signal_behavior.Signal_ignore →
      s1.w.caml_signal_handlers = s.w.caml_signal_handlers) := by
  rw [install_signal_handler_eq p env n a1 s hvalid] at hfirst
  rw [install_signal_handler_eq p env n a2 s1 hvalid]
  generalize caml_convert_signal_number p n = sig at hfirst hvalid ⊢
  by_cases hfail : env.sigaction_fails sig = true
  · simp [hfail] at hfirst
  · rw [if_neg hfail] at hfirst
    rw [if_neg hfail]
    obtain ⟨a, s0, hra, hret⟩ := bind_returned _ _ _ _ hfirst
    obtain ⟨-, hs0, -⟩ := raise_async_if_exception_returned p env _ _ _ _ _ hra
    simp only [Outcome.returned.injEq] at hret
    obtain ⟨hr1, hs1⟩ := hret
    obtain ⟨hfa, hft⟩ := process_pending_signals_installed p env hact htab (installed p sig a1 s)
    have hs1eq : s1 = (caml_process_pending_signals_exn p env (installed p sig a1 s)).1 := by
      rw [← hs1, hs0]
    have hdisp : s1.w.sigactions sig = disposition_of a1 := by
      rw [hs1eq, hfa]
      cases a1 <;> simp [installed, set_disposition, store_signal_handler]
    have htbl : s1.w.caml_signal_handlers = (installed p sig a1 s).w.caml_signal_handlers := by
      rw [hs1eq, hft]
    have hfield : ∀ f, a1 = signal_behavior.Signal_handle f →
        signal_handler_field s1.w sig = f := by
      intro f hf
      subst hf
      unfold signal_handler_field
      rw [htbl]
      simp only [installed, store_signal_handler, set_disposition]
      have hlen : sig.toNat < (if s.w.caml_signal_handlers = [] then
          List.replicate p.NSIG p.Val_unit else s.w.caml_signal_handlers).length := by
        by_cases he : s.w.caml_signal_handlers = []
        · rw [if_pos he, List.length_replicate]
          omega
        · rw [if_neg he]
          rcases htable with h | h
          · exact absurd h he
          · rw [h]
            omega
      rw [List.getD_eq_getElem?_getD, List.getElem?_set]
      simp [hlen]
    have hprev : previous_behavior s1.w sig = a1 := by
      cases a1 with
      | Signal_default => simp [previous_behavior, hdisp, disposition_of]
      | Signal_ignore => simp [previous_behavior, hdisp, disposition_of]
      | Signal_handle f =>
        simp only [previous_behavior, hdisp, disposition_of, if_true]
        rw [hfield f rfl]
    rw [hprev]
    refine ⟨hr1.symm, ?_, ?_, hfield, ?_⟩
    · intro v s2 h
      obtain ⟨b, s3, -, hret⟩ := bind_returned _ _ _ _ h
      simp only [Outcome.returned.injEq] at hret
      exact hret.1.symm
    · intro hraise
      have hne : p.Is_exception_result
          (caml_process_pending_signals_exn p env (installed p sig a2 s1)).2 = false := by
        rcases process_pending_signals_value p env (installed p sig a2 s1) with
          h | ⟨handler, signum, w, h⟩
        · rw [h]; exact hp.2.2
        · rw [h]; exact hraise _ _ _
      rw [raise_async_if_exception_eq, if_pos hne]
      exact ⟨_, rfl⟩
    · intro h
      rw [htbl]
      rcases h with h | h <;> subst h <;> rfl

/-- Witness of C19 on Linux: on `SIGINT` (OCaml number `-6`, signal 2), installing
`Signal_handle 500` returns `Signal_default` and stores 500 in slot 2; the next install, of
`Signal_default`, returns `Signal_handle 500`. -/
theorem caml_install_signal_handler_previous_witness :
    (caml_install_signal_handler linux_amd64 counting_env (-6)
      (signal_behavior.Signal_handle 500) (start_state fun _ => false)).value?
      = some signal_behavior.Signal_default ∧
    ((caml_install_signal_handler linux_amd64 counting_env (-6)
      (signal_behavior.Signal_handle 500) (start_state fun _ => false)).state.w.caml_signal_handlers.take
        4) = [100, 104, 500, 112] ∧
    (caml_install_signal_handler linux_amd64 counting_env (-6) signal_behavior.Signal_default
      (caml_install_signal_handler linux_amd64 counting_env (-6)
        (signal_behavior.Signal_handle 500) (start_state fun _ => false)).state).value?
      = some (signal_behavior.Signal_handle 500) ∧
    ∃ s2, caml_install_signal_handler linux_amd64 counting_env (-6)
        signal_behavior.Signal_default
        (caml_install_signal_handler linux_amd64 counting_env (-6)
          (signal_behavior.Signal_handle 500) (start_state fun _ => false)).state
      = Outcome.returned (signal_behavior.Signal_handle 500) s2 :=
  ⟨by decide, by decide, by decide,
    (caml_install_signal_handler_previous linux_amd64 counting_env (by decide)
      (fun _ _ _ => rfl) (fun _ _ _ => rfl) (-6) (signal_behavior.Signal_handle 500)
      signal_behavior.Signal_default (start_state fun _ => false)
      (caml_install_signal_handler linux_amd64 counting_env (-6)
        (signal_behavior.Signal_handle 500) (start_state fun _ => false)).state
      signal_behavior.Signal_default (by decide) (Or.inr (by decide))
      (returned_of_value _ _ (by decide))).2.2.1
      (fun _ _ _ => rfl)⟩

/-! ## Integer arithmetic with overflow detection -/

theorem add_mod_two_pow (M a b : Nat) (ha : a < M) (hb : b < M) :
    (a + b) % M = if a + b < M then a + b else a + b - M := by
  by_cases h : a + b < M
  · rw [if_pos h, Nat.mod_eq_of_lt h]
  · rw [if_neg h, Nat.mod_eq_sub_mod (Nat.le_of_not_lt h), Nat.mod_eq_of_lt (by omega)]

theorem sub_emod_two_pow (M a b : Nat) (ha : a < M) (hb : b < M) :
    ((a : Int) - (b : Int)) % (M : Int)
      = if a < b then (a : Int) - (b : Int) + (M : Int) else (a : Int) - (b : Int) := by
  by_cases h : a < b
  · rw [if_pos h]
    have h1 : ((a : Int) - (b : Int)) % (M : Int)
        = ((a : Int) - (b : Int) + (M : Int)) % (M : Int) := by
      rw [Int.add_emod_self]
    rw [h1]
    exact Int.emod_eq_of_lt (by omega) (by omega)
  · rw [if_neg h]
    exact Int.emod_eq_of_lt (by omega) (by omega)

/-- C22: for all `uintnat` values `a` and `b` of `w` bits, in both builds of the functions
(compiler built-in or plain C), `caml_uadd_overflow` stores `(a + b) mod 2^w` and returns
non-zero exactly when `a + b >= 2^w`; `caml_usub_overflow` stores `(a - b) mod 2^w` and
returns non-zero exactly when `a < b`; when 0 is returned the stored value is the exact sum,
respectively the exact difference. -/
theorem caml_uadd_usub_overflow_spec (w : Nat) (has_builtin : Bool) (a b : Nat)
    (ha : a < 2 ^ w) (hb : b < 2 ^ w) :
    (caml_uadd_overflow w has_builtin a b).1 = (a + b) % 2 ^ w ∧
    ((caml_uadd_overflow w has_builtin a b).2 ≠ 0 ↔ a + b ≥ 2 ^ w) ∧
    ((caml_uadd_overflow w has_builtin a b).2 = 0 →
      (caml_uadd_overflow w has_builtin a b).1 = a + b) ∧
    ((caml_usub_overflow w has_builtin a b).1 : Int)
      = ((a : Int) - (b : Int)) % ((2 ^ w : Nat) : Int) ∧
    ((caml_usub_overflow w has_builtin a b).2 ≠ 0 ↔ a < b) ∧
    ((caml_usub_overflow w has_builtin a b).2 = 0 →
      ((caml_usub_overflow w has_builtin a b).1 : Int) = (a : Int) - (b : Int) ∧
      (caml_usub_overflow w has_builtin a b).1 = a - b) := by
  have hadd := add_mod_two_pow (2 ^ w) a b ha hb
  have hsub := sub_emod_two_pow (2 ^ w) a b ha hb
  have hpos : 0 < 2 ^ w := Nat.two_pow_pos w
  have hnn : 0 ≤ ((a : Int) - (b : Int)) % ((2 ^ w : Nat) : Int) :=
    Int.emod_nonneg _ (by omega)
  cases has_builtin
  · refine ⟨rfl, ?_, ?_, Int.toNat_of_nonneg hnn, ?_, ?_⟩
    · simp only [caml_uadd_overflow, Bool.false_eq_true, if_false]
      rw [hadd]
      by_cases h : a + b < 2 ^ w
      · have h1 : ¬ a + b < a := by omega
        simp only [h, if_true, h1, if_false]
        constructor
        · intro hc; exact absurd rfl hc
        · intro hc; omega
      · have h1 : a + b - 2 ^ w < a := by omega
        simp only [h, if_false, h1, if_true]
        constructor
        · intro _; omega
        · intro _; decide
    · simp only [caml_uadd_overflow, Bool.false_eq_true, if_false]
      rw [hadd]
      by_cases h : a + b < 2 ^ w
      · simp only [h, if_true]
        intro _; trivial
      · have h1 : a + b - 2 ^ w < a := by omega
        simp only [h, if_false, h1, if_true]
        intro hc; exact absurd hc (by decide)
    · simp only [caml_usub_overflow, Bool.false_eq_true, if_false]
      by_cases h : a < b
      · simp only [h, if_true]
        constructor
        · intro _; trivial
        · intro _; decide
      · simp only [h, if_false]
        constructor
        · intro hc; exact absurd rfl hc
        · intro hc; exact absurd hc (by trivial)
    · simp only [caml_usub_overflow, Bool.false_eq_true, if_false]
      by_cases h : a < b
      · simp only [h, if_true]
        intro hc; exact absurd hc (by decide)
      · intro _
        have h2 := Int.toNat_of_nonneg hnn
        rw [hsub, if_neg h] at h2 ⊢
        constructor
        · exact h2
        · omega
  · refine ⟨rfl, ?_, ?_, Int.toNat_of_nonneg hnn, ?_, ?_⟩
    · simp only [caml_uadd_overflow, builtin_add_overflow, if_true]
      simp only [hadd]
      by_cases h : a + b < 2 ^ w
      · simp [h]
      · have h1 : ¬ a + b - 2 ^ w = a + b := by omega
        simp [h, h1]
        omega
    · simp only [caml_uadd_overflow, builtin_add_overflow, if_true]
      simp only [hadd]
      by_cases h : a + b < 2 ^ w
      · simp [h]
      · have h1 : ¬ a + b - 2 ^ w = a + b := by omega
        simp [h, h1]
    · simp only [caml_usub_overflow, builtin_sub_overflow, if_true]
      simp only [hsub]
      by_cases h : a < b
      · have h1 : ¬ (a : Int) - (b : Int) + ((2 ^ w : Nat) : Int) = (a : Int) - (b : Int) := by
          omega
        simp only [h, if_true, bne_iff_ne, ne_eq, h1, not_false_eq_true]
        simp
      · simp [h]
    · simp only [caml_usub_overflow, builtin_sub_overflow, if_true]
      by_cases h : a < b
      · simp only [hsub]
        have h1 : ¬ (a : Int) - (b : Int) + ((2 ^ w : Nat) : Int) = (a : Int) - (b : Int) := by
          omega
        simp only [h, if_true, bne_iff_ne, ne_eq, h1, not_false_eq_true]
        simp
      · intro _
        have h2 := Int.toNat_of_nonneg hnn
        rw [hsub, if_neg h] at h2 ⊢
        constructor
        · exact h2
        · omega

/-- Witness of C22 on 64-bit words: `2^64 - 1 + 2` overflows and stores 1, `3 - 5` underflows
and stores `2^64 - 2`, in the plain C build. -/
theorem caml_uadd_usub_overflow_spec_witness :
    caml_uadd_overflow 64 false (2 ^ 64 - 1) 2 = (1, 1) ∧
    caml_usub_overflow 64 false 3 5 = (2 ^ 64 - 2, 1) ∧
    caml_uadd_overflow 64 true 3 5 = (8, 0) ∧
    ((caml_uadd_overflow 64 false (2 ^ 64 - 1) 2).2 ≠ 0 ↔ 2 ^ 64 - 1 + 2 ≥ 2 ^ 64) :=
  ⟨by decide, by decide, by decide,
    (caml_uadd_usub_overflow_spec 64 false (2 ^ 64 - 1) 2 (by decide) (by decide)).2.1⟩

/-! ## Conversion of signal numbers -/

/-- The test of `caml_convert_signal_number`, made on `size_t` values, selects the numbers
`-size .. -1`, for a C `int` and a table of at most `2^31` entries. -/
theorem convert_signal_number_test (p : Platform) (signo : Int)
    (hint : -(2 ^ 31 : Int) ≤ signo) (hB : 32 ≤ p.BITS_PER_WORD)
    (hsize : 0 < p.posix_signals.length) (hsize2 : p.posix_signals.length ≤ 2 ^ 31) :
    (signo < 0 ∧
      (signo % ((2 ^ p.BITS_PER_WORD : Nat) : Int)).toNat
        ≥ (2 ^ p.BITS_PER_WORD - p.posix_signals.length) % 2 ^ p.BITS_PER_WORD) ↔
    (-(p.posix_signals.length : Int) ≤ signo ∧ signo ≤ -1) := by
  have hM : 2 ^ 32 ≤ 2 ^ p.BITS_PER_WORD := Nat.pow_le_pow_right (by decide) hB
  generalize 2 ^ p.BITS_PER_WORD = M at hM
  generalize p.posix_signals.length = size at hsize hsize2
  have hneg : (M - size) % M = M - size := Nat.mod_eq_of_lt (by omega)
  rw [hneg]
  by_cases h0 : signo < 0
  · have hmod : signo % (M : Int) = signo + (M : Int) := by
      rw [← Int.add_emod_self]
      exact Int.emod_eq_of_lt (by omega) (by omega)
    rw [hmod]
    constructor
    · rintro ⟨-, h⟩
      omega
    · rintro ⟨h1, h2⟩
      exact ⟨h0, by omega⟩
  · constructor
    · rintro ⟨h, -⟩
      exact absurd h h0
    · rintro ⟨-, h⟩
      omega

theorem convert_signal_number_in_table (p : Platform) (signo : Int)
    (hint : -(2 ^ 31 : Int) ≤ signo) (hB : 32 ≤ p.BITS_PER_WORD)
    (hsize : 0 < p.posix_signals.length) (hsize2 : p.posix_signals.length ≤ 2 ^ 31)
    (hr : -(p.posix_signals.length : Int) ≤ signo ∧ signo ≤ -1) (k : Nat)
    (hk : (k : Int) = -signo - 1) :
    k < p.posix_signals.length ∧
    p.posix_signals[k]? = some (caml_convert_signal_number p signo) := by
  have hc := (convert_signal_number_test p signo hint hB hsize hsize2).2 hr
  have hidx : (-signo - 1).toNat = k := by omega
  have hlt : k < p.posix_signals.length := by omega
  refine ⟨hlt, ?_⟩
  have hval : caml_convert_signal_number p signo = p.posix_signals.getD k 0 := by
    rw [← hidx]
    simp only [caml_convert_signal_number]
    rw [if_pos hc]
  rw [hval, List.getD_eq_getElem?_getD, List.getElem?_eq_getElem hlt]
  rfl

theorem convert_signal_number_outside (p : Platform) (signo : Int)
    (hint : -(2 ^ 31 : Int) ≤ signo) (hB : 32 ≤ p.BITS_PER_WORD)
    (hsize : 0 < p.posix_signals.length) (hsize2 : p.posix_signals.length ≤ 2 ^ 31)
    (hr : ¬ (-(p.posix_signals.length : Int) ≤ signo ∧ signo ≤ -1)) :
    caml_convert_signal_number p signo = signo := by
  have hc := fun h => hr ((convert_signal_number_test p signo hint hB hsize hsize2).1 h)
  simp only [caml_convert_signal_number]
  rw [if_neg hc]

/-- C27: for every C `int` `signo` (32 bits, `size_t` having at least 32 bits) and a table
`posix_signals` of `size` entries, `0 < size <= 2^31`, the test of
`caml_convert_signal_number`, made on `size_t` values, holds exactly when
`-size <= signo <= -1`; in that case the index `-signo-1` is below `size` and the function
returns `posix_signals[-signo-1]`; otherwise, so for every `signo >= 0` and every
`signo < -size`, it returns `signo` unchanged. -/
theorem caml_convert_signal_number_spec (p : Platform) (signo : Int)
    (hint : -(2 ^ 31 : Int) ≤ signo) (hint2 : signo < 2 ^ 31) (hB : 32 ≤ p.BITS_PER_WORD)
    (hsize : 0 < p.posix_signals.length) (hsize2 : p.posix_signals.length ≤ 2 ^ 31) :
    ((signo < 0 ∧
        (signo % ((2 ^ p.BITS_PER_WORD : Nat) : Int)).toNat
          ≥ (2 ^ p.BITS_PER_WORD - p.posix_signals.length) % 2 ^ p.BITS_PER_WORD) ↔
      (-(p.posix_signals.length : Int) ≤ signo ∧ signo ≤ -1)) ∧
    ((-(p.posix_signals.length : Int) ≤ signo ∧ signo ≤ -1) →
      (-signo - 1).toNat < p.posix_signals.length ∧
      p.posix_signals[(-signo - 1).toNat]? = some (caml_convert_signal_number p signo)) ∧
    (0 ≤ signo ∨ signo < -(p.posix_signals.length : Int) →
      caml_convert_signal_number p signo = signo) := by
  refine ⟨convert_signal_number_test p signo hint hB hsize hsize2, ?_, ?_⟩
  · intro hr
    exact convert_signal_number_in_table p signo hint hB hsize hsize2 hr _ (by omega)
  · intro hr
    exact convert_signal_number_outside p signo hint hB hsize hsize2 (by omega)

/-- Witness of C27 on Linux, where the table has 28 entries: `-28` is converted to the last
entry (`SIGXFSZ`, 25), `-29` and `5` are returned unchanged. -/
theorem caml_convert_signal_number_spec_witness :
    linux_amd64.posix_signals.length = 28 ∧
    caml_convert_signal_number linux_amd64 (-28) = 25 ∧
    caml_convert_signal_number linux_amd64 (-29) = -29 ∧
    caml_convert_signal_number linux_amd64 5 = 5 ∧
    ((-(linux_amd64.posix_signals.length : Int) ≤ -28 ∧ (-28 : Int) ≤ -1) →
      (-(-28 : Int) - 1).toNat < linux_amd64.posix_signals.length ∧
      linux_amd64.posix_signals[(-(-28 : Int) - 1).toNat]?
        = some (caml_convert_signal_number linux_amd64 (-28))) :=
  ⟨by decide, by decide, by decide, by decide,
    (caml_convert_signal_number_spec linux_amd64 (-28) (by decide) (by decide) (by decide)
      (by decide) (by decide)).2.1⟩

theorem rev_convert_loop_spec (signo : Int) (xs : List Int) (i : Nat) :
    (signo ∉ xs ∧ rev_convert_loop signo xs i = signo) ∨
    (∃ k, xs[k]? = some signo ∧ (∀ k1, k1 < k → xs[k1]? ≠ some signo) ∧
      rev_convert_loop signo xs i = -((i + k : Nat) : Int) - 1) := by
  induction xs generalizing i with
  | nil => exact Or.inl ⟨by simp, rfl⟩
  | cons x xs ih =>
    simp only [rev_convert_loop]
    by_cases hx : signo = x
    · right
      refine ⟨0, by simp [hx], fun k1 hk1 => absurd hk1 (Nat.not_lt_zero _), ?_⟩
      simp [hx]
    · rw [if_neg hx]
      rcases ih (i + 1) with ⟨hn, hv⟩ | ⟨k, hk, hfirst, hv⟩
      · left
        refine ⟨?_, hv⟩
        simp only [List.mem_cons, not_or]
        exact ⟨hx, hn⟩
      · right
        refine ⟨k + 1, by simpa using hk, ?_, ?_⟩
        · intro k1 hk1
          cases k1 with
          | zero =>
            simp only [List.getElem?_cons_zero, ne_eq, Option.some.injEq]
            exact fun h => hx h.symm
          | succ k2 =>
            simp only [List.getElem?_cons_succ]
            exact hfirst k2 (by omega)
        · rw [hv]
          push_cast
          ring

/-- C28: for a C `int` table `posix_signals` of `size` entries, `0 < size <= 2^31` (`size_t`
having at least 32 bits), `caml_convert_signal_number(caml_rev_convert_signal_number(s)) = s`
for every signal number `s >= 0`; and when the entries are pairwise distinct,
`caml_rev_convert_signal_number(caml_convert_signal_number(n)) = n` for every `n` in
`-size .. -1`. -/
theorem signal_number_round_trip (p : Platform) (hB : 32 ≤ p.BITS_PER_WORD)
    (hsize : 0 < p.posix_signals.length) (hsize2 : p.posix_signals.length ≤ 2 ^ 31) :
    (∀ s : Int, 0 ≤ s →
      caml_convert_signal_number p (caml_rev_convert_signal_number p s) = s) ∧
    (p.posix_signals.Nodup → ∀ n : Int, -(p.posix_signals.length : Int) ≤ n → n ≤ -1 →
      caml_rev_convert_signal_number p (caml_convert_signal_number p n) = n) := by
  constructor
  · intro s hs
    unfold caml_rev_convert_signal_number
    rcases rev_convert_loop_spec s p.posix_signals 0 with ⟨-, hv⟩ | ⟨k, hk, -, hv⟩
    · rw [hv]
      exact convert_signal_number_outside p s (by omega) hB hsize hsize2 (by omega)
    · rw [hv]
      have hlt : k < p.posix_signals.length := by
        by_contra hc
        rw [List.getElem?_eq_none (by omega)] at hk
        cases hk
      obtain ⟨-, hget⟩ := convert_signal_number_in_table p (-((0 + k : Nat) : Int) - 1)
        (by omega) hB hsize hsize2 ⟨by omega, by omega⟩ k (by omega)
      rw [hk] at hget
      exact (Option.some.inj hget).symm
  · intro hnd n hn1 hn2
    obtain ⟨hlt, hget⟩ := convert_signal_number_in_table p n (by omega) hB hsize hsize2
      ⟨hn1, hn2⟩ (-n - 1).toNat (by omega)
    generalize caml_convert_signal_number p n = v at hget
    unfold caml_rev_convert_signal_number
    rcases rev_convert_loop_spec v p.posix_signals 0 with ⟨hnot, -⟩ | ⟨k, hk, -, hv⟩
    · exact absurd (List.mem_iff_getElem?.2 ⟨_, hget⟩) hnot
    · rw [hv]
      have hklt : k < p.posix_signals.length := by
        by_contra hc
        rw [List.getElem?_eq_none (by omega)] at hk
        cases hk
      have heq : k = (-n - 1).toNat := by
        apply (@List.Nodup.getElem_inj_iff _ _ hnd k hklt (-n - 1).toNat hlt).1
        rw [List.getElem?_eq_getElem hklt] at hk
        rw [List.getElem?_eq_getElem hlt] at hget
        rw [Option.some.inj hk, Option.some.inj hget]
      rw [heq]
      omega

/-- Witness of C28 on Linux: signal 2 (`SIGINT`) is converted back to `-6` and forth to 2,
signal 64, which is not in the table, is left alone; the table has no repeated entry. -/
theorem signal_number_round_trip_witness :
    caml_rev_convert_signal_number linux_amd64 2 = -6 ∧
    caml_convert_signal_number linux_amd64 (-6) = 2 ∧
    caml_rev_convert_signal_number linux_amd64 64 = 64 ∧
    linux_amd64.posix_signals.Nodup ∧
    caml_rev_convert_signal_number linux_amd64 (caml_convert_signal_number linux_amd64 (-28))
      = -28 :=
  ⟨by decide, by decide, by decide, by decide,
    (signal_number_round_trip linux_amd64 (by decide) (by decide) (by decide)).2 (by decide)
      (-28) (by decide) (by decide)⟩

/-! ## No lost wake-up in the futex-based condition variable -/

theorem condvar_calls_counter (calls : List condvar_call) (cv : custom_condvar)
    (hc : cv.counter < 2 ^ 32) :
    (calls.foldl condvar_call.run cv).counter = (cv.counter + calls.length) % 2 ^ 32 := by
  induction calls generalizing cv with
  | nil =>
    simp only [List.foldl_nil, List.length_nil, Nat.add_zero]
    exact (Nat.mod_eq_of_lt hc).symm
  | cons c cs ih =>
    have hstep : (condvar_call.run cv c).counter = (cv.counter + 1) % 2 ^ 32 := by
      cases c <;> rfl
    rw [List.foldl_cons, ih _ (by rw [hstep]; exact Nat.mod_lt _ (by decide)), hstep,
      List.length_cons]
    omega

/-- C21: `custom_condvar_signal` and `custom_condvar_broadcast` each replace the counter `c` by
`(c + 1) mod 2^32`; the futex call of `custom_condvar_wait` puts the caller to sleep exactly
when the counter equals the snapshot; hence after `k` calls of signal or broadcast,
`1 <= k < 2^32`, made between the snapshot and the futex call, the counter is
`(c + k) mod 2^32`, which differs from the snapshot `c`, and the futex call returns without
sleeping: the waiting thread of `st_masterlock_acquire` goes on to relock the mutex. -/
theorem custom_condvar_no_lost_wakeup (cv : custom_condvar) (calls : List condvar_call)
    (hc : cv.counter < 2 ^ 32) (h1 : 1 ≤ calls.length) (h2 : calls.length < 2 ^ 32) :
    (custom_condvar_signal cv).1.counter = (cv.counter + 1) % 2 ^ 32 ∧
    (custom_condvar_broadcast cv).1.counter = (cv.counter + 1) % 2 ^ 32 ∧
    (∀ (cv2 : custom_condvar) (old_count : Nat),
      custom_condvar_wait_sleeps cv2 old_count = true ↔ cv2.counter = old_count) ∧
    (calls.foldl condvar_call.run cv).counter = (cv.counter + calls.length) % 2 ^ 32 ∧
    (calls.foldl condvar_call.run cv).counter ≠ custom_condvar_wait_snapshot cv ∧
    custom_condvar_wait_sleeps (calls.foldl condvar_call.run cv)
      (custom_condvar_wait_snapshot cv) = false ∧
    ∀ (st : MState) (t : Nat),
      st.pcs[t]? = some (Pc.acq_futex (custom_condvar_wait_snapshot cv)) →
      st.m.is_free = calls.foldl condvar_call.run cv →
      step st (Action.futex_wait t) = some { st with pcs := st.pcs.set t Pc.acq_woken } := by
  have hcount := condvar_calls_counter calls cv hc
  have hne : (calls.foldl condvar_call.run cv).counter ≠ cv.counter := by
    rw [hcount]
    omega
  refine ⟨rfl, rfl, ?_, hcount, hne, ?_, ?_⟩
  · intro cv2 old_count
    simp [custom_condvar_wait_sleeps]
  · simp only [custom_condvar_wait_sleeps, custom_condvar_wait_snapshot, beq_eq_false_iff_ne]
    exact hne
  · intro st t hpc hcv
    simp only [custom_condvar_wait_snapshot] at hpc
    simp only [step, hpc, hcv, hne, if_false]

/-- Witness of C21: the snapshot is `2^32 - 1`; one signal wraps the counter to 0 and the futex
call does not sleep; three calls from the snapshot 5 give 8. -/
theorem custom_condvar_no_lost_wakeup_witness :
    ([condvar_call.signal].foldl condvar_call.run { counter := 2 ^ 32 - 1 }).counter = 0 ∧
    custom_condvar_wait_sleeps { counter := 2 ^ 32 - 1 } (2 ^ 32 - 1) = true ∧
    ([condvar_call.signal, condvar_call.broadcast, condvar_call.signal].foldl
      condvar_call.run { counter := 5 }).counter = 8 ∧
    custom_condvar_wait_sleeps
      ([condvar_call.signal].foldl condvar_call.run { counter := 2 ^ 32 - 1 })
      (custom_condvar_wait_snapshot { counter := 2 ^ 32 - 1 }) = false :=
  ⟨by decide, by decide, by decide,
    (custom_condvar_no_lost_wakeup { counter := 2 ^ 32 - 1 } [condvar_call.signal]
      (by decide) (by decide) (by decide)).2.2.2.2.2.1⟩

/-! ## The accounting of `waiters` -/

theorem init_waiters_counted (n : Nat) : (st_masterlock_init n).waiters_counted := by
  have h : ∀ k, (List.replicate k Pc.outside).countP Pc.waiting = 0 := by
    intro k
    induction k with
    | zero => rfl
    | succ k ih => simp [List.replicate_succ, List.countP_cons, ih, Pc.waiting]
  simp [MState.waiters_counted, st_masterlock_init, List.countP_cons, h, Pc.waiting]

/-- C26: in every state reached from `st_masterlock_init` by steps of
`st_masterlock_acquire`, `st_masterlock_release` and `st_thread_yield` (spurious futex returns
included), `waiters` is the number of threads between a `waiters++` and the matching
`waiters--` of the wait loop of acquire or yield, so it is not negative and it is 0 when no
thread is inside a wait loop, every completed acquire and yield having undone its increments;
the two steps of `st_masterlock_release` leave `waiters` unchanged. -/
theorem st_masterlock_waiters_accounting (n : Nat) (acts : List Action) (st : MState)
    (hrun : run (st_masterlock_init n) acts = some st) :
    st.m.waiters = ((st.pcs.countP Pc.waiting : Nat) : Int) ∧
    0 ≤ st.m.waiters ∧
    ((∀ pc ∈ st.pcs, pc.waiting = false) → st.m.waiters = 0) ∧
    (∀ t st1, step st (Action.release t) = some st1 → st1.m.waiters = st.m.waiters) ∧
    (∀ t target st1, step st (Action.signal t target) = some st1 →
      st1.m.waiters = st.m.waiters) := by
  have h : st.m.waiters = ((st.pcs.countP Pc.waiting : Nat) : Int) :=
    run_waiters_counted acts _ st (init_waiters_counted n) hrun
  refine ⟨h, by rw [h]; exact Int.natCast_nonneg _, ?_, ?_, ?_⟩
  · intro hall
    rw [h]
    have : st.pcs.countP Pc.waiting = 0 := by
      rw [List.countP_eq_zero]
      intro pc hpc
      simp [hall pc hpc]
    rw [this]
    rfl
  · intro t st1 hstep
    simp only [step] at hstep
    split at hstep
    · simp only [release_section, Option.some.injEq] at hstep
      rw [← hstep]
    · cases hstep
  · intro t target st1 hstep
    simp only [step] at hstep
    split at hstep
    · split at hstep
      · simp only [Option.some.injEq] at hstep
        rw [← hstep]
      · cases hstep
    · cases hstep

/-- Witness of C26 with two threads: thread 1 sleeps in the wait of acquire (`waiters == 1`);
after thread 0 yielded, thread 1 took the lock and released it, and thread 0 got the lock
back, `waiters` is 0 again. -/
theorem st_masterlock_waiters_accounting_witness :
    run (st_masterlock_init 1) [Action.acquire 1, Action.futex_wait 1] = some handoff_start ∧
    handoff_start.m.waiters = 1 ∧
    handoff_start.pcs.countP Pc.waiting = 1 ∧
    (∀ t st1, step handoff_start (Action.release t) = some st1 →
      st1.m.waiters = handoff_start.m.waiters) ∧
    handoff_start.m.waiters = ((handoff_start.pcs.countP Pc.waiting : Nat) : Int) :=
  ⟨by decide, by decide, by decide,
    (st_masterlock_waiters_accounting 1 [Action.acquire 1, Action.futex_wait 1] handoff_start
      (by decide)).2.2.2.1,
    by decide⟩

/-! ## The signal mask around a handler -/

/-- Counterexample to C25 as stated, in a build without `POSIX_SIGNALS`: signal 3 is blocked
at entry and signal 7 is not; the handler of signal 7, which blocks every signal, is entered
with signal 7 still not blocked, and on return the mask is the one the handler left, signal 5
being blocked. -/
theorem caml_execute_signal_exn_mask_counterexample :
    no_posix.POSIX_SIGNALS = false ∧
    sigismember (start_state fun x => x == 3).w.sigmask 7 = false ∧
    sigismember (start_state fun x => x == 3).w.sigmask 5 = false ∧
    (caml_execute_signal_exn no_posix masking_env 7
      (start_state fun x => x == 3)).1.trace.map
        (fun c => (c.ev, c.pre.sigmask 3, c.pre.sigmask 7))
      = [(Event.callback_exn 7 128 (-43), true, false)] ∧
    (caml_execute_signal_exn no_posix masking_env 7
      (start_state fun x => x == 3)).1.w.sigmask 5 = true := by
  decide

/-- C25, amended: in a build with `POSIX_SIGNALS`, for every signal number `n`, every mask `M`
of the calling thread and every handler, `caml_execute_signal_exn(n)` makes one external call,
the call of the closure in slot `n` of the handler table with the argument
`Val_int(caml_rev_convert_signal_number(n))`; the handler is entered with the mask
`M ∪ {n}`, the other parts of the state being as at entry; the function returns the result of
the handler, exception result or not, and on return the mask is `M` again, whatever the
handler did to it. -/
theorem caml_execute_signal_exn_mask {σ : Type} (p : Platform) (env : Env σ)
    (hposix : p.POSIX_SIGNALS = true) (n : Int) (s : St σ) :
    ∃ c : Call σ,
      (caml_execute_signal_exn p env n s).1.trace = s.trace ++ [c] ∧
      c.ev = Event.callback_exn n (signal_handler_field s.w n)
        (p.Val_int (caml_rev_convert_signal_number p n)) ∧
      (∀ x, c.pre.sigmask x = (s.w.sigmask x || decide (x = n))) ∧
      c.pre.caml_pending_signals = s.w.caml_pending_signals ∧
      c.pre.caml_signal_handlers = s.w.caml_signal_handlers ∧
      c.post = (env.caml_callback_exn (signal_handler_field s.w n)
        (p.Val_int (caml_rev_convert_signal_number p n)) c.pre).1 ∧
      (caml_execute_signal_exn p env n s).2 = (env.caml_callback_exn
        (signal_handler_field s.w n) (p.Val_int (caml_rev_convert_signal_number p n))
        c.pre).2 ∧
      (caml_execute_signal_exn p env n s).1.w.sigmask = s.w.sigmask := by
  refine ⟨⟨Event.callback_exn n (signal_handler_field s.w n)
      (p.Val_int (caml_rev_convert_signal_number p n)),
    { s.w with sigmask := fun x => s.w.sigmask x || decide (x = n) },
    (env.caml_callback_exn (signal_handler_field s.w n)
      (p.Val_int (caml_rev_convert_signal_number p n))
      { s.w with sigmask := fun x => s.w.sigmask x || decide (x = n) }).1⟩,
    ?_, rfl, fun _ => rfl, rfl, rfl, rfl, ?_, ?_⟩
  · simp [caml_execute_signal_exn, hposix, signal_handler_field]
  · simp [caml_execute_signal_exn, hposix, signal_handler_field]
  · simp [caml_execute_signal_exn, hposix]

/-- Witness of C25 on Linux: signal 3 is blocked at entry, the handler of signal 7 blocks every
signal and raises `Sys.Break`; it was entered with signals 3 and 7 blocked and signal 5 not,
and on return signal 5 is not blocked. -/
theorem caml_execute_signal_exn_mask_witness :
    linux_amd64.POSIX_SIGNALS = true ∧
    (caml_execute_signal_exn linux_amd64 masking_env 7 (start_state fun x => x == 3)).2
      = 1002 ∧
    (caml_execute_signal_exn linux_amd64 masking_env 7
      (start_state fun x => x == 3)).1.trace.map
        (fun c => (c.ev, c.pre.sigmask 3, c.pre.sigmask 7, c.pre.sigmask 5, c.post.sigmask 5))
      = [(Event.callback_exn 7 128 (-43), true, true, false, true)] ∧
    (caml_execute_signal_exn linux_amd64 masking_env 7
      (start_state fun x => x == 3)).1.w.sigmask 5 = false ∧
    ∃ c : Call Nat,
      (caml_execute_signal_exn linux_amd64 masking_env 7
        (start_state fun x => x == 3)).1.trace = (start_state fun x => x == 3).trace ++ [c] ∧
      c.ev = Event.callback_exn 7 (signal_handler_field (start_state fun x => x == 3).w 7)
        (linux_amd64.Val_int (caml_rev_convert_signal_number linux_amd64 7)) ∧
      (∀ x, c.pre.sigmask x = ((start_state fun x => x == 3).w.sigmask x || decide (x = 7))) ∧
      c.pre.caml_pending_signals = (start_state fun x => x == 3).w.caml_pending_signals ∧
      c.pre.caml_signal_handlers = (start_state fun x => x == 3).w.caml_signal_handlers ∧
      c.post = (masking_env.caml_callback_exn
        (signal_handler_field (start_state fun x => x == 3).w 7)
        (linux_amd64.Val_int (caml_rev_convert_signal_number linux_amd64 7)) c.pre).1 ∧
      (caml_execute_signal_exn linux_amd64 masking_env 7 (start_state fun x => x == 3)).2
        = (masking_env.caml_callback_exn
          (signal_handler_field (start_state fun x => x == 3).w 7)
          (linux_amd64.Val_int (caml_rev_convert_signal_number linux_amd64 7)) c.pre).2 ∧
      (caml_execute_signal_exn linux_amd64 masking_env 7
        (start_state fun x => x == 3)).1.w.sigmask = (start_state fun x => x == 3).w.sigmask :=
  ⟨by decide, by decide, by decide, by decide,
    caml_execute_signal_exn_mask linux_amd64 masking_env (by decide) 7
      (start_state fun x => x == 3)⟩

/-! ## Allocation of strings -/

/-- C30 as stated fails for the lengths `len` with `len + sizeof (value) >= 2^64`: the sum
wraps, for `len = 2^64 - 1` the function computes `wosize = 0` instead of `2^61`, allocates a
block without fields, and the store `Field (result, wosize - 1) = 0` falls outside it. -/
theorem caml_alloc_string_spec_counterexample :
    (2 ^ 64 - 1 + garbage_allocator.sizeof_value) / garbage_allocator.sizeof_value = 2 ^ 61 ∧
    (2 ^ 64 - 1 + garbage_allocator.sizeof_value) % 2 ^ linux_amd64.BITS_PER_WORD
      / garbage_allocator.sizeof_value = 0 ∧
    alloc_string_block garbage_allocator 0 = some [] ∧
    caml_alloc_string linux_amd64 garbage_allocator (2 ^ 64 - 1)
      = alloc_outcome.store_outside_block := by
  refine ⟨by decide, by decide, by decide, by decide⟩

theorem getElem?_set_last (l : List Nat) (i v k : Nat) (hi : i < l.length) :
    (l.set i v)[k]? = if k = i then some v else l[k]? := by
  rw [List.getElem?_set]
  by_cases h : i = k
  · subst h
    simp [hi]
  · have h2 : ¬ k = i := fun e => h e.symm
    simp [h, h2]

/-- C30, amended: for every byte length `len` with `len + sizeof (value) < 2^BITS_PER_WORD`,
allocators that hand out blocks of the size asked for, and `sizeof (value) <= 256`, if the
allocation does not raise then `caml_alloc_string (len)` returns a block of
`wosize = (len + sizeof (value)) div sizeof (value)` words whose last byte is
`wosize * sizeof (value) - 1 - len`, a number between 0 and `sizeof (value) - 1`; the length
recovered from the block is `len`, and the byte at offset `len` is 0. -/
theorem caml_alloc_string_spec (p : Platform) (a : Allocator) (ha : a.wf) (len : Nat)
    (hlen : len + a.sizeof_value < 2 ^ p.BITS_PER_WORD)
    (halloc : alloc_string_block a ((len + a.sizeof_value) / a.sizeof_value) ≠ none) :
    ∃ (block : List Nat) (wosize : Nat),
      caml_alloc_string p a len = alloc_outcome.returned block ∧
      wosize = (len + a.sizeof_value) / a.sizeof_value ∧
      block.length = wosize * a.sizeof_value ∧
      block[wosize * a.sizeof_value - 1]? = some (wosize * a.sizeof_value - 1 - len) ∧
      wosize * a.sizeof_value - 1 - len ≤ a.sizeof_value - 1 ∧
      recovered_length block = len ∧
      block[len]? = some 0 := by
  obtain ⟨hsv, hsv2, hsmall, hshr, hgc⟩ := ha
  have hq := Nat.div_add_mod len a.sizeof_value
  have hr := Nat.mod_lt len hsv
  have hw : (len + a.sizeof_value) / a.sizeof_value = len / a.sizeof_value + 1 :=
    Nat.add_div_right len hsv
  have hW : (len / a.sizeof_value + 1) * a.sizeof_value
      = a.sizeof_value * (len / a.sizeof_value) + a.sizeof_value := by ring
  have hqsv : len / a.sizeof_value * a.sizeof_value
      = a.sizeof_value * (len / a.sizeof_value) := Nat.mul_comm _ _
  have hqle : len / a.sizeof_value ≤ a.sizeof_value * (len / a.sizeof_value) :=
    Nat.le_mul_of_pos_left _ hsv
  rw [hw] at halloc
  generalize len / a.sizeof_value = q at hq hw hW hqsv hqle halloc
  generalize len % a.sizeof_value = r at hq hr
  have hpow : 0 < 2 ^ p.BITS_PER_WORD := Nat.two_pow_pos _
  -- the allocation
  obtain ⟨result, hres, hreslen⟩ : ∃ result, alloc_string_block a (q + 1) = some result ∧
      result.length = (q + 1) * a.sizeof_value := by
    unfold alloc_string_block at halloc ⊢
    by_cases hy : q + 1 ≤ a.Max_young_wosize
    · exact ⟨_, by rw [if_pos hy], hsmall _⟩
    · rw [if_neg hy] at halloc ⊢
      cases hs : a.caml_alloc_shr (q + 1) with
      | none => rw [hs] at halloc; exact absurd rfl halloc
      | some b => exact ⟨_, rfl, by rw [hgc, hshr _ _ hs]⟩
  -- the machine arithmetic does not wrap
  have hmod1 : (len + a.sizeof_value) % 2 ^ p.BITS_PER_WORD = len + a.sizeof_value :=
    Nat.mod_eq_of_lt hlen
  have hidx : (q + 1 + 2 ^ p.BITS_PER_WORD - 1) % 2 ^ p.BITS_PER_WORD = q := by
    rw [show q + 1 + 2 ^ p.BITS_PER_WORD - 1 = q + 2 ^ p.BITS_PER_WORD by omega,
      Nat.add_mod_right, Nat.mod_eq_of_lt (by omega)]
  have hbs : Bsize_wsize p a (q + 1)
      = a.sizeof_value * q + a.sizeof_value := by
    unfold Bsize_wsize
    rw [hW, Nat.mod_eq_of_lt (by omega)]
  have hoff : (a.sizeof_value * q + a.sizeof_value + 2 ^ p.BITS_PER_WORD - 1)
      % 2 ^ p.BITS_PER_WORD = a.sizeof_value * q + a.sizeof_value - 1 := by
    rw [show a.sizeof_value * q + a.sizeof_value + 2 ^ p.BITS_PER_WORD - 1
        = a.sizeof_value * q + a.sizeof_value - 1 + 2 ^ p.BITS_PER_WORD by omega,
      Nat.add_mod_right, Nat.mod_eq_of_lt (by omega)]
  have hval : (a.sizeof_value * q + a.sizeof_value - 1 + 2 ^ p.BITS_PER_WORD - len)
      % 2 ^ p.BITS_PER_WORD = a.sizeof_value - 1 - r := by
    rw [show a.sizeof_value * q + a.sizeof_value - 1 + 2 ^ p.BITS_PER_WORD - len
        = a.sizeof_value - 1 - r + 2 ^ p.BITS_PER_WORD by omega,
      Nat.add_mod_right, Nat.mod_eq_of_lt (by omega)]
  have hv256 : (a.sizeof_value - 1 - r) % 256 = a.sizeof_value - 1 - r :=
    Nat.mod_eq_of_lt (by omega)
  -- the store of the last field
  have hzeros : (List.range a.sizeof_value).map (fun k => 0 / 256 ^ k % 256)
      = List.replicate a.sizeof_value 0 := by
    rw [List.eq_replicate_iff]
    simp
  have hdrop : result.drop ((q + 1) * a.sizeof_value) = [] := by
    rw [List.drop_eq_nil_iff]
    omega
  have hsf : store_field a result q 0
      = some (result.take (a.sizeof_value * q) ++ List.replicate a.sizeof_value 0) := by
    unfold store_field
    rw [if_pos (by omega), hzeros, hdrop, hqsv, List.append_nil]
  have htake : (result.take (a.sizeof_value * q)).length = a.sizeof_value * q := by
    rw [List.length_take]
    omega
  generalize hr1 : result.take (a.sizeof_value * q) ++ List.replicate a.sizeof_value 0
    = result1 at hsf
  have hlen1 : result1.length = a.sizeof_value * q + a.sizeof_value := by
    rw [← hr1, List.length_append, htake, List.length_replicate]
  have hget1 : ∀ k, a.sizeof_value * q ≤ k → k < a.sizeof_value * q + a.sizeof_value →
      result1[k]? = some 0 := by
    intro k hk1 hk2
    rw [← hr1, List.getElem?_append_right (by omega), htake, List.getElem?_replicate]
    rw [if_pos (by omega)]
  -- the store of the last byte
  have hsb : store_byte result1 (a.sizeof_value * q + a.sizeof_value - 1)
      (a.sizeof_value - 1 - r)
      = some (result1.set (a.sizeof_value * q + a.sizeof_value - 1)
          (a.sizeof_value - 1 - r)) := by
    unfold store_byte
    rw [if_pos (by omega), hv256]
  have hrun : caml_alloc_string p a len
      = alloc_outcome.returned (result1.set (a.sizeof_value * q + a.sizeof_value - 1)
          (a.sizeof_value - 1 - r)) := by
    simp only [caml_alloc_string, hmod1, hw, hres, hidx, hsf, hbs, hoff, hval, hsb]
  have hlast : (result1.set (a.sizeof_value * q + a.sizeof_value - 1)
      (a.sizeof_value - 1 - r))[a.sizeof_value * q + a.sizeof_value - 1]?
        = some (a.sizeof_value - 1 - r) := by
    rw [getElem?_set_last _ _ _ _ (by omega), if_pos rfl]
  refine ⟨_, q + 1, hrun, hw.symm, ?_, ?_, ?_, ?_, ?_⟩
  · rw [List.length_set, hlen1, hW]
  · rw [hW, hlast]
    congr 1
    omega
  · rw [hW]
    omega
  · unfold recovered_length
    rw [List.length_set, hlen1, List.getD_eq_getElem?_getD, hlast]
    simp only [Option.getD_some]
    omega
  · rw [getElem?_set_last _ _ _ _ (by omega)]
    by_cases hk : len = a.sizeof_value * q + a.sizeof_value - 1
    · rw [if_pos hk]
      congr 1
      omega
    · rw [if_neg hk]
      exact hget1 len (by omega) (by omega)

/-- Witness of the amended C30 with 8-byte values: for `len = 8` two words are allocated, the
first keeps what the allocator left in it, the last one is zeroed and its last byte is 7. -/
theorem caml_alloc_string_spec_witness :
    caml_alloc_string linux_amd64 garbage_allocator 8
      = alloc_outcome.returned [170, 170, 170, 170, 170, 170, 170, 170, 0, 0, 0, 0, 0, 0, 0, 7] ∧
    caml_alloc_string linux_amd64 garbage_allocator 5
      = alloc_outcome.returned [0, 0, 0, 0, 0, 0, 0, 2] ∧
    recovered_length [0, 0, 0, 0, 0, 0, 0, 2] = 5 ∧
    ∃ (block : List Nat) (wosize : Nat),
      caml_alloc_string linux_amd64 garbage_allocator 8 = alloc_outcome.returned block ∧
      wosize = (8 + garbage_allocator.sizeof_value) / garbage_allocator.sizeof_value ∧
      block.length = wosize * garbage_allocator.sizeof_value ∧
      block[wosize * garbage_allocator.sizeof_value - 1]?
        = some (wosize * garbage_allocator.sizeof_value - 1 - 8) ∧
      wosize * garbage_allocator.sizeof_value - 1 - 8 ≤ garbage_allocator.sizeof_value - 1 ∧
      recovered_length block = 8 ∧
      block[8]? = some 0 :=
  ⟨by decide, by decide, by decide,
    caml_alloc_string_spec linux_amd64 garbage_allocator
      ⟨by decide, by decide, fun _ => by simp [garbage_allocator],
        fun _ _ h => by
          simp only [garbage_allocator, Option.some.injEq] at h
          rw [← h]
          simp [garbage_allocator],
        fun _ => rfl⟩
      8 (by decide) (by decide)⟩

/-! ## The size of the buffer of `format_gc_tweaks` -/

theorem count_digits_eq (val len : Nat) : count_digits val len = len + decimal_digits val := by
  induction val using Nat.strong_induction_on generalizing len with
  | _ val ih =>
    rw [count_digits]
    by_cases h : val / 10 ≠ 0
    · rw [if_pos h, ih (val / 10) (by omega) (len + 1)]
      have hpos : 0 < val := by omega
      have hd : decimal_digits val = decimal_digits (val / 10) + 1 := by
        unfold decimal_digits
        rw [if_neg (by omega), if_neg h, Nat.digits_def' (by norm_num) hpos, List.length_cons]
      omega
    · rw [if_neg h]
      have hlt : val < 10 := by omega
      have hd : decimal_digits val = 1 := by
        unfold decimal_digits
        by_cases h0 : val = 0
        · rw [if_pos h0]
        · rw [if_neg h0, Nat.digits_of_lt 10 val h0 hlt]
          rfl
      omega

theorem format_uintnat_eq (val : Nat) : format_uintnat val = decimal val := by
  induction val using Nat.strong_induction_on with
  | _ val ih =>
    rw [format_uintnat]
    by_cases h : val < 10
    · rw [if_pos h]
      unfold decimal
      by_cases h0 : val = 0
      · rw [if_pos h0, h0]
        rfl
      · rw [if_neg h0, Nat.digits_of_lt 10 val h0 h]
        rfl
    · rw [if_neg h, ih (val / 10) (by omega)]
      have hd : Nat.digits 10 val = val % 10 :: Nat.digits 10 (val / 10) :=
        Nat.digits_def' (by norm_num) (by omega)
      unfold decimal
      rw [if_neg (by omega), if_neg (by omega), hd, List.reverse_cons, List.map_append]
      rfl

theorem decimal_length (val : Nat) : (decimal val).length = decimal_digits val := by
  unfold decimal decimal_digits
  by_cases h0 : val = 0
  · rw [if_pos h0, if_pos h0]
    rfl
  · rw [if_neg h0, if_neg h0, List.length_map, List.length_reverse]

theorem expected_item_length (t : gc_tweak) : (expected_item t).length = item_size t := by
  simp only [expected_item, item_size, List.length_append, List.length_cons, List.length_nil,
    decimal_length, String.length]

theorem format_gc_tweaks_len_eq (tweaks : List gc_tweak) (len : Nat) :
    format_gc_tweaks_len tweaks len = len + ((changed_tweaks tweaks).map item_size).sum := by
  induction tweaks generalizing len with
  | nil => simp [format_gc_tweaks_len, changed_tweaks]
  | cons t ts ih =>
    simp only [format_gc_tweaks_len, changed_tweaks] at ih ⊢
    by_cases h : t.ptr ≠ t.initial_value
    · rw [if_pos h, ih, count_digits_eq, List.filter_cons_of_pos (by simpa using h)]
      simp only [List.map_cons, List.sum_cons, item_size]
      omega
    · rw [if_neg h, ih, List.filter_cons_of_neg (by simpa using h)]

theorem format_gc_tweaks_fill_eq (tweaks : List gc_tweak) (buf : List Char) :
    format_gc_tweaks_fill tweaks buf (exact_size tweaks)
      = some (buf ++ expected_output tweaks) := by
  induction tweaks generalizing buf with
  | nil => simp [format_gc_tweaks_fill, expected_output, changed_tweaks]
  | cons t ts ih =>
    simp only [format_gc_tweaks_fill]
    by_cases h : t.ptr ≠ t.initial_value
    · have hch : changed_tweaks (t :: ts) = t :: changed_tweaks ts := by
        simp only [changed_tweaks]
        rw [List.filter_cons_of_pos (by simpa using h)]
      have hsize : exact_size (t :: ts) = item_size t + exact_size ts := by
        simp only [exact_size, hch, List.map_cons, List.sum_cons]
        omega
      have hout : expected_output (t :: ts) = expected_item t ++ expected_output ts := by
        simp only [expected_output, hch, List.flatMap_cons]
      have hitem : [',', 'X'] ++ t.name.data ++ ['='] ++ format_uintnat t.ptr
          = expected_item t := by
        rw [format_uintnat_eq]
        rfl
      have hpos : 1 ≤ exact_size ts := by
        simp only [exact_size]
        omega
      rw [if_pos h]
      simp only [snprintf_tweak, hitem, expected_item_length, hsize]
      rw [if_neg (by omega)]
      have htake : (expected_item t).take (item_size t + exact_size ts - 1)
          = expected_item t := by
        apply List.take_of_length_le
        rw [expected_item_length]
        omega
      rw [htake, show item_size t + exact_size ts - item_size t = exact_size ts by omega, ih,
        hout, List.append_assoc]
    · have hch : changed_tweaks (t :: ts) = changed_tweaks ts := by
        simp only [changed_tweaks]
        rw [List.filter_cons_of_neg (by simpa using h)]
      have hsize : exact_size (t :: ts) = exact_size ts := by
        simp only [exact_size, hch]
      have hout : expected_output (t :: ts) = expected_output ts := by
        simp only [expected_output, hch]
      rw [if_neg h, hsize, ih, hout]

theorem decimal_digits_le (val : Nat) (h : val < 2 ^ 64) : decimal_digits val ≤ 20 := by
  unfold decimal_digits
  by_cases h0 : val = 0
  · rw [if_pos h0]
    omega
  · rw [if_neg h0, Nat.digits_len 10 val (by norm_num) h0]
    have : Nat.log 10 val < 20 :=
      Nat.log_lt_of_lt_pow h0 (Nat.lt_of_lt_of_le h (by norm_num))
    omega

/-- C29: for every table of tweaks read with the same values by both passes of
`format_gc_tweaks`, the length computed by the first pass, the NUL included, is 1 plus the sum
over the changed tweaks of `2 + strlen(name) + 1 +` the number of decimal digits of the value;
it is the length of the output plus 1; filling a buffer of that size never takes the
truncation branch and yields the items `,X<name>=<value>` of the changed tweaks in table
order; the function returns `NULL` when no tweak is changed, and that string when some tweak
is changed and `malloc` succeeds. For the table of the source with values below `2^64` the
size is at most 589, so that no `size_t` or `int` of the function wraps. -/
theorem format_gc_tweaks_exact (malloc_ok : Nat → Bool) (tweaks : List gc_tweak) :
    format_gc_tweaks_len tweaks 0 + 1 = exact_size tweaks ∧
    (expected_output tweaks).length + 1 = exact_size tweaks ∧
    format_gc_tweaks_fill tweaks [] (format_gc_tweaks_len tweaks 0 + 1)
      = some (expected_output tweaks) ∧
    (changed_tweaks tweaks = [] → format_gc_tweaks malloc_ok tweaks = none) ∧
    (changed_tweaks tweaks ≠ [] → malloc_ok (exact_size tweaks) = true →
      format_gc_tweaks malloc_ok tweaks = some (expected_output tweaks)) ∧
    (∀ val initial : Nat → Nat, (∀ i, val i < 2 ^ 64) →
      exact_size (gc_tweaks val initial) ≤ 589) := by
  have hlen : format_gc_tweaks_len tweaks 0 + 1 = exact_size tweaks := by
    rw [format_gc_tweaks_len_eq]
    simp only [exact_size]
    omega
  have hfill := format_gc_tweaks_fill_eq tweaks []
  rw [List.nil_append] at hfill
  refine ⟨hlen, ?_, by rw [hlen]; exact hfill, ?_, ?_, ?_⟩
  · simp only [exact_size, expected_output]
    generalize changed_tweaks tweaks = l
    induction l with
    | nil => rfl
    | cons t ts ih =>
      simp only [List.flatMap_cons, List.length_append, List.map_cons, List.sum_cons,
        expected_item_length] at ih ⊢
      omega
  · intro hnil
    have h0 : format_gc_tweaks_len tweaks 0 = 0 := by
      rw [format_gc_tweaks_len_eq, hnil]
      rfl
    simp [format_gc_tweaks, h0]
  · intro hne hmalloc
    have hpos : format_gc_tweaks_len tweaks 0 ≠ 0 := by
      rw [format_gc_tweaks_len_eq]
      cases hl : changed_tweaks tweaks with
      | nil => exact absurd hl hne
      | cons t ts =>
        simp only [List.map_cons, List.sum_cons, item_size]
        omega
    simp only [format_gc_tweaks, hpos, if_false, hlen, hmalloc, if_true]
    exact hfill
  · intro val initial hval
    have hitem : ∀ t ∈ changed_tweaks (gc_tweaks val initial), item_size t ≤ 49 := by
      intro t ht
      have ht2 : t ∈ gc_tweaks val initial := List.mem_of_mem_filter ht
      simp only [gc_tweaks, List.mem_map] at ht2
      obtain ⟨x, hx, rfl⟩ := ht2
      have hname : x.2.length ≤ 26 := by
        have hmem : x.2 ∈ gc_tweak_names := by
          have := List.mem_iff_getElem?.1 hx
          obtain ⟨k, hk⟩ := this
          rw [List.getElem?_enum] at hk
          cases hg : gc_tweak_names[k]? with
          | none => rw [hg] at hk; cases hk
          | some nm =>
            rw [hg] at hk
            simp only [Option.map_some', Option.some.injEq] at hk
            rw [← hk]
            exact List.mem_iff_getElem?.2 ⟨k, hg⟩
        revert hmem
        generalize x.2 = nm
        revert nm
        decide
      have hd := decimal_digits_le (val x.1) (hval x.1)
      simp only [item_size]
      omega
    have hcount : (changed_tweaks (gc_tweaks val initial)).length ≤ 12 := by
      refine le_trans (List.length_filter_le _ _) ?_
      simp [gc_tweaks, gc_tweak_names]
    have hsum := List.sum_le_card_nsmul
      ((changed_tweaks (gc_tweaks val initial)).map item_size) 49 (by
        intro x hx
        obtain ⟨t, ht, rfl⟩ := List.mem_map.1 hx
        exact hitem t ht)
    simp only [List.length_map, smul_eq_mul] at hsum
    simp only [exact_size]
    have : (changed_tweaks (gc_tweaks val initial)).length * 49 ≤ 12 * 49 :=
      Nat.mul_le_mul_right _ hcount
    omega

/-- Witness of C29: with `compaction` changed to 12 and `main_stack_size` changed to 0, the
first pass computes 34 characters, and the result is `,Xcompaction=12,Xmain_stack_size=0`;
with no tweak changed the result is `NULL`. -/
theorem format_gc_tweaks_exact_witness :
    (changed_tweaks (gc_tweaks tweaked_values initial_values)).map gc_tweak.name
      = ["compaction", "main_stack_size"] ∧
    format_gc_tweaks_len (gc_tweaks tweaked_values initial_values) 0 = 34 ∧
    format_gc_tweaks (fun _ => true) (gc_tweaks tweaked_values initial_values)
      = some ",Xcompaction=12,Xmain_stack_size=0".data ∧
    format_gc_tweaks (fun _ => true) (gc_tweaks initial_values initial_values) = none ∧
    format_gc_tweaks (fun _ => true) (gc_tweaks tweaked_values initial_values)
      = some (expected_output (gc_tweaks tweaked_values initial_values)) := by
  have hne : changed_tweaks (gc_tweaks tweaked_values initial_values) ≠ [] := by decide
  have hwit := (format_gc_tweaks_exact (fun _ => true)
    (gc_tweaks tweaked_values initial_values)).2.2.2.2.1 hne rfl
  refine ⟨by decide, ?_, ?_, ?_, hwit⟩
  · simp [format_gc_tweaks_len, gc_tweaks, gc_tweak_names, List.enum, List.enumFrom,
      tweaked_values, initial_values, count_digits, String.length]
  · simp [format_gc_tweaks, format_gc_tweaks_fill, snprintf_tweak, format_gc_tweaks_len,
      gc_tweaks, gc_tweak_names, List.enum, List.enumFrom, tweaked_values, initial_values,
      count_digits, format_uintnat, String.length]
    decide
  · exact (format_gc_tweaks_exact (fun _ => true)
      (gc_tweaks initial_values initial_values)).2.2.2.1 (by decide)

/-! ## The handler call made by `caml_execute_signal_exn` -/

theorem execute_signal_call {σ : Type} (p : Platform) (env : Env σ) (n : Int) (s : St σ) :
    ∃ c : Call σ, (caml_execute_signal_exn p env n s).1.trace = s.trace ++ [c] ∧
      c.ev.executed_signal = some n ∧
      handler_result env c = some (caml_execute_signal_exn p env n s).2 ∧
      c.pre.caml_pending_signals = s.w.caml_pending_signals ∧
      (caml_execute_signal_exn p env n s).1.w.caml_pending_signals
        = c.post.caml_pending_signals ∧
      (p.POSIX_SIGNALS = true →
        (caml_execute_signal_exn p env n s).1.w.sigmask = s.w.sigmask) := by
  refine ⟨_, rfl, rfl, rfl, ?_, ?_, ?_⟩
  · simp only [caml_execute_signal_exn]; split <;> rfl
  · simp only [caml_execute_signal_exn]; split <;> rfl
  · intro hp
    simp only [caml_execute_signal_exn, hp, if_true]

/-! ## Blocked signals and aborted drains -/

theorem signal_pending_signo_of (p : Platform) (words : List Nat) (i j : Nat)
    (hj : j < p.BITS_PER_WORD) :
    signal_pending p words (signo_of p i j) = (atomic_load words i).testBit j := by
  unfold signal_pending pending_bit
  rw [(signo_of_encode p i j hj).2.1, (signo_of_encode p i j hj).2.2]

/-- The calls made by a drain in which the step of category `msg` yields an exception result:
the GC interrupt, the signal handlers, and the calls of the steps up to that one. -/
theorem drain_raises_trace {σ : Type} (p : Platform) (env : Env σ) (s : St σ) (exn : value)
    (st : St σ) (msg : String) (h : drain_raises p env s exn st msg) :
    ∃ sigs : List (Call σ), (∀ c ∈ sigs, handler_call p env c) ∧
      ((msg = "signal handler" ∧
          (st.trace.drop s.trace.length).map Call.ev
            = Event.handle_gc_interrupt :: sigs.map Call.ev) ∨
       (msg = "memprof callback" ∧
          (st.trace.drop s.trace.length).map Call.ev
            = Event.handle_gc_interrupt :: sigs.map Call.ev
              ++ [Event.memprof_run_callbacks_exn]) ∨
       (msg = "finaliser" ∧
          (st.trace.drop s.trace.length).map Call.ev
            = Event.handle_gc_interrupt :: sigs.map Call.ev
              ++ [Event.memprof_run_callbacks_exn, Event.final_do_calls_exn])) := by
  obtain ⟨sigs, htr, hcalls, -⟩ :=
    process_pending_signals_trace p env (do_pending_actions_begin env s)
  have hsig : (signals_step p env s).1.trace
      = s.trace ++ (⟨Event.handle_gc_interrupt, s.w, env.caml_handle_gc_interrupt s.w⟩
          :: sigs) := by
    simp only [signals_step]
    rw [htr]
    simp [do_pending_actions_begin]
  refine ⟨sigs, hcalls, ?_⟩
  obtain ⟨-, h1 | h1 | h1⟩ := h
  · obtain ⟨hst, hmsg⟩ := h1
    left
    refine ⟨hmsg, ?_⟩
    have : st = (signals_step p env s).1 := by rw [hst]
    rw [this, hsig, drop_length_append]
    rfl
  · obtain ⟨-, hst, hmsg⟩ := h1
    right; left
    refine ⟨hmsg, ?_⟩
    have : st = (memprof_step env (signals_step p env s).1).1 := by rw [hst]
    rw [this]
    simp only [memprof_step]
    rw [hsig, List.append_assoc, drop_length_append]
    simp
  · obtain ⟨-, -, hst, hmsg⟩ := h1
    right; right
    refine ⟨hmsg, ?_⟩
    have : st = (final_step env (memprof_step env (signals_step p env s).1).1).1 := by
      rw [hst]
    rw [this]
    simp only [final_step, memprof_step]
    rw [hsig, List.append_assoc, List.append_assoc, drop_length_append]
    simp

/-! ## The writes of the drain to the pending-signal array, whatever the handlers do -/

theorem ClearChain_append {σ : Type} (p : Platform) (set : sigset_t) (l1 l2 : List (Call σ))
    (a m b : List Nat) (h1 : ClearChain p set a l1 m) (h2 : ClearChain p set m l2 b) :
    ClearChain p set a (l1 ++ l2) b := by
  induction l1 generalizing a with
  | nil =>
    simp only [ClearChain] at h1
    subst h1
    exact h2
  | cons c cs ih => exact ⟨h1.1, ih _ h1.2⟩

theorem cas_clear_loop_cleared (p : Platform) (mem curr mask stored : Nat)
    (hbit : ¬ curr &&& mask = 0)
    (h : cas_clear_loop p mem curr mask = CasExit.cleared stored) :
    stored = mem &&& uintnat_not p mask ∧ ¬ mem &&& mask = 0 := by
  unfold cas_clear_loop at h
  split at h
  · rename_i heq
    cases h
    exact ⟨by rw [heq], by rw [heq]; exact hbit⟩
  · split at h
    · cases h
    · split at h
      · cases h
      · rename_i hm
        cases h
        exact ⟨rfl, hm⟩

theorem testBit_uintnat_not (p : Platform) (j b : Nat) (hj : j < p.BITS_PER_WORD) :
    (uintnat_not p (1 <<< j)).testBit b = (decide (b < p.BITS_PER_WORD) && !decide (b = j)) := by
  have h2 : 2 ^ j < 2 ^ p.BITS_PER_WORD := Nat.pow_lt_pow_right (by decide) hj
  have hnot : uintnat_not p (1 <<< j) = 2 ^ p.BITS_PER_WORD - (2 ^ j + 1) := by
    unfold uintnat_not
    rw [Nat.one_shiftLeft]
    omega
  rw [hnot, Nat.testBit_two_pow_sub_succ h2, Nat.testBit_two_pow]
  by_cases hbj : b = j
  · subst hbj; simp
  · have : ¬ j = b := fun e => hbj e.symm
    simp [hbj, this]

/-- Clearing the bit of one signal leaves the bit of any other signal as it is. -/
theorem pending_bit_clear_other (p : Platform) (words : List Nat) (i j i0 j0 : Nat)
    (hj : j < p.BITS_PER_WORD) (hj0 : j0 < p.BITS_PER_WORD)
    (hne : signo_of p i j ≠ signo_of p i0 j0) :
    pending_bit (atomic_store words i (atomic_load words i &&& uintnat_not p (1 <<< j))) i0 j0
      = pending_bit words i0 j0 := by
  unfold pending_bit atomic_store
  rw [atomic_load_set]
  split
  · rename_i h
    obtain ⟨rfl, -⟩ := h
    have hjj : ¬ j0 = j := fun e => hne (by rw [e])
    rw [Nat.testBit_and, testBit_uintnat_not p j j0 hj]
    simp [hj0, hjj]
  · rfl

/-- Clearing a bit that is set clears it. -/
theorem pending_bit_clear_self (p : Platform) (words : List Nat) (i j : Nat)
    (hj : j < p.BITS_PER_WORD) (hset : pending_bit words i j = true) :
    pending_bit (atomic_store words i (atomic_load words i &&& uintnat_not p (1 <<< j))) i j
      = false := by
  have hlen : i < words.length := by
    by_contra hge
    have : atomic_load words i = 0 := by
      unfold atomic_load
      rw [List.getD_eq_getElem?_getD, List.getElem?_eq_none (Nat.le_of_not_lt hge)]
      rfl
    unfold pending_bit at hset
    rw [this] at hset
    simp at hset
  unfold pending_bit atomic_store
  rw [atomic_load_set]
  simp only [hlen, and_self, if_true]
  rw [Nat.testBit_and, testBit_uintnat_not p j j hj]
  simp

/-- The bit loop on word `i`, whatever the handlers do: the calls it makes are handler calls
for bit positions of `js` taken in the order of `js`, each entered with the array in which
the loop has just cleared the bit of its signal; every handler but the last returned a result
that is not an exception, and a result returned from inside the loop is the exception result of
the last call. -/
theorem process_pending_bits_chain {σ : Type} (p : Platform) (env : Env σ) (set : sigset_t)
    (i : Nat) (js : List Nat) (curr : Nat) (s : St σ)
    (hjs : ∀ j ∈ js, j < p.BITS_PER_WORD) :
    ∃ (new : List (Call σ)) (sub : List Nat) (front : List value),
      (process_pending_bits p env set i js curr s).1.trace = s.trace ++ new ∧
      ClearChain p set s.w.caml_pending_signals new
        (process_pending_bits p env set i js curr s).1.w.caml_pending_signals ∧
      List.Sublist sub js ∧
      executed_signals new = sub.map (fun j => some (signo_of p i j)) ∧
      new.map (handler_result env)
        = (front ++ (process_pending_bits p env set i js curr s).2.toList).map some ∧
      (∀ v ∈ front, p.Is_exception_result v = false) ∧
      (∀ exn, (process_pending_bits p env set i js curr s).2 = some exn →
        p.Is_exception_result exn = true) := by
  induction js generalizing curr s with
  | nil =>
    refine ⟨[], [], [], ?_, ?_, ?_, ?_, ?_, ?_, ?_⟩
    · simp [process_pending_bits]
    · simp [process_pending_bits, ClearChain]
    · exact List.Sublist.slnil
    · simp [executed_signals]
    · simp [process_pending_bits]
    · simp
    · simp [process_pending_bits]
  | cons j js ih =>
    have hj : j < p.BITS_PER_WORD := hjs j (List.mem_cons_self _ _)
    have hjs' : ∀ j' ∈ js, j' < p.BITS_PER_WORD := fun j' h => hjs j' (List.mem_cons_of_mem _ h)
    simp only [process_pending_bits]
    split
    · obtain ⟨new, sub, front, h1, h2, h3, h4, h5, h6, h7⟩ := ih curr s hjs'
      exact ⟨new, sub, front, h1, h2, List.Sublist.cons _ h3, h4, h5, h6, h7⟩
    · rename_i hbit
      split
      · obtain ⟨new, sub, front, h1, h2, h3, h4, h5, h6, h7⟩ := ih curr s hjs'
        exact ⟨new, sub, front, h1, h2, List.Sublist.cons _ h3, h4, h5, h6, h7⟩
      · rename_i hmk
        split
        · refine ⟨[], [], [], ?_, ?_, ?_, ?_, ?_, ?_, ?_⟩
          · simp
          · simp [ClearChain]
          · exact List.nil_sublist _
          · simp [executed_signals]
          · simp
          · simp
          · simp
        · obtain ⟨new, sub, front, h1, h2, h3, h4, h5, h6, h7⟩ := ih _ s hjs'
          exact ⟨new, sub, front, h1, h2, List.Sublist.cons _ h3, h4, h5, h6, h7⟩
        · rename_i stored hcas
          obtain ⟨hst, hmem⟩ := cas_clear_loop_cleared p _ curr _ stored hbit hcas
          obtain ⟨c, hc, hev, hres, hpre, hpost, -⟩ :=
            execute_signal_call p env (signo_of p i j) (cas_store s i stored)
          have hc' : (caml_execute_signal_exn p env (signo_of p i j)
              (cas_store s i stored)).1.trace = s.trace ++ [c] := hc
          have hset : pending_bit s.w.caml_pending_signals i j = true := by
            unfold pending_bit
            rw [and_shiftLeft_eq_zero_iff] at hmem
            simpa using hmem
          have hlink : ∃ i' j', j' < p.BITS_PER_WORD ∧
              c.ev.executed_signal = some (signo_of p i' j') ∧
              (p.POSIX_SIGNALS && sigismember set (signo_of p i' j')) = false ∧
              pending_bit s.w.caml_pending_signals i' j' = true ∧
              c.pre.caml_pending_signals
                = atomic_store s.w.caml_pending_signals i'
                    (atomic_load s.w.caml_pending_signals i' &&& uintnat_not p (1 <<< j')) :=
            ⟨i, j, hj, hev, Bool.eq_false_iff.2 hmk, hset, by rw [hpre, hst]; rfl⟩
          generalize caml_execute_signal_exn p env (signo_of p i j)
            (cas_store s i stored) = e at hc' hres hpost
          split
          · rename_i hexc
            refine ⟨[c], [j], [], hc', ⟨hlink, hpost⟩,
              List.Sublist.cons₂ _ (List.nil_sublist _), ?_, ?_, ?_, ?_⟩
            · simp [executed_signals, hev]
            · simp [hres]
            · simp
            · intro exn hexn
              cases hexn
              exact hexc
          · rename_i hexc
            split
            · refine ⟨[c], [j], [e.2], hc', ⟨hlink, hpost⟩,
                List.Sublist.cons₂ _ (List.nil_sublist _), ?_, ?_, ?_, ?_⟩
              · simp [executed_signals, hev]
              · simp [hres]
              · intro v hv
                rw [List.mem_singleton] at hv
                rw [hv]
                simpa using hexc
              · intro exn hexn
                cases hexn
            · obtain ⟨new, sub, front, h1, h2, h3, h4, h5, h6, h7⟩ :=
                ih (atomic_load e.1.w.caml_pending_signals i) e.1 hjs'
              refine ⟨c :: new, j :: sub, e.2 :: front, ?_, ⟨hlink, ?_⟩,
                List.Sublist.cons₂ _ h3, ?_, ?_, ?_, h7⟩
              · rw [h1, hc']
                simp
              · rw [← hpost]
                exact h2
              · show c.ev.executed_signal :: executed_signals new = _
                rw [hev, h4]
                rfl
              · simp [hres, h5]
              · intro v hv
                rcases List.mem_cons.1 hv with rfl | hv
                · simpa using hexc
                · exact h6 v hv

theorem all_signals_cons (p : Platform) (i : Nat) (is : List Nat) :
    all_signals p (i :: is)
      = (List.range p.BITS_PER_WORD).map (signo_of p i) ++ all_signals p is := by
  simp [all_signals, List.flatMap_cons]

/-- The word loop, whatever the handlers do. -/
theorem process_pending_words_chain {σ : Type} (p : Platform) (env : Env σ) (set : sigset_t)
    (hunit : p.Is_exception_result p.Val_unit = false) (is : List Nat) (s : St σ) :
    ∃ (new : List (Call σ)) (sub : List Int) (front : List value),
      (process_pending_words p env set is s).1.trace = s.trace ++ new ∧
      ClearChain p set s.w.caml_pending_signals new
        (process_pending_words p env set is s).1.w.caml_pending_signals ∧
      List.Sublist sub (all_signals p is) ∧
      executed_signals new = sub.map some ∧
      new.map (handler_result env)
        = (front ++ raised_result p (process_pending_words p env set is s).2).map some ∧
      (∀ v ∈ front, p.Is_exception_result v = false) := by
  induction is generalizing s with
  | nil =>
    refine ⟨[], [], [], ?_, ?_, ?_, ?_, ?_, ?_⟩
    · simp [process_pending_words]
    · simp [process_pending_words, ClearChain]
    · exact List.Sublist.slnil
    · simp [executed_signals]
    · simp [process_pending_words, raised_result, hunit]
    · simp
  | cons i is ih =>
    simp only [process_pending_words]
    split
    · obtain ⟨new, sub, front, h1, h2, h3, h4, h5, h6⟩ := ih s
      refine ⟨new, sub, front, h1, h2, ?_, h4, h5, h6⟩
      rw [all_signals_cons]
      exact h3.trans (List.sublist_append_right _ _)
    · obtain ⟨new1, sub1, front1, h1, h2, h3, h4, h5, h6, h7⟩ :=
        process_pending_bits_chain p env set i (List.range p.BITS_PER_WORD)
          (atomic_load s.w.caml_pending_signals i) s (fun j hj => List.mem_range.1 hj)
      split
      · rename_i s1 exn heq
        rw [heq] at h1 h2 h5 h7
        have hexn : p.Is_exception_result exn = true := h7 exn rfl
        refine ⟨new1, sub1.map (signo_of p i), front1, h1, h2, ?_, ?_, ?_, h6⟩
        · rw [all_signals_cons]
          exact (h3.map _).trans (List.sublist_append_left _ _)
        · rw [h4, List.map_map]
          rfl
        · rw [h5]
          simp [raised_result, hexn]
      · rename_i s1 heq
        rw [heq] at h1 h2 h5
        obtain ⟨new2, sub2, front2, k1, k2, k3, k4, k5, k6⟩ := ih s1
        refine ⟨new1 ++ new2, sub1.map (signo_of p i) ++ sub2, front1 ++ front2, ?_,
          ClearChain_append p set _ _ _ _ _ h2 k2, ?_, ?_, ?_, ?_⟩
        · rw [k1, h1, List.append_assoc]
        · rw [all_signals_cons]
          exact (h3.map _).append k3
        · simp only [executed_signals, List.map_append] at h4 k4 ⊢
          rw [h4, k4, List.map_map]
          rfl
        · rw [List.map_append, h5, k5]
          simp
        · intro v hv
          rcases List.mem_append.1 hv with h | h
          · exact h6 v h
          · exact k6 v h

/-- Every run of `caml_process_pending_signals_exn`, whatever the handlers do: the calls it
makes are handler calls for signals taken in the order of the bits of the array, each entered
with the array in which the drain has just cleared the bit of its signal, a bit that was set
and whose signal the mask read at the start does not block; the drain writes nothing else to
the array; every handler but the last returned a result that is not an exception, and if the
result of the drain is an exception it is the result of the last call. -/
theorem process_pending_signals_chain {σ : Type} (p : Platform) (env : Env σ)
    (hunit : p.Is_exception_result p.Val_unit = false) (s : St σ) :
    ∃ (new : List (Call σ)) (sub : List Int) (front : List value),
      (caml_process_pending_signals_exn p env s).1.trace = s.trace ++ new ∧
      ClearChain p s.w.sigmask s.w.caml_pending_signals new
        (caml_process_pending_signals_exn p env s).1.w.caml_pending_signals ∧
      List.Sublist sub (all_signals p (List.range p.NSIG_WORDS)) ∧
      executed_signals new = sub.map some ∧
      new.map (handler_result env)
        = (front ++ raised_result p (caml_process_pending_signals_exn p env s).2).map some ∧
      (∀ v ∈ front, p.Is_exception_result v = false) := by
  simp only [caml_process_pending_signals_exn]
  split
  · refine ⟨[], [], [], ?_, ?_, ?_, ?_, ?_, ?_⟩
    · simp
    · simp [ClearChain]
    · exact List.nil_sublist _
    · simp [executed_signals]
    · simp [raised_result, hunit]
    · simp
  · exact process_pending_words_chain p env s.w.sigmask hunit _ s

/-- The drain visits the bits in ascending order of their signal number. -/
theorem all_signals_pairwise (p : Platform) (k : Nat) :
    (all_signals p (List.range k)).Pairwise (· < ·) := by
  unfold all_signals
  rw [List.pairwise_flatMap]
  constructor
  · intro i _
    apply List.Pairwise.map (R := (· < ·))
    · intro a b hab
      unfold signo_of
      omega
    · exact List.pairwise_lt_range _
  · apply List.Pairwise.imp _ (List.pairwise_lt_range k)
    intro i1 i2 h12 x hx y hy
    simp only [List.mem_map, List.mem_range] at hx hy
    obtain ⟨j1, hj1, rfl⟩ := hx
    obtain ⟨j2, -, rfl⟩ := hy
    unfold signo_of
    have : (i1 + 1) * p.BITS_PER_WORD ≤ i2 * p.BITS_PER_WORD :=
      Nat.mul_le_mul_right _ h12
    have h3 : (i1 + 1) * p.BITS_PER_WORD = i1 * p.BITS_PER_WORD + p.BITS_PER_WORD := by ring
    omega

/-- The drain does not call the handler of a signal that the mask read at the start blocks. -/
theorem ClearChain_unmasked {σ : Type} (p : Platform) (set : sigset_t)
    (hposix : p.POSIX_SIGNALS = true) (calls : List (Call σ)) (w0 w1 : List Nat)
    (h : ClearChain p set w0 calls w1) (n : Int) (hmask : sigismember set n = true) :
    some n ∉ executed_signals calls := by
  induction calls generalizing w0 with
  | nil => simp [executed_signals]
  | cons c cs ih =>
    obtain ⟨⟨i, j, -, hev, hmk, -, -⟩, hrest⟩ := h
    intro hmem
    rcases List.mem_cons.1 hmem with heq | hin
    · have heq' : some n = some (signo_of p i j) := by rw [← hev]; exact heq
      injection heq' with heq'
      rw [← heq', hposix, hmask] at hmk
      simp at hmk
    · exact ih _ hrest hin

/-- The last handler call of a drain is entered with the bit of its signal cleared, and the
drain ends in the array that this call leaves. -/
theorem ClearChain_last {σ : Type} (p : Platform) (set : sigset_t) (front : List (Call σ))
    (c : Call σ) (w0 w1 : List Nat) (h : ClearChain p set w0 (front ++ [c]) w1) :
    w1 = c.post.caml_pending_signals ∧
    ∃ i j, j < p.BITS_PER_WORD ∧ c.ev.executed_signal = some (signo_of p i j) ∧
      pending_bit c.pre.caml_pending_signals i j = false := by
  induction front generalizing w0 with
  | nil =>
    obtain ⟨⟨i, j, hj, hev, -, hset, hpre⟩, hrest⟩ := h
    refine ⟨hrest, i, j, hj, hev, ?_⟩
    rw [hpre]
    exact pending_bit_clear_self p w0 i j hj hset
  | cons c' cs ih => exact ih _ h.2

/-- The writes of the drain leave the bit of a signal whose handler it does not call as it
is. -/
theorem ClearChain_kept {σ : Type} (p : Platform) (set : sigset_t)
    (hp0 : 0 < p.BITS_PER_WORD) (calls : List (Call σ)) (w0 w1 : List Nat) (n : Int)
    (hn : 1 ≤ n) (h : ClearChain p set w0 calls w1)
    (hnot : some n ∉ executed_signals calls) :
    BitKept p n w0 calls w1 := by
  induction calls generalizing w0 with
  | nil =>
    simp only [ClearChain] at h
    rw [h]
    exact rfl
  | cons c cs ih =>
    obtain ⟨⟨i, j, hj, hev, -, -, hpre⟩, hrest⟩ := h
    have hne : signo_of p i j ≠ n := by
      intro e
      apply hnot
      show some n ∈ c.ev.executed_signal :: executed_signals cs
      rw [hev, e]
      exact List.mem_cons_self _ _
    refine ⟨?_, ih _ hrest (fun hin => hnot (List.mem_cons_of_mem _ hin))⟩
    rw [hpre]
    unfold signal_pending
    exact pending_bit_clear_other p w0 i j _ _ hj (Nat.mod_lt _ hp0)
      (by rw [signo_of_decode p n hn]; exact hne)

/-- When neither the drain nor the handler calls change the bit of a signal, the bit is the
same after the drain. -/
theorem BitKept_frame {σ : Type} (p : Platform) (n : Int) (calls : List (Call σ))
    (w0 w1 : List Nat) (h : BitKept p n w0 calls w1)
    (hframe : ∀ c ∈ calls, signal_pending p c.post.caml_pending_signals n
      = signal_pending p c.pre.caml_pending_signals n) :
    signal_pending p w1 n = signal_pending p w0 n := by
  induction calls generalizing w0 with
  | nil => exact h
  | cons c cs ih =>
    rw [ih _ h.2 (fun c' hc' => hframe c' (List.mem_cons_of_mem _ hc')),
      hframe c (List.mem_cons_self _ _), h.1]

theorem not_mem_handler_events {σ : Type} (p : Platform) (env : Env σ)
    (sigs : List (Call σ)) (hall : ∀ c ∈ sigs, handler_call p env c) (e : Event)
    (he : e.executed_signal = none) : e ∉ sigs.map Call.ev := by
  intro hmem
  obtain ⟨c, hc, hcev⟩ := List.mem_map.1 hmem
  obtain ⟨n, hn, -⟩ := hall c hc
  rw [← hcev, hn] at he
  cases he

/-- The calls made by a pass of `caml_do_pending_actions_exn` in which the step of category
`msg` yields an exception result. -/
theorem drain_raises_pass {σ : Type} (p : Platform) (env : Env σ) (s : St σ) (exn : value)
    (st : St σ) (msg : String) (h : drain_raises p env s exn st msg) :
    ∃ sigs : List (Call σ), (∀ c ∈ sigs, handler_call p env c) ∧
      ((msg = "signal handler" ∧
          ((caml_do_pending_actions_exn p env s).state.trace.drop s.trace.length).map Call.ev
            = Event.handle_gc_interrupt :: sigs.map Call.ev) ∨
       (msg = "memprof callback" ∧
          ((caml_do_pending_actions_exn p env s).state.trace.drop s.trace.length).map Call.ev
            = Event.handle_gc_interrupt :: sigs.map Call.ev
              ++ [Event.memprof_run_callbacks_exn]) ∨
       (msg = "finaliser" ∧
          ((caml_do_pending_actions_exn p env s).state.trace.drop s.trace.length).map Call.ev
            = Event.handle_gc_interrupt :: sigs.map Call.ev
              ++ [Event.memprof_run_callbacks_exn, Event.final_do_calls_exn])) := by
  have htrace : (caml_do_pending_actions_exn p env s).state.trace = st.trace := by
    rw [do_pending_actions_of_raises p env s exn st msg h]
    split <;> rfl
  rw [htrace]
  exact drain_raises_trace p env s exn st msg h

/-- Counterexample to C23 as stated, on Linux: signals 2 and 3 are pending and the calling
thread blocks signal 3. The drain calls the handler of signal 2, which unblocks signal 3 with
`Thread.sigmask`; that call processes the pending actions, so the handler of signal 3 runs
inside it and the bit of signal 3 is cleared. After the drain the bit of signal 3, pending and
blocked at the start, is no longer set. -/
theorem process_pending_signals_masked_counterexample :
    linux_amd64.POSIX_SIGNALS = true ∧
    signal_pending linux_amd64 signals_2_3_pending.w.caml_pending_signals 3 = true ∧
    sigismember signals_2_3_pending.w.sigmask 3 = true ∧
    (caml_process_pending_signals_exn linux_amd64 unmasking_env
      signals_2_3_pending).1.trace.map Call.ev = [Event.callback_exn 2 108 (-11)] ∧
    (caml_process_pending_signals_exn linux_amd64 unmasking_env
      signals_2_3_pending).1.w.caml_pending_signals = [0, 0] ∧
    signal_pending linux_amd64 (caml_process_pending_signals_exn linux_amd64 unmasking_env
      signals_2_3_pending).1.w.caml_pending_signals 3 = false := by
  decide

/-- C23: in a build with `POSIX_SIGNALS`, for every pending-signal array, every signal mask
and every behaviour of the handlers, `caml_process_pending_signals_exn` calls no handler for a
pending signal `n` that the mask of the calling thread blocks at the start of the drain, and no
write of the drain changes the bit of `n`: every handler call is entered with the bit as the
previous call, or the start of the drain, left it, and the drain ends with the bit as the last
call left it. Hence, when no handler call of the run changes that bit itself, the bit of `n`
is still set after the drain. -/
theorem process_pending_signals_masked_untouched {σ : Type} (p : Platform) (env : Env σ)
    (hp : p.wf) (hposix : p.POSIX_SIGNALS = true) (s : St σ) (n : Int) (hn1 : 1 ≤ n)
    (hpending : signal_pending p s.w.caml_pending_signals n = true)
    (hmask : sigismember s.w.sigmask n = true) :
    (∀ c ∈ (caml_process_pending_signals_exn p env s).1.trace.drop s.trace.length,
      c.ev.executed_signal ≠ some n) ∧
    BitKept p n s.w.caml_pending_signals
      ((caml_process_pending_signals_exn p env s).1.trace.drop s.trace.length)
      (caml_process_pending_signals_exn p env s).1.w.caml_pending_signals ∧
    ((∀ c ∈ (caml_process_pending_signals_exn p env s).1.trace.drop s.trace.length,
        signal_pending p c.post.caml_pending_signals n
          = signal_pending p c.pre.caml_pending_signals n) →
      signal_pending p (caml_process_pending_signals_exn p env s).1.w.caml_pending_signals n
        = true) := by
  obtain ⟨new, sub, front, htr, hchain, -, -, -, -⟩ :=
    process_pending_signals_chain p env hp.2.2 s
  have hdrop : (caml_process_pending_signals_exn p env s).1.trace.drop s.trace.length = new := by
    rw [htr, drop_length_append]
  rw [hdrop]
  have hnot := ClearChain_unmasked p _ hposix new _ _ hchain n hmask
  have hkept := ClearChain_kept p _ hp.1 new _ _ n hn1 hchain hnot
  refine ⟨fun c hc heq => hnot ?_, hkept, fun hframe => ?_⟩
  · rw [← heq]
    exact List.mem_map_of_mem _ hc
  · rw [BitKept_frame p n new _ _ hkept hframe]
    exact hpending

/-- Witness of C23 on Linux: signals 2, 3, 7 and 9 are pending and signal 3 is blocked; the
drain stops at the handler of signal 7, which raises; the handlers of signals 2 and 7 were
called, and signal 3 is still pending. -/
theorem process_pending_signals_masked_untouched_witness :
    signal_pending linux_amd64 four_signals_pending.w.caml_pending_signals 3 = true ∧
    sigismember four_signals_pending.w.sigmask 3 = true ∧
    (caml_process_pending_signals_exn linux_amd64 break_at_7_env
      four_signals_pending).1.trace.map Call.ev
      = [Event.callback_exn 2 108 (-11), Event.callback_exn 7 128 (-43)] ∧
    (caml_process_pending_signals_exn linux_amd64 break_at_7_env
      four_signals_pending).1.w.caml_pending_signals = [260, 0] ∧
    signal_pending linux_amd64 (caml_process_pending_signals_exn linux_amd64 break_at_7_env
      four_signals_pending).1.w.caml_pending_signals 3 = true :=
  ⟨by decide, by decide, by decide, by decide,
    (process_pending_signals_masked_untouched linux_amd64 break_at_7_env (by decide)
      (by decide) four_signals_pending 3 (by decide) (by decide) (by decide)).2.2
      (by decide)⟩

/-- Counterexample to C24 as stated, on Linux: signals 2 and 3 are pending and not blocked.
The drain calls the handler of signal 2, which goes through a blocking section and processes
the pending actions, so that the handler of signal 3 runs inside it and the bit of signal 3 is
cleared, and then raises `Sys.Break`. The drain returns the exception result at this first
handler, and the bit of signal 3, pending and not yet visited, is no longer set. -/
theorem drain_aborts_on_exception_counterexample :
    signal_pending linux_amd64 signals_2_3_unblocked.w.caml_pending_signals 3 = true ∧
    linux_amd64.Is_exception_result
      (caml_process_pending_signals_exn linux_amd64 nested_raising_env
        signals_2_3_unblocked).2 = true ∧
    (caml_process_pending_signals_exn linux_amd64 nested_raising_env
      signals_2_3_unblocked).1.trace.map Call.ev = [Event.callback_exn 2 108 (-11)] ∧
    (caml_process_pending_signals_exn linux_amd64 nested_raising_env
      signals_2_3_unblocked).1.w.caml_pending_signals = [0, 0] ∧
    signal_pending linux_amd64 (caml_process_pending_signals_exn linux_amd64 nested_raising_env
      signals_2_3_unblocked).1.w.caml_pending_signals 3 = false := by
  decide

/-- C24, amended: a failure aborts the remainder of the drain pass. In
`caml_do_pending_actions_exn`, if the signal step yields an exception result, the calls of the
pass are the GC interrupt and signal handlers only: no memprof callback, finaliser or external
interrupt is run; if the memprof step yields one, the memprof callbacks are the last call: no
finaliser or external interrupt is run; if the finaliser step yields one, the external
interrupt is not processed. And when `caml_process_pending_signals_exn` returns an exception result, the handler calls of
the run end with the call that returned it, for a signal `n`; every earlier handler returned a
result that is not an exception; the call for `n` was entered with the bit of `n` cleared; the
drain wrote nothing to the pending-signal array after it; and for every signal `m` above `n`,
the signals not yet visited, no handler was called and no write of the drain changed its bit,
so that the bit of `m` is as it was at the start when the handler calls did not change it
themselves. -/
theorem drain_aborts_on_exception {σ : Type} (p : Platform) (env : Env σ) (hp : p.wf)
    (s : St σ) :
    (p.Is_exception_result (signals_step p env s).2 = true →
      ∃ sigs : List (Call σ), (∀ c ∈ sigs, handler_call p env c) ∧
        ((caml_do_pending_actions_exn p env s).state.trace.drop s.trace.length).map Call.ev
          = Event.handle_gc_interrupt :: sigs.map Call.ev ∧
        Event.memprof_run_callbacks_exn ∉
          ((caml_do_pending_actions_exn p env s).state.trace.drop s.trace.length).map Call.ev ∧
        Event.final_do_calls_exn ∉
          ((caml_do_pending_actions_exn p env s).state.trace.drop s.trace.length).map Call.ev ∧
        Event.process_external_interrupt ∉
          ((caml_do_pending_actions_exn p env s).state.trace.drop s.trace.length).map
            Call.ev) ∧
    (p.Is_exception_result (signals_step p env s).2 = false →
      p.Is_exception_result (memprof_step env (signals_step p env s).1).2 = true →
      ∃ sigs : List (Call σ), (∀ c ∈ sigs, handler_call p env c) ∧
        ((caml_do_pending_actions_exn p env s).state.trace.drop s.trace.length).map Call.ev
          = Event.handle_gc_interrupt :: sigs.map Call.ev
            ++ [Event.memprof_run_callbacks_exn] ∧
        Event.final_do_calls_exn ∉
          ((caml_do_pending_actions_exn p env s).state.trace.drop s.trace.length).map Call.ev ∧
        Event.process_external_interrupt ∉
          ((caml_do_pending_actions_exn p env s).state.trace.drop s.trace.length).map
            Call.ev) ∧
    (p.Is_exception_result (signals_step p env s).2 = false →
      p.Is_exception_result (memprof_step env (signals_step p env s).1).2 = false →
      p.Is_exception_result
        (final_step env (memprof_step env (signals_step p env s).1).1).2 = true →
      ∃ sigs : List (Call σ), (∀ c ∈ sigs, handler_call p env c) ∧
        ((caml_do_pending_actions_exn p env s).state.trace.drop s.trace.length).map Call.ev
          = Event.handle_gc_interrupt :: sigs.map Call.ev
            ++ [Event.memprof_run_callbacks_exn, Event.final_do_calls_exn] ∧
        Event.process_external_interrupt ∉
          ((caml_do_pending_actions_exn p env s).state.trace.drop s.trace.length).map
            Call.ev) ∧
    (p.Is_exception_result (caml_process_pending_signals_exn p env s).2 = true →
      ∃ (front : List (Call σ)) (c : Call σ) (n : Int),
        (caml_process_pending_signals_exn p env s).1.trace.drop s.trace.length
          = front ++ [c] ∧
        (∀ c1 ∈ front, ∃ v, handler_result env c1 = some v ∧
          p.Is_exception_result v = false) ∧
        c.ev.executed_signal = some n ∧
        handler_result env c = some (caml_process_pending_signals_exn p env s).2 ∧
        signal_pending p c.pre.caml_pending_signals n = false ∧
        (caml_process_pending_signals_exn p env s).1.w.caml_pending_signals
          = c.post.caml_pending_signals ∧
        ∀ m : Int, n < m →
          (∀ c1 ∈ (caml_process_pending_signals_exn p env s).1.trace.drop s.trace.length,
            c1.ev.executed_signal ≠ some m) ∧
          BitKept p m s.w.caml_pending_signals
            ((caml_process_pending_signals_exn p env s).1.trace.drop s.trace.length)
            (caml_process_pending_signals_exn p env s).1.w.caml_pending_signals ∧
          ((∀ c1 ∈ (caml_process_pending_signals_exn p env s).1.trace.drop s.trace.length,
              signal_pending p c1.post.caml_pending_signals m
                = signal_pending p c1.pre.caml_pending_signals m) →
            signal_pending p
                (caml_process_pending_signals_exn p env s).1.w.caml_pending_signals m
              = signal_pending p s.w.caml_pending_signals m)) := by
  refine ⟨?_, ?_, ?_, ?_⟩
  · intro hexc
    obtain ⟨sigs, hall, hcases⟩ := drain_raises_pass p env s (signals_step p env s).2
      (signals_step p env s).1 "signal handler" ⟨hexc, Or.inl ⟨rfl, rfl⟩⟩
    rcases hcases with ⟨-, hev⟩ | ⟨hmsg, -⟩ | ⟨hmsg, -⟩
    · refine ⟨sigs, hall, hev, ?_, ?_, ?_⟩
      · rw [hev]
        intro hmem
        rcases List.mem_cons.1 hmem with h | h
        · cases h
        · exact not_mem_handler_events p env sigs hall _ (by rfl) h
      · rw [hev]
        intro hmem
        rcases List.mem_cons.1 hmem with h | h
        · cases h
        · exact not_mem_handler_events p env sigs hall _ (by rfl) h
      · rw [hev]
        intro hmem
        rcases List.mem_cons.1 hmem with h | h
        · cases h
        · exact not_mem_handler_events p env sigs hall _ (by rfl) h
    · exact absurd hmsg (by decide)
    · exact absurd hmsg (by decide)
  · intro h0 hexc
    obtain ⟨sigs, hall, hcases⟩ := drain_raises_pass p env s
      (memprof_step env (signals_step p env s).1).2
      (memprof_step env (signals_step p env s).1).1 "memprof callback"
      ⟨hexc, Or.inr (Or.inl ⟨h0, rfl, rfl⟩)⟩
    rcases hcases with ⟨hmsg, -⟩ | ⟨-, hev⟩ | ⟨hmsg, -⟩
    · exact absurd hmsg (by decide)
    · refine ⟨sigs, hall, hev, ?_, ?_⟩
      · rw [hev]
        intro hmem
        rcases List.mem_append.1 hmem with h | h
        · rcases List.mem_cons.1 h with h | h
          · cases h
          · exact not_mem_handler_events p env sigs hall _ (by rfl) h
        · simp at h
      · rw [hev]
        intro hmem
        rcases List.mem_append.1 hmem with h | h
        · rcases List.mem_cons.1 h with h | h
          · cases h
          · exact not_mem_handler_events p env sigs hall _ (by rfl) h
        · simp at h
    · exact absurd hmsg (by decide)
  · intro h0 h1 hexc
    obtain ⟨sigs, hall, hcases⟩ := drain_raises_pass p env s
      (final_step env (memprof_step env (signals_step p env s).1).1).2
      (final_step env (memprof_step env (signals_step p env s).1).1).1 "finaliser"
      ⟨hexc, Or.inr (Or.inr ⟨h0, h1, rfl, rfl⟩)⟩
    rcases hcases with ⟨hmsg, -⟩ | ⟨hmsg, -⟩ | ⟨-, hev⟩
    · exact absurd hmsg (by decide)
    · exact absurd hmsg (by decide)
    · refine ⟨sigs, hall, hev, ?_⟩
      rw [hev]
      intro hmem
      rcases List.mem_append.1 hmem with h | h
      · rcases List.mem_cons.1 h with h | h
        · cases h
        · exact not_mem_handler_events p env sigs hall _ (by rfl) h
      · simp at h
  · intro hexc
    obtain ⟨new, sub, frontv, htr, hchain, hsub, hexec, hres, hfront⟩ :=
      process_pending_signals_chain p env hp.2.2 s
    have hdrop : (caml_process_pending_signals_exn p env s).1.trace.drop s.trace.length
        = new := by
      rw [htr, drop_length_append]
    rw [hdrop]
    have hraised : raised_result p (caml_process_pending_signals_exn p env s).2
        = [(caml_process_pending_signals_exn p env s).2] := by
      simp [raised_result, hexc]
    simp only [hraised, List.map_append, List.map_cons, List.map_nil] at hres
    obtain ⟨front, l2, hnew, hfr, hl2⟩ := List.map_eq_append_iff.1 hres
    obtain ⟨c, l3, hl2', hc, hl3⟩ := List.map_eq_cons_iff.1 hl2
    have hl3' : l3 = [] := List.map_eq_nil_iff.1 hl3
    subst hl3'
    subst hl2'
    subst hnew
    obtain ⟨hfinal, i, j, hj, hev, hclr⟩ := ClearChain_last p _ front c _ _ hchain
    have hn1 : 1 ≤ signo_of p i j := (signo_of_encode p i j hj).1
    have hpw : sub.Pairwise (· < ·) := (all_signals_pairwise p _).sublist hsub
    have hexec' : sub.map some = executed_signals front ++ [some (signo_of p i j)] := by
      rw [← hexec]
      simp [executed_signals, hev]
    obtain ⟨sub1, sub2, hsubeq, hs1, hs2⟩ := List.map_eq_append_iff.1 hexec'
    obtain ⟨x, l4, hsub2, hx, hl4⟩ := List.map_eq_cons_iff.1 hs2
    have hl4' : l4 = [] := List.map_eq_nil_iff.1 hl4
    subst hl4'
    subst hsub2
    subst hsubeq
    injection hx with hx
    subst hx
    have hlt : ∀ a ∈ sub1, a < signo_of p i j := fun a ha =>
      (List.pairwise_append.1 hpw).2.2 a ha _ (List.mem_singleton_self _)
    refine ⟨front, c, signo_of p i j, rfl, ?_, hev, hc, ?_, hfinal, ?_⟩
    · intro c1 hc1
      have hm : handler_result env c1 ∈ front.map (handler_result env) :=
        List.mem_map_of_mem _ hc1
      rw [hfr] at hm
      obtain ⟨v, hv, hveq⟩ := List.mem_map.1 hm
      exact ⟨v, hveq.symm, hfront v hv⟩
    · rw [signal_pending_signo_of p _ i j hj]
      exact hclr
    · intro m hm
      have hnot : some m ∉ executed_signals (front ++ [c]) := by
        rw [hexec]
        intro hmem
        obtain ⟨y, hy, hym⟩ := List.mem_map.1 hmem
        injection hym with hym
        subst hym
        rcases List.mem_append.1 hy with h | h
        · have := hlt y h
          omega
        · rw [List.mem_singleton] at h
          omega
      have hkept := ClearChain_kept p _ hp.1 (front ++ [c]) _ _ m (by omega) hchain hnot
      refine ⟨fun c1 hc1 heq => hnot ?_, hkept, fun hframe => ?_⟩
      · rw [← heq]
        exact List.mem_map_of_mem _ hc1
      · exact BitKept_frame p m _ _ _ hkept hframe

/-- Witness of C24 on Linux. With signal 7 pending and a handler that raises `Sys.Break`, the
signal step of the pass yields an exception result and the pass calls the GC interrupt and
that handler only. With signals 2, 3, 7 and 9 pending, signal 3 blocked and the handler of
signal 7 raising, the drain of the signals returns the exception after the handlers of signals
2 and 7, and signals 3 and 9 are still pending. -/
theorem drain_aborts_on_exception_witness :
    linux_amd64.Is_exception_result (signals_step linux_amd64 breaking_env signal_7_pending).2
      = true ∧
    ((caml_do_pending_actions_exn linux_amd64 breaking_env signal_7_pending).state.trace.drop
        signal_7_pending.trace.length).map Call.ev
      = [Event.handle_gc_interrupt, Event.callback_exn 7 128 (-43)] ∧
    Event.process_external_interrupt ∉
      ((caml_do_pending_actions_exn linux_amd64 breaking_env signal_7_pending).state.trace.drop
        signal_7_pending.trace.length).map Call.ev ∧
    (caml_process_pending_signals_exn linux_amd64 break_at_7_env four_signals_pending).2
      = 1002 ∧
    (caml_process_pending_signals_exn linux_amd64 break_at_7_env
      four_signals_pending).1.w.caml_pending_signals = [260, 0] ∧
    ∃ (front : List (Call Nat)) (c : Call Nat) (n : Int),
      (caml_process_pending_signals_exn linux_amd64 break_at_7_env
        four_signals_pending).1.trace.drop four_signals_pending.trace.length = front ++ [c] ∧
      c.ev.executed_signal = some n ∧
      signal_pending linux_amd64 c.pre.caml_pending_signals n = false :=
  ⟨by decide, by decide,
    (((drain_aborts_on_exception linux_amd64 breaking_env (by decide) signal_7_pending).1
      (by decide)).elim fun _ h => h.2.2.2.2),
    by decide, by decide,
    (((drain_aborts_on_exception linux_amd64 break_at_7_env (by decide)
      four_signals_pending).2.2.2 (by decide)).elim fun front h => h.elim fun c h =>
        h.elim fun n h => ⟨front, c, n, h.1, h.2.2.1, h.2.2.2.2.1⟩)⟩

end Caml
